import Mathlib

/-! # go-clipboard-plus: history store and transform registry

A shallow embedding of `pkg/history/history.go` and `pkg/transform/transform.go`.

Go strings are byte sequences, not necessarily valid UTF-8; they are modelled as lists of
natural numbers (each below 256 for a real string).  A Go `(T, error)` result is modelled as a
pair whose second component is `none` for a nil error and `some msg` for an error with message
`msg`.  The parts of the Go standard library the code calls (`unicode/utf8`, `time`,
`encoding/json`, `strconv`, `encoding/base64`, `net/url`, `os`) are modelled by their documented
input/output behaviour; bit masks and shifts on bytes are written with `%`, `/` and `*` on
natural numbers.
-/

/-- A Go string or byte slice: a sequence of bytes. -/
abbrev GoString := List Nat

/-- The bytes of an ASCII literal. -/
def ascii (s : String) : GoString := s.data.map Char.toNat

/-! ## unicode/utf8 -/

namespace utf8

/-- The replacement rune U+FFFD. -/
def RuneError : Nat := 0xFFFD

/-- Continuation byte test: `locb <= b <= hicb`. -/
def isCont (b : Nat) : Bool := 0x80 ≤ b && b ≤ 0xBF

/-- Model of `utf8.DecodeRune`: the first rune of `p` and its width in bytes; an invalid or
short encoding gives `(RuneError, 1)`, the empty input `(RuneError, 0)`. -/
def DecodeRune : GoString → Nat × Nat
  | [] => (RuneError, 0)
  | p0 :: rest =>
    if p0 < 0x80 then (p0, 1)
    else if p0 < 0xC2 then (RuneError, 1)
    else if p0 < 0xE0 then
      match rest with
      | b1 :: _ =>
        if isCont b1 then ((p0 % 32) * 64 + b1 % 64, 2) else (RuneError, 1)
      | _ => (RuneError, 1)
    else if p0 < 0xF0 then
      match rest with
      | b1 :: b2 :: _ =>
        if (if p0 = 0xE0 then 0xA0 else 0x80) ≤ b1 ∧ b1 ≤ (if p0 = 0xED then 0x9F else 0xBF) then
          if isCont b2 then ((p0 % 16) * 4096 + (b1 % 64) * 64 + b2 % 64, 3)
          else (RuneError, 1)
        else (RuneError, 1)
      | _ => (RuneError, 1)
    else if p0 < 0xF5 then
      match rest with
      | b1 :: b2 :: b3 :: _ =>
        if (if p0 = 0xF0 then 0x90 else 0x80) ≤ b1 ∧ b1 ≤ (if p0 = 0xF4 then 0x8F else 0xBF) then
          if isCont b2 then
            if isCont b3 then
              ((p0 % 8) * 262144 + (b1 % 64) * 4096 + (b2 % 64) * 64 + b3 % 64, 4)
            else (RuneError, 1)
          else (RuneError, 1)
        else (RuneError, 1)
      | _ => (RuneError, 1)
    else (RuneError, 1)

/-- Model of `utf8.AppendRune` on an empty buffer: the UTF-8 encoding of rune `r`; surrogates
and values above U+10FFFF are written as U+FFFD. -/
def EncodeRune (r : Nat) : GoString :=
  if r ≤ 0x7F then [r]
  else if r ≤ 0x7FF then [0xC0 + r / 64, 0x80 + r % 64]
  else if 0x10FFFF < r ∨ (0xD800 ≤ r ∧ r ≤ 0xDFFF) then [0xEF, 0xBF, 0xBD]
  else if r ≤ 0xFFFF then [0xE0 + r / 4096, 0x80 + r / 64 % 64, 0x80 + r % 64]
  else [0xF0 + r / 262144, 0x80 + r / 4096 % 64, 0x80 + r / 64 % 64, 0x80 + r % 64]

/-- The loop of `utf8.Valid`, with the remaining length as fuel. -/
def validLoop : Nat → GoString → Bool
  | _, [] => true
  | 0, _ :: _ => false
  | fuel + 1, p0 :: rest =>
    let rs := DecodeRune (p0 :: rest)
    if rs.1 = RuneError ∧ rs.2 = 1 then false
    else validLoop fuel ((p0 :: rest).drop rs.2)

/-- Model of `utf8.Valid`: `p` consists entirely of valid UTF-8-encoded runes. -/
def Valid (p : GoString) : Bool := validLoop p.length p

end utf8

/-! ## time -/

namespace time

/-- Model of `isLeap`. -/
def isLeap (year : Int) : Bool := year % 4 = 0 && (year % 100 ≠ 0 || year % 400 = 0)

/-- Model of `daysIn`: the number of days of month `m` (1..12) in `year`. -/
def daysIn (m : Nat) (year : Int) : Nat :=
  if m = 2 then (if isLeap year then 29 else 28)
  else if m = 4 ∨ m = 6 ∨ m = 9 ∨ m = 11 then 30
  else 31

/-- A `time.Time`, held as the civil date and clock reading in its own location together with
that location's offset east of UTC in seconds.  The fields always denote a real date. -/
structure Time where
  year : Int
  month : Nat
  day : Nat
  hour : Nat
  minute : Nat
  second : Nat
  nsec : Nat
  offset : Int
  month_ok : 1 ≤ month ∧ month ≤ 12
  day_ok : 1 ≤ day ∧ day ≤ daysIn month year
  hour_ok : hour ≤ 23
  minute_ok : minute ≤ 59
  second_ok : second ≤ 59
  nsec_ok : nsec ≤ 999999999

/-- The zero `time.Time`: January 1, year 1, 00:00:00 UTC. -/
def Time.zero : Time :=
  ⟨1, 1, 1, 0, 0, 0, 0, 0, by decide, by decide, by decide, by decide, by decide, by decide⟩

/-- The decimal digit character of `d % 10`. -/
def digit (d : Nat) : Nat := 0x30 + d % 10

/-- Two decimal digits of `n` (for `n < 100`), zero padded: `appendInt(b, n, 2)`. -/
def pad2 (n : Nat) : GoString := [digit (n / 10), digit n]

/-- Four decimal digits of `n` (for `n < 10000`), zero padded: `appendInt(b, n, 4)`. -/
def pad4 (n : Nat) : GoString := [digit (n / 1000), digit (n / 100), digit (n / 10), digit n]

/-- Nine decimal digits of `n`, zero padded. -/
def pad9 (n : Nat) : GoString :=
  [digit (n / 100000000), digit (n / 10000000), digit (n / 1000000), digit (n / 100000),
   digit (n / 10000), digit (n / 1000), digit (n / 100), digit (n / 10), digit n]

/-- Drop the trailing `'0'` characters of a digit string (given reversed). -/
def dropZeros : GoString → GoString
  | [] => []
  | c :: cs => if c = 0x30 then dropZeros cs else c :: cs

/-- Model of `appendNano` for the layout `.999999999`: nothing when the nanosecond field is
zero, otherwise a period and the nine digits without their trailing zeros. -/
def appendNano (nsec : Nat) : GoString :=
  if nsec = 0 then [] else 0x2E :: (dropZeros (pad9 nsec).reverse).reverse

/-- Model of the zone suffix of `appendFormatRFC3339`: `Z` for offset zero, otherwise the sign
and the offset in hours and minutes.  Go first divides the offset by 60 with truncation toward
zero, so the sign is negative exactly when the offset is negative and at least a minute. -/
def appendZone (offset : Int) : GoString :=
  if offset = 0 then [0x5A]
  else
    let zone := offset.natAbs / 60
    (if offset < 0 ∧ zone ≠ 0 then 0x2D else 0x2B) ::
      (pad2 (zone / 60) ++ 0x3A :: pad2 (zone % 60))

/-- Model of `Time.appendFormatRFC3339(b, true)` for a year in `[0, 9999]`:
`2006-01-02T15:04:05.999999999Z07:00`. -/
def formatRFC3339Nano (t : Time) : GoString :=
  pad4 t.year.toNat ++ 0x2D :: pad2 t.month ++ 0x2D :: pad2 t.day ++ 0x54 ::
    pad2 t.hour ++ 0x3A :: pad2 t.minute ++ 0x3A :: pad2 t.second ++
    appendNano t.nsec ++ appendZone t.offset

/-- Model of `Time.MarshalJSON`: the quoted RFC 3339 text, or an error when the year is outside
`[0, 9999]` or the zone offset is 24 hours or more. -/
def Time.MarshalJSON (t : Time) : Except GoString GoString :=
  if t.year < 0 ∨ 9999 < t.year then
    .error (ascii "Time.MarshalJSON: year outside of range [0,9999]")
  else if t.offset ≠ 0 ∧ 24 ≤ t.offset.natAbs / 60 / 60 then
    .error (ascii "Time.MarshalJSON: timezone hour outside of range [0,23]")
  else .ok (0x22 :: formatRFC3339Nano t ++ [0x22])

/-- Whether `c` is a decimal digit character. -/
def isDigit (c : Nat) : Bool := 0x30 ≤ c && c ≤ 0x39

/-- Model of the `parseUint` helper of `parseRFC3339`: the value of the digit string `s`,
provided every character is a digit and the value lies in `[lo, hi]`. -/
def parseUint (s : GoString) (lo hi : Nat) : Option Nat :=
  if s.all isDigit then
    let x := s.foldl (fun x c => x * 10 + (c - 0x30)) 0
    if lo ≤ x ∧ x ≤ hi then some x else none
  else none

/-- Model of `parseNanoseconds` on the digits after the period: the first nine digits, scaled to
nanoseconds (further digits are dropped). -/
def parseNanoseconds (ds : GoString) : Nat :=
  let d9 := ds.take 9
  d9.foldl (fun x c => x * 10 + (c - 0x30)) 0 * 10 ^ (9 - d9.length)

/-- The fractional-second part of `parseRFC3339`: a period followed by at least one digit is
consumed together with all the digits after it. -/
def parseFraction (s : GoString) : Nat × GoString :=
  match s with
  | 0x2E :: c :: rest =>
    if isDigit c then
      (parseNanoseconds ((c :: rest).takeWhile isDigit), (c :: rest).dropWhile isDigit)
    else (0, s)
  | _ => (0, s)

/-- The zone part of `parseRFC3339`: `Z`, or a sign, two digits of hours at most 23, a colon and
two digits of minutes at most 59; gives the offset in seconds. -/
def parseZone (s : GoString) : Option Int :=
  match s with
  | [0x5A] => some 0
  | [sg, h1, h2, c, m1, m2] =>
    match parseUint [h1, h2] 0 23, parseUint [m1, m2] 0 59 with
    | some hr, some mm =>
      if (sg = 0x2D ∨ sg = 0x2B) ∧ c = 0x3A then
        some (if sg = 0x2D then -(((hr * 60 + mm) * 60 : Nat) : Int) else (((hr * 60 + mm) * 60 : Nat) : Int))
      else none
    | _, _ => none
  | _ => none

/-- Model of `parseRFC3339`, the parser `Time.UnmarshalJSON` tries first: the fixed-width date
and clock fields with their range checks, an optional fraction and the zone. -/
def parseRFC3339 (s : GoString) : Option Time :=
  match s with
  | y1 :: y2 :: y3 :: y4 :: d1 :: mo1 :: mo2 :: d2 :: da1 :: da2 :: tt :: h1 :: h2 :: c1 ::
      mi1 :: mi2 :: c2 :: s1 :: s2 :: rest =>
    match parseUint [y1, y2, y3, y4] 0 9999, parseUint [mo1, mo2] 1 12 with
    | some year, some month =>
      match parseUint [da1, da2] 1 (daysIn month year), parseUint [h1, h2] 0 23,
          parseUint [mi1, mi2] 0 59, parseUint [s1, s2] 0 59 with
      | some day, some hour, some minute, some second =>
        if d1 = 0x2D ∧ d2 = 0x2D ∧ tt = 0x54 ∧ c1 = 0x3A ∧ c2 = 0x3A then
          let fr := parseFraction rest
          match parseZone fr.2 with
          | some off =>
            if h : (1 ≤ month ∧ month ≤ 12) ∧ (1 ≤ day ∧ day ≤ daysIn month year) ∧
                hour ≤ 23 ∧ minute ≤ 59 ∧ second ≤ 59 ∧ fr.1 ≤ 999999999 then
              some ⟨year, month, day, hour, minute, second, fr.1, off,
                h.1, h.2.1, h.2.2.1, h.2.2.2.1, h.2.2.2.2.1, h.2.2.2.2.2⟩
            else none
          | none => none
        else none
      | _, _, _, _ => none
    | _, _ => none
  | _ => none

end time

/-! ## encoding/json: writing strings -/

namespace json

/-- The table `htmlSafeSet`: the ASCII characters written without escaping when HTML escaping is
on (the default of `Marshal` and `MarshalIndent`): printable ASCII other than the double quote,
the backslash and the characters less-than, greater-than and ampersand. -/
def htmlSafe (b : Nat) : Bool :=
  0x20 ≤ b && b < 0x80 && b ≠ 0x22 && b ≠ 0x5C && b ≠ 0x3C && b ≠ 0x3E && b ≠ 0x26

/-- The lower-case hexadecimal digit character of `n % 16`. -/
def hex (n : Nat) : Nat := if n % 16 < 10 then 0x30 + n % 16 else 0x61 + (n % 16 - 10)

/-- The escape `appendString` writes for an ASCII byte outside `htmlSafeSet`. -/
def escapeByte (b : Nat) : GoString :=
  if b = 0x5C ∨ b = 0x22 then [0x5C, b]
  else if b = 0x08 then [0x5C, 0x62]
  else if b = 0x0C then [0x5C, 0x66]
  else if b = 0x0A then [0x5C, 0x6E]
  else if b = 0x0D then [0x5C, 0x72]
  else if b = 0x09 then [0x5C, 0x74]
  else [0x5C, 0x75, 0x30, 0x30, hex (b / 16), hex b]

/-- The loop of `appendString`, with the remaining length as fuel: safe ASCII is copied, other
ASCII escaped, an invalid UTF-8 byte replaced by the six-character escape of U+FFFD, U+2028 and U+2029
escaped, and any other rune copied. -/
def escapeLoop : Nat → GoString → GoString
  | _, [] => []
  | 0, _ :: _ => []
  | fuel + 1, b :: rest =>
    if b < 0x80 then
      (if htmlSafe b then [b] else escapeByte b) ++ escapeLoop fuel rest
    else
      let rs := utf8.DecodeRune (b :: rest)
      if rs.1 = utf8.RuneError ∧ rs.2 = 1 then
        [0x5C, 0x75, 0x66, 0x66, 0x66, 0x64] ++ escapeLoop fuel rest
      else if rs.1 = 0x2028 ∨ rs.1 = 0x2029 then
        [0x5C, 0x75, 0x32, 0x30, 0x32, hex rs.1] ++ escapeLoop fuel ((b :: rest).drop rs.2)
      else (b :: rest).take rs.2 ++ escapeLoop fuel ((b :: rest).drop rs.2)

/-- Model of `appendString(dst, src, true)`: the JSON string literal for the Go string `src`. -/
def appendString (src : GoString) : GoString :=
  0x22 :: escapeLoop src.length src ++ [0x22]

end json

/-! ## encoding/json: the scanner -/

namespace json

/-- The step functions of the scanner (`stateBeginValue`, `stateInString`, ...), as an
enumeration. -/
inductive Step where
  | beginValueOrEmpty | beginValue | beginStringOrEmpty | beginString | endValue | endTop
  | inString | inStringEsc | inStringEscU | inStringEscU1 | inStringEscU12 | inStringEscU123
  | neg | s1 | s0 | dot | dot0 | e | eSign | e0
  | t | tr | tru | f | fa | fal | fals | n | nu | nul
  | error
  deriving DecidableEq, Repr

/-- The entries of the scanner's parse-state stack. -/
inductive ParseState where
  | objectKey | objectValue | arrayValue
  deriving DecidableEq, Repr

/-- The codes a scanner step returns. -/
inductive Op where
  | scanContinue | scanBeginLiteral | scanBeginObject | scanObjectKey | scanObjectValue
  | scanEndObject | scanBeginArray | scanArrayValue | scanEndArray | scanSkipSpace
  | scanEnd | scanError
  deriving DecidableEq, Repr

/-- The nesting limit of the scanner. -/
def maxNestingDepth : Nat := 10000

/-- The scanner: the current step function, whether the top-level value is complete, and the
stack of parse states (innermost first).  The step `error` stands for a recorded error. -/
structure Scanner where
  step : Step
  endTop : Bool
  parseState : List ParseState
  deriving DecidableEq, Repr

/-- Model of `scanner.reset`. -/
def Scanner.reset : Scanner := ⟨.beginValue, false, []⟩

/-- Model of `isSpace`. -/
def isSpace (c : Nat) : Bool := c = 0x20 || c = 0x09 || c = 0x0D || c = 0x0A

/-- Decimal digit test. -/
def isDigit (c : Nat) : Bool := 0x30 ≤ c && c ≤ 0x39

/-- Hexadecimal digit test, either case. -/
def isHex (c : Nat) : Bool :=
  (0x30 ≤ c && c ≤ 0x39) || (0x61 ≤ c && c ≤ 0x66) || (0x41 ≤ c && c ≤ 0x46)

/-- Model of `scanner.error`: record an error. -/
def Scanner.fail (s : Scanner) : Scanner × Op := ({ s with step := .error }, .scanError)

/-- Model of `scanner.pushParseState`: push, failing beyond the nesting limit. -/
def Scanner.pushParseState (s : Scanner) (p : ParseState) (next : Step) (op : Op) :
    Scanner × Op :=
  if s.parseState.length + 1 ≤ maxNestingDepth then
    ({ s with step := next, parseState := p :: s.parseState }, op)
  else ({ s with step := .error, parseState := p :: s.parseState }, .scanError)

/-- Model of `scanner.popParseState`. -/
def Scanner.popParseState (s : Scanner) : Scanner :=
  match s.parseState.tail with
  | [] => { s with step := .endTop, endTop := true, parseState := [] }
  | ps => { s with step := .endValue, parseState := ps }

/-- Model of `stateEndTop`: a non-space byte records an error, and the code is `scanEnd` either
way. -/
def Scanner.stateEndTop (s : Scanner) (c : Nat) : Scanner × Op :=
  if isSpace c then (s, .scanEnd) else ({ s with step := .error }, .scanEnd)

/-- Model of `stateEndValue`. -/
def Scanner.stateEndValue (s : Scanner) (c : Nat) : Scanner × Op :=
  match s.parseState with
  | [] => Scanner.stateEndTop { s with step := .endTop, endTop := true } c
  | ps :: rest =>
    if isSpace c then ({ s with step := .endValue }, .scanSkipSpace)
    else
      match ps with
      | .objectKey =>
        if c = 0x3A then
          ({ s with step := .beginValue, parseState := .objectValue :: rest }, .scanObjectKey)
        else s.fail
      | .objectValue =>
        if c = 0x2C then
          ({ s with step := .beginString, parseState := .objectKey :: rest }, .scanObjectValue)
        else if c = 0x7D then (s.popParseState, .scanEndObject)
        else s.fail
      | .arrayValue =>
        if c = 0x2C then ({ s with step := .beginValue }, .scanArrayValue)
        else if c = 0x5D then (s.popParseState, .scanEndArray)
        else s.fail

/-- Model of `stateBeginValue`. -/
def Scanner.stateBeginValue (s : Scanner) (c : Nat) : Scanner × Op :=
  if isSpace c then (s, .scanSkipSpace)
  else if c = 0x7B then s.pushParseState .objectKey .beginStringOrEmpty .scanBeginObject
  else if c = 0x5B then s.pushParseState .arrayValue .beginValueOrEmpty .scanBeginArray
  else if c = 0x22 then ({ s with step := .inString }, .scanBeginLiteral)
  else if c = 0x2D then ({ s with step := .neg }, .scanBeginLiteral)
  else if c = 0x30 then ({ s with step := .s0 }, .scanBeginLiteral)
  else if c = 0x74 then ({ s with step := .t }, .scanBeginLiteral)
  else if c = 0x66 then ({ s with step := .f }, .scanBeginLiteral)
  else if c = 0x6E then ({ s with step := .n }, .scanBeginLiteral)
  else if 0x31 ≤ c ∧ c ≤ 0x39 then ({ s with step := .s1 }, .scanBeginLiteral)
  else s.fail

/-- Model of `stateBeginString`. -/
def Scanner.stateBeginString (s : Scanner) (c : Nat) : Scanner × Op :=
  if isSpace c then (s, .scanSkipSpace)
  else if c = 0x22 then ({ s with step := .inString }, .scanBeginLiteral)
  else s.fail

/-- Model of `state0`: after the integer part of a number. -/
def Scanner.state0 (s : Scanner) (c : Nat) : Scanner × Op :=
  if c = 0x2E then ({ s with step := .dot }, .scanContinue)
  else if c = 0x65 ∨ c = 0x45 then ({ s with step := .e }, .scanContinue)
  else s.stateEndValue c

/-- Model of `stateESign`: after the sign of an exponent. -/
def Scanner.stateESign (s : Scanner) (c : Nat) : Scanner × Op :=
  if isDigit c then ({ s with step := .e0 }, .scanContinue) else s.fail

/-- One step of the scanner: apply the current step function to the byte `c`. -/
def Scanner.next (s : Scanner) (c : Nat) : Scanner × Op :=
  let goto (st : Step) : Scanner × Op := ({ s with step := st }, .scanContinue)
  match s.step with
  | .beginValueOrEmpty =>
    if isSpace c then (s, .scanSkipSpace)
    else if c = 0x5D then s.stateEndValue c
    else s.stateBeginValue c
  | .beginValue => s.stateBeginValue c
  | .beginStringOrEmpty =>
    if isSpace c then (s, .scanSkipSpace)
    else if c = 0x7D then
      Scanner.stateEndValue { s with parseState := .objectValue :: s.parseState.tail } c
    else s.stateBeginString c
  | .beginString => s.stateBeginString c
  | .endValue => s.stateEndValue c
  | .endTop => s.stateEndTop c
  | .inString =>
    if c = 0x22 then goto .endValue
    else if c = 0x5C then goto .inStringEsc
    else if c < 0x20 then s.fail
    else (s, .scanContinue)
  | .inStringEsc =>
    if c = 0x62 ∨ c = 0x66 ∨ c = 0x6E ∨ c = 0x72 ∨ c = 0x74 ∨ c = 0x5C ∨ c = 0x2F ∨ c = 0x22 then
      goto .inString
    else if c = 0x75 then goto .inStringEscU
    else s.fail
  | .inStringEscU => if isHex c then goto .inStringEscU1 else s.fail
  | .inStringEscU1 => if isHex c then goto .inStringEscU12 else s.fail
  | .inStringEscU12 => if isHex c then goto .inStringEscU123 else s.fail
  | .inStringEscU123 => if isHex c then goto .inString else s.fail
  | .neg =>
    if c = 0x30 then goto .s0
    else if 0x31 ≤ c ∧ c ≤ 0x39 then goto .s1
    else s.fail
  | .s1 => if isDigit c then (s, .scanContinue) else s.state0 c
  | .s0 => s.state0 c
  | .dot => if isDigit c then goto .dot0 else s.fail
  | .dot0 =>
    if isDigit c then (s, .scanContinue)
    else if c = 0x65 ∨ c = 0x45 then goto .e
    else s.stateEndValue c
  | .e => if c = 0x2B ∨ c = 0x2D then goto .eSign else s.stateESign c
  | .eSign => s.stateESign c
  | .e0 => if isDigit c then (s, .scanContinue) else s.stateEndValue c
  | .t => if c = 0x72 then goto .tr else s.fail
  | .tr => if c = 0x75 then goto .tru else s.fail
  | .tru => if c = 0x65 then goto .endValue else s.fail
  | .f => if c = 0x61 then goto .fa else s.fail
  | .fa => if c = 0x6C then goto .fal else s.fail
  | .fal => if c = 0x73 then goto .fals else s.fail
  | .fals => if c = 0x65 then goto .endValue else s.fail
  | .n => if c = 0x75 then goto .nu else s.fail
  | .nu => if c = 0x6C then goto .nul else s.fail
  | .nul => if c = 0x6C then goto .endValue else s.fail
  | .error => (s, .scanError)

/-- Model of `scanner.eof`: whether the input may end here. -/
def Scanner.eof (s : Scanner) : Bool :=
  if s.step = .error then false
  else if s.endTop then true
  else
    (s.next 0x20).1.endTop

/-- The scanner after reading all of `data`. -/
def Scanner.run (s : Scanner) (data : GoString) : Scanner :=
  data.foldl (fun st c => (st.next c).1) s

/-- Model of `checkValid` and of `json.Valid`: `data` is a valid JSON text for the scanner. -/
def Valid (data : GoString) : Bool := (Scanner.reset.run data).eof

end json

/-! ## encoding/json: reading values -/

namespace json

/-- Model of `getu4`: the value of the four hexadecimal digits of an escape that starts with a
backslash and the letter u, or `none` (Go returns -1). -/
def getu4 (s : GoString) : Option Nat :=
  match s with
  | 0x5C :: 0x75 :: h1 :: h2 :: h3 :: h4 :: _ =>
    let hv (c : Nat) : Option Nat :=
      if 0x30 ≤ c ∧ c ≤ 0x39 then some (c - 0x30)
      else if 0x61 ≤ c ∧ c ≤ 0x66 then some (c - 0x61 + 10)
      else if 0x41 ≤ c ∧ c ≤ 0x46 then some (c - 0x41 + 10)
      else none
    match hv h1, hv h2, hv h3, hv h4 with
    | some a, some b, some c, some d => some (((a * 16 + b) * 16 + c) * 16 + d)
    | _, _, _, _ => none
  | _ => none

/-- Model of `utf16.IsSurrogate`. -/
def isSurrogate (r : Nat) : Bool := 0xD800 ≤ r && r < 0xE000

/-- Model of `utf16.DecodeRune`: the code point of a surrogate pair, or U+FFFD when the two
values are not a high and a low surrogate; `none` stands for the -1 of a failed `getu4`. -/
def utf16DecodeRune (r1 : Nat) (r2 : Option Nat) : Nat :=
  match r2 with
  | some r2 =>
    if 0xD800 ≤ r1 ∧ r1 < 0xDC00 ∧ 0xDC00 ≤ r2 ∧ r2 < 0xE000 then
      (r1 - 0xD800) * 1024 + (r2 - 0xDC00) + 0x10000
    else 0xFFFD
  | none => 0xFFFD

/-- The backslash case of the loop of `unquoteBytes`, on input that starts with the backslash:
the decoded bytes and the input after the escape.  A `u` escape of a high surrogate consumes a
following escape of a low surrogate; a surrogate without its partner becomes U+FFFD.  `none`
stands for `ok = false`. -/
def unquoteEscape (s : GoString) : Option (GoString × GoString) :=
  match s with
  | _ :: x :: rest1 =>
    if x = 0x22 ∨ x = 0x5C ∨ x = 0x2F ∨ x = 0x27 then some ([x], rest1)
    else if x = 0x62 then some ([0x08], rest1)
    else if x = 0x66 then some ([0x0C], rest1)
    else if x = 0x6E then some ([0x0A], rest1)
    else if x = 0x72 then some ([0x0D], rest1)
    else if x = 0x74 then some ([0x09], rest1)
    else if x = 0x75 then
      match getu4 s with
      | none => none
      | some rr =>
        let rest2 := rest1.drop 4
        if isSurrogate rr then
          let dec := utf16DecodeRune rr (getu4 rest2)
          if dec ≠ 0xFFFD then some (utf8.EncodeRune dec, rest2.drop 6)
          else some (utf8.EncodeRune 0xFFFD, rest2)
        else some (utf8.EncodeRune rr, rest2)
    else none
  | _ => none

/-- The main loop of `unquoteBytes` on the text between the quotes, with the remaining length as
fuel: escapes are decoded, ASCII is copied, and any other byte sequence is coerced to well-formed
UTF-8 by decoding and re-encoding it.  `none` stands for `ok = false`. -/
def unquoteLoop : Nat → GoString → Option GoString
  | _, [] => some []
  | 0, _ :: _ => none
  | fuel + 1, c :: rest =>
    if c = 0x5C then
      match unquoteEscape (c :: rest) with
      | none => none
      | some r => (unquoteLoop fuel r.2).map (r.1 ++ ·)
    else if c = 0x22 ∨ c < 0x20 then none
    else if c < 0x80 then (unquoteLoop fuel rest).map (c :: ·)
    else
      (unquoteLoop fuel ((c :: rest).drop (utf8.DecodeRune (c :: rest)).2)).map
        (utf8.EncodeRune (utf8.DecodeRune (c :: rest)).1 ++ ·)

/-- Model of `unquoteBytes` on the text between the quotes of a string literal. -/
def unquote (body : GoString) : Option GoString := unquoteLoop body.length body

/-- The syntax tree of a JSON text as the decoder walks it.  A number keeps its literal; a
string keeps the text between its quotes (which `UnmarshalJSON` methods receive) and its
unquoted value; an object keeps its members in input order, keys unquoted. -/
inductive Syn where
  | null
  | bool (b : Bool)
  | num (lit : GoString)
  | str (body : GoString) (val : GoString)
  | arr (items : List Syn)
  | obj (members : List (GoString × Syn))

/-- A container under construction: the data that goes with one entry of the scanner's parse
stack.  Items and members are held newest first. -/
inductive Frame where
  | array (items : List Syn)
  | object (members : List (GoString × Syn)) (key : Option GoString)

/-- The decoder: the scanner that drives it, the containers under construction (innermost
first), the bytes of the literal being read, and the finished top-level value. -/
structure Decoder where
  scan : Scanner
  stack : List Frame
  lit : GoString
  top : Option Syn
  bad : Bool

/-- The decoder at the start of the input. -/
def Decoder.init : Decoder := ⟨Scanner.reset, [], [], none, false⟩

/-- Hand a finished value to the innermost container under construction: an array takes it as
its next item, an object as its next key (the value is then a string) or as the value of the key
it holds; with no container open it is the top-level value. -/
def Decoder.emit (d : Decoder) (v : Syn) : Decoder :=
  match d.stack with
  | [] => { d with top := some v }
  | .array items :: fs => { d with stack := .array (v :: items) :: fs }
  | .object ms none :: fs =>
    match v with
    | .str _ k => { d with stack := .object ms (some k) :: fs }
    | _ => { d with bad := true }
  | .object ms (some k) :: fs => { d with stack := .object ((k, v) :: ms) none :: fs }

/-- The value of a finished literal, told apart by its first byte as in `literalStore`. -/
def literalValue (lit : GoString) : Option Syn :=
  match lit with
  | [] => none
  | c :: rest =>
    if c = 0x22 then (unquote rest.dropLast).map (Syn.str rest.dropLast ·)
    else if c = 0x74 then some (.bool true)
    else if c = 0x66 then some (.bool false)
    else if c = 0x6E then some .null
    else some (.num lit)

/-- Close the literal being read, if any, and hand its value on. -/
def Decoder.flush (d : Decoder) : Decoder :=
  match d.lit with
  | [] => d
  | lit =>
    match literalValue lit with
    | some v => Decoder.emit { d with lit := [] } v
    | none => { d with lit := [], bad := true }

/-- One step of the decoder: advance the scanner by the byte `c` and act on the code it
returns. -/
def Decoder.next (d : Decoder) (c : Nat) : Decoder :=
  let r := d.scan.next c
  match r.2 with
  | .scanContinue => { d with scan := r.1, lit := d.lit ++ [c] }
  | .scanBeginLiteral => { d.flush with scan := r.1, lit := [c] }
  | .scanBeginObject =>
    let d1 := d.flush
    { d1 with scan := r.1, stack := .object [] none :: d1.stack }
  | .scanBeginArray =>
    let d1 := d.flush
    { d1 with scan := r.1, stack := .array [] :: d1.stack }
  | .scanEndObject =>
    let d1 := d.flush
    match d1.stack with
    | .object ms _ :: fs => Decoder.emit { d1 with scan := r.1, stack := fs } (.obj ms.reverse)
    | _ => { d1 with scan := r.1, bad := true }
  | .scanEndArray =>
    let d1 := d.flush
    match d1.stack with
    | .array items :: fs => Decoder.emit { d1 with scan := r.1, stack := fs } (.arr items.reverse)
    | _ => { d1 with scan := r.1, bad := true }
  | _ => { d.flush with scan := r.1 }

/-- The decoder after reading all of `data`. -/
def Decoder.run (d : Decoder) (data : GoString) : Decoder := data.foldl Decoder.next d

/-- The syntax tree of `data`: the top-level value once the whole input is read (a number that
ends the input is closed by the end of input). -/
def decode (data : GoString) : Option Syn :=
  let d := (Decoder.init.run data).flush
  if d.bad then none else d.top

end json

/-! ## Errors -/

/-- The error values of the standard library that the program passes on.  Their wording is not
modelled, only which error it is. -/
inductive LibError where
  /-- The error `*json.SyntaxError`: the text is not valid JSON. -/
  | jsonSyntax
  /-- The error `*json.UnmarshalTypeError`: a JSON value (`value`) does not fit the Go type
  `goType`. -/
  | jsonUnmarshalType (value : GoString) (goType : GoString)
  /-- The error `*json.MarshalerError` around one of `Time.MarshalJSON` with text `msg`. -/
  | jsonMarshaler (msg : GoString)
  /-- An error of `Time.UnmarshalJSON`. -/
  | timeUnmarshal
  /-- The error `base64.CorruptInputError`. -/
  | base64Corrupt
  /-- The error `url.EscapeError`. -/
  | urlEscape
  /-- An error of the operating system, with whatever text it has. -/
  | os (text : GoString)
  deriving DecidableEq, Repr

/-- A Go `error` value of the program: the text the program itself wrote (the format string of
`fmt.Errorf` up to its verb, with `%s` arguments filled in), followed in the real message by the
text of the library error `cause`, if any. -/
structure GoError where
  text : GoString
  cause : Option LibError
  deriving DecidableEq, Repr

/-! ## pkg/history -/

namespace history

/-- The constant `maxHistorySize`. -/
def maxHistorySize : Nat := 100

/-- The struct `Entry`. -/
structure Entry where
  Content : GoString
  Timestamp : time.Time

/-- The zero value `Entry{}`. -/
def Entry.zero : Entry := ⟨[], time.Time.zero⟩

/-- The struct `History`. -/
structure History where
  entries : List Entry
  filePath : GoString

/-- The files of the file system: the content stored under each path, if any. -/
abbrev Files := GoString → Option GoString

/-- The outcome of one `os.WriteFile` call, decided by the operating system: the write is done,
or it fails with an error and leaves `left` as the file's content. -/
inductive WriteOutcome where
  | done
  | failed (err : GoString) (left : Option GoString)

/-- Replace what is stored under `path`. -/
def Files.set (fs : Files) (path : GoString) (content : Option GoString) : Files :=
  fun p => if p = path then content else fs p

/-- The JSON object `json.MarshalIndent` writes for one entry at nesting depth one, with the
prefix "" and the indent of two spaces. -/
def marshalEntry (e : Entry) : Except LibError GoString :=
  match e.Timestamp.MarshalJSON with
  | .error msg => .error (.jsonMarshaler msg)
  | .ok ts =>
    .ok (ascii "\x7b\n    \"content\": " ++ json.appendString e.Content ++
      ascii ",\n    \"timestamp\": " ++ ts ++ ascii "\n  \x7d")

/-- The objects of all entries, in order; the first failure ends the encoding. -/
def marshalEntries : List Entry → Except LibError (List GoString)
  | [] => .ok []
  | e :: es =>
    match marshalEntry e with
    | .error err => .error err
    | .ok x =>
      match marshalEntries es with
      | .error err => .error err
      | .ok xs => .ok (x :: xs)

/-- Array elements separated by a comma, a line break and one level of indent. -/
def joinItems : List GoString → GoString
  | [] => []
  | [x] => x
  | x :: y :: xs => x ++ ascii ",\n  " ++ joinItems (y :: xs)

/-- Model of `json.MarshalIndent(entries, "", "  ")` for a non-nil slice of entries. -/
def marshalIndent (entries : List Entry) : Except LibError GoString :=
  match marshalEntries entries with
  | .error err => .error err
  | .ok [] => .ok (ascii "[]")
  | .ok items => .ok (ascii "[\n  " ++ joinItems items ++ ascii "\n]")

/-- Model of `History.save`: encode the entries and write the file. -/
def History.save (h : History) (w : WriteOutcome) (fs : Files) : Files × Option GoError :=
  match marshalIndent h.entries with
  | .error err => (fs, some ⟨ascii "failed to marshal history: ", some err⟩)
  | .ok data =>
    match w with
    | .done => (fs.set h.filePath (some data), none)
    | .failed err left => (fs.set h.filePath left, some ⟨[], some (.os err)⟩)

/-- Model of `History.Add`.  `now` is the reading of `time.Now()` and `w` the outcome of the
write, should the call get that far.  Returns the store, the files and the error. -/
def History.Add (h : History) (content : GoString) (now : time.Time) (w : WriteOutcome)
    (fs : Files) : History × Files × Option GoError :=
  if content = [] then (h, fs, none)
  else if 0 < h.entries.length ∧ (h.entries.map Entry.Content).head? = some content then
    (h, fs, none)
  else
    let entry : Entry := ⟨content, now⟩
    let entries := entry :: h.entries
    let entries :=
      if maxHistorySize < entries.length then entries.take maxHistorySize else entries
    let h1 : History := { h with entries := entries }
    let r := h1.save w fs
    (h1, r.1, r.2)

/-- Model of `History.List`. -/
def History.List (h : History) : List Entry := h.entries

/-- Model of `History.Get`. -/
def History.Get (h : History) (index : Int) : Entry × Option GoError :=
  if hr : index < 0 ∨ (h.entries.length : Int) ≤ index then
    (Entry.zero, some ⟨ascii "index out of range", none⟩)
  else (h.entries.get ⟨index.toNat, by omega⟩, none)

/-- A run of `Add` calls in order, each with its content, clock reading and write outcome. -/
def addAll (h : History) (fs : Files) :
    List (GoString × time.Time × WriteOutcome) → History × Files
  | [] => (h, fs)
  | (c, now, w) :: rest => addAll (h.Add c now w fs).1 (h.Add c now w fs).2.1 rest

/-- The contents of the entries of a store, most recent first. -/
def contents (h : History) : List GoString := h.List.map Entry.Content

/-- Model of `History.Clear`. -/
def History.Clear (h : History) (w : WriteOutcome) (fs : Files) :
    History × Files × Option GoError :=
  let h1 : History := { h with entries := [] }
  let r := h1.save w fs
  (h1, r.1, r.2)

end history

/-! ## encoding/json: decoding into `[]Entry` -/

namespace json

/-- The folding under which the decoder compares an object key with a field name, as far as it
matters for a name of ASCII letters: ASCII letters are put in upper case, and the two
non-ASCII runes whose case orbit holds an ASCII letter, U+017F (long s) and U+212A (Kelvin
sign), become `S` and `K`.  Every other byte is kept. -/
def foldName : GoString → GoString
  | [] => []
  | 0xC5 :: 0xBF :: rest => 0x53 :: foldName rest
  | 0xE2 :: 0x84 :: 0xAA :: rest => 0x4B :: foldName rest
  | c :: rest => (if 0x61 ≤ c ∧ c ≤ 0x7A then c - 0x20 else c) :: foldName rest

/-- Whether the object key `key` selects the struct field with JSON name `name`: an exact
match, or a match under case folding. -/
def keyMatches (name key : GoString) : Bool := key = name || foldName key = foldName name

/-- The word by which an `UnmarshalTypeError` names a JSON value. -/
def Syn.kind : Syn → GoString
  | .null => ascii "null"
  | .bool _ => ascii "bool"
  | .num _ => ascii "number"
  | .str _ _ => ascii "string"
  | .arr _ => ascii "array"
  | .obj _ => ascii "object"

/-- Model of `Time.UnmarshalJSON` on a JSON value: `null` leaves the time as it is; a string is
parsed as RFC 3339, first by `parseRFC3339` and, when that fails, by the general layout parser
`time.Parse`, which is not modelled and is passed in as `layoutParse`; anything else is an
error. -/
def unmarshalTime (layoutParse : GoString → Option time.Time) (old : time.Time) (v : Syn) :
    Except LibError time.Time :=
  match v with
  | .null => .ok old
  | .str body _ =>
    match time.parseRFC3339 body with
    | some t => .ok t
    | none =>
      match layoutParse body with
      | some t => .ok t
      | none => .error .timeUnmarshal
  | _ => .error .timeUnmarshal

/-- The first error saved by `decodeState.saveError`. -/
def saveError (saved : Option LibError) (err : LibError) : Option LibError :=
  match saved with
  | some e => some e
  | none => some err

/-- Decode the members of a JSON object into an `Entry`, in input order: a key matching
`content` stores a string (null is ignored, any other value saves a type error), a key matching
`timestamp` goes through `Time.UnmarshalJSON` (whose error ends the decoding), and other keys
are skipped. -/
def decodeMembers (layoutParse : GoString → Option time.Time) :
    List (GoString × Syn) → history.Entry → Option LibError →
      Except LibError (history.Entry × Option LibError)
  | [], e, saved => .ok (e, saved)
  | (key, v) :: ms, e, saved =>
    if keyMatches (ascii "content") key then
      match v with
      | .str _ s => decodeMembers layoutParse ms { e with Content := s } saved
      | .null => decodeMembers layoutParse ms e saved
      | _ =>
        decodeMembers layoutParse ms e
          (saveError saved (.jsonUnmarshalType (Syn.kind v) (ascii "string")))
    else if keyMatches (ascii "timestamp") key then
      match unmarshalTime layoutParse e.Timestamp v with
      | .error err => .error err
      | .ok t => decodeMembers layoutParse ms { e with Timestamp := t } saved
    else decodeMembers layoutParse ms e saved

/-- Decode the elements of a JSON array into entries: an object fills a zero `Entry`, `null`
leaves it zero, and any other value saves a type error. -/
def decodeItems (layoutParse : GoString → Option time.Time) :
    List Syn → Option LibError → Except LibError (List history.Entry × Option LibError)
  | [], saved => .ok ([], saved)
  | v :: vs, saved =>
    match v with
    | .obj ms =>
      match decodeMembers layoutParse ms history.Entry.zero saved with
      | .error err => .error err
      | .ok (e, saved1) =>
        match decodeItems layoutParse vs saved1 with
        | .error err => .error err
        | .ok (es, saved2) => .ok (e :: es, saved2)
    | .null =>
      match decodeItems layoutParse vs saved with
      | .error err => .error err
      | .ok (es, saved2) => .ok (history.Entry.zero :: es, saved2)
    | _ =>
      match decodeItems layoutParse vs
          (saveError saved (.jsonUnmarshalType (Syn.kind v) (ascii "history.Entry"))) with
      | .error err => .error err
      | .ok (es, saved2) => .ok (history.Entry.zero :: es, saved2)

/-- Model of `json.Unmarshal(data, &entries)` for `entries` of type `[]Entry`: the text must be
valid JSON; an array is decoded element by element, `null` gives the nil slice, and any other
value is a type error.  An error of either kind (ending the decoding or saved during it) is the
result, otherwise the decoded entries. -/
def unmarshalEntries (layoutParse : GoString → Option time.Time) (data : GoString) :
    Except LibError (List history.Entry) :=
  if Valid data then
    match decode data with
    | none => .error .jsonSyntax
    | some (.arr items) =>
      match decodeItems layoutParse items none with
      | .error err => .error err
      | .ok (es, none) => .ok es
      | .ok (_, some err) => .error err
    | some .null => .ok []
    | some v => .error (.jsonUnmarshalType (Syn.kind v) (ascii "[]history.Entry"))
  else .error .jsonSyntax

end json

namespace history

/-- What `New` finds outside the program: the answer of `os.UserHomeDir`, the error of
`os.MkdirAll` if any, an error of `os.ReadFile` other than a missing file if any, the files, and
the library's general time-layout parser (see `json.unmarshalTime`). -/
structure Env where
  homeDir : Except GoString GoString
  mkdirAll : Option GoString
  readFault : Option GoString
  files : Files
  layoutParse : GoString → Option time.Time

/-- The path of the history file below the home directory `home`: the result of
`filepath.Join(home, ".config", "go-clipboard-plus", "history.json")` for a home directory in
clean form on a system whose separator is the slash. -/
def historyPath (home : GoString) : GoString :=
  home ++ ascii "/.config/go-clipboard-plus/history.json"

/-- Model of `History.load`: read the file and decode it into the entries.  The error is
`none` on success; `notExist` tells whether a failure is a missing file. -/
def History.load (h : History) (env : Env) : History × Option LibError × Bool :=
  match env.readFault with
  | some err => (h, some (.os err), false)
  | none =>
    match env.files h.filePath with
    | none => (h, some (.os (ascii "file does not exist")), true)
    | some data =>
      match json.unmarshalEntries env.layoutParse data with
      | .error err => (h, some err, false)
      | .ok es => ({ h with entries := es }, none, false)

/-- Model of `New`. -/
def New (env : Env) : Option History × Option GoError :=
  match env.homeDir with
  | .error err => (none, some ⟨ascii "failed to get home directory: ", some (.os err)⟩)
  | .ok homeDir =>
    match env.mkdirAll with
    | some err => (none, some ⟨ascii "failed to create config directory: ", some (.os err)⟩)
    | none =>
      let h : History := { filePath := historyPath homeDir, entries := [] }
      let r := h.load env
      match r.2.1 with
      | some err =>
        if r.2.2 then (some r.1, none)
        else (none, some ⟨ascii "failed to load history: ", some err⟩)
      | none => (some r.1, none)

/-- A mutating call on the store, with what the environment supplies to it. -/
inductive Call where
  | add (content : GoString) (now : time.Time) (w : WriteOutcome)
  | clear (w : WriteOutcome)

/-- The store and files after one mutating call. -/
def History.call (h : History) (fs : Files) : Call → History × Files
  | .add content now w => ((h.Add content now w fs).1, (h.Add content now w fs).2.1)
  | .clear w => ((h.Clear w fs).1, (h.Clear w fs).2.1)

/-- The store and files after a sequence of mutating calls. -/
def runCalls (h : History) (fs : Files) : List Call → History × Files
  | [] => (h, fs)
  | c :: cs => runCalls (h.call fs c).1 (h.call fs c).2 cs

end history

/-! ## strconv: float64 -/

namespace strconv

/-- A finite `float64`: the sign and the magnitude `mant * 2^exp`, where `mant < 2^53` and
`-1074 <= exp <= 971`; a magnitude of zero has `mant = 0`. -/
structure Float64 where
  neg : Bool
  mant : Nat
  exp : Int
  deriving DecidableEq, Repr

/-- The decimal digits of `n` in front of `acc`, most significant first; `fuel` bounds the
number of digits. -/
def decDigits : Nat → Nat → GoString → GoString
  | 0, _, acc => acc
  | fuel + 1, n, acc =>
    if n < 10 then (0x30 + n) :: acc else decDigits fuel (n / 10) ((0x30 + n % 10) :: acc)

/-- The decimal digits of `n`, most significant first. -/
def natDigits (n : Nat) : GoString := decDigits (n + 1) n []

/-- The value of a string of decimal digits. -/
def digitsValue (ds : GoString) : Nat := ds.foldl (fun x c => x * 10 + (c - 0x30)) 0

/-- Decimal digit test. -/
def isDigit (c : Nat) : Bool := 0x30 ≤ c && c ≤ 0x39

/-- A number literal of the JSON grammar read as an exact decimal: the sign, the digits of the
integer and fraction parts as one natural number, and the power of ten that scales it. -/
def readDecimal (lit : GoString) : Bool × Nat × Int :=
  let neg := lit.head? = some 0x2D
  let s := if neg then lit.drop 1 else lit
  let ip := s.takeWhile isDigit
  let s1 := s.dropWhile isDigit
  let fp := if s1.head? = some 0x2E then (s1.drop 1).takeWhile isDigit else []
  let s2 := if s1.head? = some 0x2E then (s1.drop 1).dropWhile isDigit else s1
  let ex : Int :=
    match s2 with
    | _ :: 0x2D :: ds => -(digitsValue ds : Int)
    | _ :: 0x2B :: ds => (digitsValue ds : Int)
    | _ :: ds => (digitsValue ds : Int)
    | [] => 0
  (neg, digitsValue (ip ++ fp), ex - fp.length)

/-- The fraction `num / den` that is `p / q` divided by `2^e`. -/
def scale (p q : Nat) (e : Int) : Nat × Nat :=
  if 0 ≤ e then (p, q * 2 ^ e.toNat) else (p * 2 ^ (-e).toNat, q)

/-- The loop of `log2`, with fuel that bounds the number of halvings. -/
def log2Loop : Nat → Nat → Nat
  | 0, _ => 0
  | fuel + 1, n => if n < 2 then 0 else log2Loop fuel (n / 2) + 1

/-- The position of the highest set bit of `n`, the integer part of its binary logarithm (zero
for `n = 0`). -/
def log2 (n : Nat) : Nat := log2Loop n n

/-- Round the positive rational `p / q` to the nearest `float64` magnitude, ties to even:
the mantissa and binary exponent, or `none` when the result exceeds the largest finite
value. -/
def roundFloat64 (p q : Nat) : Option (Nat × Int) :=
  if p = 0 then some (0, -1074)
  else
    let l : Int := (log2 p : Int) - (log2 q : Int)
    let s0 := scale p q (l - 52)
    let en : Int := if s0.1 / s0.2 < 2 ^ 52 then l - 53 else l - 52
    let e : Int := if en < -1074 then -1074 else en
    let s := scale p q e
    let m0 := s.1 / s.2
    let r := s.1 % s.2
    let m := if s.2 < 2 * r then m0 + 1 else if 2 * r = s.2 ∧ m0 % 2 = 1 then m0 + 1 else m0
    let e1 : Int := if m = 2 ^ 53 then e + 1 else e
    let m1 := if m = 2 ^ 53 then 2 ^ 52 else m
    if 971 < e1 then none else some (m1, e1)

/-- Model of `strconv.ParseFloat(s, 64)` on a number literal of the JSON grammar: the nearest
`float64`, or `none` for the range error of a value that rounds beyond the largest finite
`float64`.  (A value too small to represent rounds to zero without error.) -/
def ParseFloat (lit : GoString) : Option Float64 :=
  let d := readDecimal lit
  let pq : Nat × Nat := if 0 ≤ d.2.2 then (d.2.1 * 10 ^ d.2.2.toNat, 1) else (d.2.1, 10 ^ (-d.2.2).toNat)
  match roundFloat64 pq.1 pq.2 with
  | none => none
  | some me => some ⟨d.1, me.1, me.2⟩

/-- The shortest decimal that rounds to a `float64`: digits `d` (no trailing zeros) and the
position `dp` of the decimal point, the value being `0.d * 10^dp`. -/
structure Decimal where
  d : GoString
  dp : Int
  deriving DecidableEq, Repr

/-- Drop trailing zero digits (on the reversed digit string). -/
def trimZeros : GoString → GoString
  | [] => []
  | c :: cs => if c = 0x30 then trimZeros cs else c :: cs

/-- The decimal with digits of `n` scaled by `10^k`, for `n > 0`. -/
def mkDecimal (n : Nat) (k : Int) : Decimal :=
  ⟨(trimZeros (natDigits n).reverse).reverse, (natDigits n).length + k⟩

/-- The digit walk of `roundShortest`.  `V`, `L`, `U` are the numerators over the common
denominator `den` of the value and of the lower and upper ends of the interval of decimals that
round to it; `w` is the weight of the current digit position as a fraction `wn / wd`, and `k`
its power of ten.  At the first position where truncating or rounding up at that digit stays
within the interval, the digit string so far is rounded: to the nearest if both do, and
otherwise the one that does. -/
def shortestLoop : Nat → (V L U den : Nat) → (inclusive : Bool) → (k : Int) → Decimal
  | 0, V, _, _, den, _, _ => mkDecimal (V / den) 0
  | fuel + 1, V, L, U, den, inclusive, k =>
    -- the value in units of the current digit position: V / (den * 10^k)
    let s : Nat × Nat := if 0 ≤ k then (V, den * 10 ^ k.toNat) else (V * 10 ^ (-k).toNat, den)
    let lo : Nat × Nat := if 0 ≤ k then (L, den * 10 ^ k.toNat) else (L * 10 ^ (-k).toNat, den)
    let hi : Nat × Nat := if 0 ≤ k then (U, den * 10 ^ k.toNat) else (U * 10 ^ (-k).toNat, den)
    let down := s.1 / s.2
    let up := down + 1
    let okdown := lo.1 < down * lo.2 ∨ (inclusive = true ∧ lo.1 = down * lo.2)
    let okup := up * hi.2 < hi.1 ∨ (inclusive = true ∧ up * hi.2 = hi.1)
    let r := s.1 % s.2
    if okdown ∧ okup then
      if s.2 < 2 * r ∨ (2 * r = s.2 ∧ down % 2 = 1) then mkDecimal up k else mkDecimal down k
    else if okdown then mkDecimal down k
    else if okup then mkDecimal up k
    else shortestLoop fuel V L U den inclusive (k - 1)

/-- Model of the shortest-decimal conversion of `strconv.FormatFloat(f, fmt, -1, 64)` for a
non-zero magnitude `mant * 2^exp`. -/
def shortest (mant : Nat) (exp : Int) : Decimal :=
  -- everything in units of 2^(exp - 2)
  let V := 4 * mant
  let U := 4 * mant + 2
  let L := if mant = 2 ^ 52 ∧ -1074 < exp then 4 * mant - 1 else 4 * mant - 2
  let sc : Nat × Nat := if 0 ≤ exp - 2 then (2 ^ (exp - 2).toNat, 1) else (1, 2 ^ (-(exp - 2)).toNat)
  let k0 : Int := ((natDigits (U * sc.1 / sc.2)).length : Int) - 1
  shortestLoop 1100 (V * sc.1) (L * sc.1) (U * sc.1) sc.2 (mant % 2 = 0) k0

/-- Digit `i` of a decimal (counting from 0), or the character zero outside its digits. -/
def Decimal.digitAt (d : Decimal) (i : Int) : Nat :=
  if 0 ≤ i then d.d.getD i.toNat 0x30 else 0x30

/-- The string of `n` copies of the character zero. -/
def zeros (n : Nat) : GoString := List.replicate n 0x30

/-- Model of `fmtF` with the shortest precision `max(nd - dp, 0)`: the integer part (or a single
zero), then a period and the fraction digits if there are any. -/
def fmtF (d : Decimal) : GoString :=
  let ip : GoString :=
    if 0 < d.dp then d.d.take d.dp.toNat ++ zeros (d.dp.toNat - d.d.length) else [0x30]
  let prec : Nat := ((d.d.length : Int) - d.dp).toNat
  if prec = 0 then ip
  else ip ++ 0x2E :: (List.range prec).map (fun i => d.digitAt (d.dp + (i : Int)))

/-- Model of `fmtE` with the shortest precision `nd - 1`: the first digit, a period and the
other digits if there are any, then `e`, the sign of the exponent and at least two digits. -/
def fmtE (d : Decimal) : GoString :=
  let first : Nat := d.d.headD 0x30
  let more : GoString := if 1 < d.d.length then 0x2E :: d.d.drop 1 else []
  let exp : Int := if d.d = [] then 0 else d.dp - 1
  let sign : Nat := if exp < 0 then 0x2D else 0x2B
  let ed := natDigits exp.natAbs
  first :: more ++ 0x65 :: sign :: (if exp.natAbs < 10 then 0x30 :: ed else ed)

/-- Whether the magnitude `m1 * 2^e1` is less than `m2 * 2^e2`. -/
def magLt (m1 : Nat) (e1 : Int) (m2 : Nat) (e2 : Int) : Bool :=
  if e1 ≤ e2 then m1 < m2 * 2 ^ (e2 - e1).toNat else m1 * 2 ^ (e1 - e2).toNat < m2

end strconv

namespace json

/-- The `float64` nearest to `p / q`, as mantissa and exponent (zero if out of range). -/
def constFloat (p q : Nat) : Nat × Int := (strconv.roundFloat64 p q).getD (0, 0)

/-- The clean-up of the exponent in `floatEncoder.encode`: an exponent written with a leading
zero (`e-09`) loses that zero (`e-9`). -/
def cleanExponent (b : GoString) : GoString :=
  match b.reverse with
  | x :: 0x30 :: sg :: 0x65 :: rest =>
    if sg = 0x2D ∨ sg = 0x2B then (x :: sg :: 0x65 :: rest).reverse else b
  | _ => b

/-- Model of `floatEncoder.encode` for a finite `float64`: the shortest decimal that reads back
as the same value, in exponent form when the magnitude is non-zero and below `1e-6` or at least
`1e21`, and in plain form otherwise. -/
def encodeFloat (f : strconv.Float64) : GoString :=
  let sign : GoString := if f.neg then [0x2D] else []
  if f.mant = 0 then sign ++ [0x30]
  else
    let d := strconv.shortest f.mant f.exp
    let small := constFloat 1 1000000
    let big := constFloat (10 ^ 21) 1
    if strconv.magLt f.mant f.exp small.1 small.2 ∨ ¬ strconv.magLt f.mant f.exp big.1 big.2 then
      sign ++ cleanExponent (strconv.fmtE d)
    else sign ++ strconv.fmtF d

end json

/-! ## encoding/json: values of type `interface{}` -/

namespace json

/-- A value that `Unmarshal` stores in an `interface{}`: nil, `bool`, `float64`, `string`,
`[]interface{}` or `map[string]interface{}`.  A map is held as its members in increasing key
order (the order in which `Marshal` writes a map), one member per key. -/
inductive Value where
  | null
  | bool (b : Bool)
  | number (f : strconv.Float64)
  | string (s : GoString)
  | array (items : List Value)
  | object (members : List (GoString × Value))

/-- Byte-wise lexicographic order on strings: `a < b`. -/
def strLt : GoString → GoString → Bool
  | _, [] => false
  | [], _ :: _ => true
  | a :: as, b :: bs => a < b || (a = b && strLt as bs)

/-- The map assignment `m[k] = v` on members held in key order. -/
def mapSet (k : GoString) (v : Value) : List (GoString × Value) → List (GoString × Value)
  | [] => [(k, v)]
  | (k1, v1) :: ms =>
    if k = k1 then (k, v) :: ms
    else if strLt k k1 then (k, v) :: (k1, v1) :: ms
    else (k1, v1) :: mapSet k v ms

mutual
/-- The value `Unmarshal` stores in an `interface{}` for a syntax tree: numbers become
`float64` (a number out of range is an `UnmarshalTypeError`), arrays become slices, and objects
become maps, a later member replacing an earlier one with the same key. -/
def Syn.toValue : Syn → Except LibError Value
  | .null => .ok .null
  | .bool b => .ok (.bool b)
  | .num lit =>
    match strconv.ParseFloat lit with
    | some f => .ok (.number f)
    | none => .error (.jsonUnmarshalType (ascii "number " ++ lit) (ascii "float64"))
  | .str _ v => .ok (.string v)
  | .arr items =>
    match Syn.toValues items with
    | .ok vs => .ok (.array vs)
    | .error err => .error err
  | .obj ms =>
    match Syn.toMembers ms [] with
    | .ok m => .ok (.object m)
    | .error err => .error err
/-- The values of the items of an array, in order. -/
def Syn.toValues : List Syn → Except LibError (List Value)
  | [] => .ok []
  | x :: xs =>
    match Syn.toValue x with
    | .error err => .error err
    | .ok v =>
      match Syn.toValues xs with
      | .error err => .error err
      | .ok vs => .ok (v :: vs)
/-- The map built from the members of an object, assigned in input order to the map `acc`. -/
def Syn.toMembers : List (GoString × Syn) → List (GoString × Value) →
    Except LibError (List (GoString × Value))
  | [], acc => .ok acc
  | (k, x) :: ms, acc =>
    match Syn.toValue x with
    | .error err => .error err
    | .ok v => Syn.toMembers ms (mapSet k v acc)
end

/-- Model of `json.Unmarshal(data, &v)` for `v` of type `interface{}`. -/
def Unmarshal (data : GoString) : Except LibError Value :=
  if Valid data then
    match decode data with
    | none => .error .jsonSyntax
    | some syn => syn.toValue
  else .error .jsonSyntax

mutual
/-- The compact encoding of a value, as `json.Marshal` writes it. -/
def encode : Value → GoString
  | .null => ascii "null"
  | .bool b => if b then ascii "true" else ascii "false"
  | .number f => encodeFloat f
  | .string s => appendString s
  | .array items => 0x5B :: encodeItems items ++ [0x5D]
  | .object ms => 0x7B :: encodeMembers ms ++ [0x7D]
/-- The items of an array, separated by commas. -/
def encodeItems : List Value → GoString
  | [] => []
  | v :: vs => encode v ++ encodeMore vs
/-- The items after the first, each preceded by a comma. -/
def encodeMore : List Value → GoString
  | [] => []
  | v :: vs => 0x2C :: encode v ++ encodeMore vs
/-- The members of an object, separated by commas. -/
def encodeMembers : List (GoString × Value) → GoString
  | [] => []
  | (k, v) :: ms => appendString k ++ 0x3A :: encode v ++ encodeMoreMembers ms
/-- The members after the first, each preceded by a comma. -/
def encodeMoreMembers : List (GoString × Value) → GoString
  | [] => []
  | (k, v) :: ms => 0x2C :: appendString k ++ 0x3A :: encode v ++ encodeMoreMembers ms
end

/-- Model of `json.Marshal` on a value decoded into an `interface{}`; such a value always
encodes. -/
def Marshal (v : Value) : Except LibError GoString := .ok (encode v)

/-- A line break followed by `depth` indents of two spaces. -/
def newline (depth : Nat) : GoString := 0x0A :: List.replicate (2 * depth) 0x20

mutual
/-- The indented encoding of a value at nesting depth `depth`, as `json.MarshalIndent` writes
it with an empty prefix and an indent of two spaces: an empty array or object stays on one
line, and otherwise every item or member stands on a line of its own. -/
def encodeIndent (depth : Nat) : Value → GoString
  | .null => ascii "null"
  | .bool b => if b then ascii "true" else ascii "false"
  | .number f => encodeFloat f
  | .string s => appendString s
  | .array [] => [0x5B, 0x5D]
  | .array (v :: vs) =>
    0x5B :: newline (depth + 1) ++ encodeIndent (depth + 1) v ++ indentMore depth vs ++
      newline depth ++ [0x5D]
  | .object [] => [0x7B, 0x7D]
  | .object ((k, v) :: ms) =>
    0x7B :: newline (depth + 1) ++ appendString k ++ [0x3A, 0x20] ++ encodeIndent (depth + 1) v ++
      indentMoreMembers depth ms ++ newline depth ++ [0x7D]
/-- The items after the first, each preceded by a comma and a new line. -/
def indentMore (depth : Nat) : List Value → GoString
  | [] => []
  | v :: vs => 0x2C :: newline (depth + 1) ++ encodeIndent (depth + 1) v ++ indentMore depth vs
/-- The members after the first, each preceded by a comma and a new line. -/
def indentMoreMembers (depth : Nat) : List (GoString × Value) → GoString
  | [] => []
  | (k, v) :: ms =>
    0x2C :: newline (depth + 1) ++ appendString k ++ [0x3A, 0x20] ++ encodeIndent (depth + 1) v ++
      indentMoreMembers depth ms
end

/-- Model of `json.MarshalIndent(v, "", "  ")` on a value decoded into an `interface{}`. -/
def MarshalIndent (v : Value) : Except LibError GoString := .ok (encodeIndent 0 v)

end json

/-! ## encoding/base64 and net/url -/

namespace base64

/-- The character of the standard alphabet for the six-bit value `n % 64`. -/
def encodeStd (n : Nat) : Nat :=
  let v := n % 64
  if v < 26 then 0x41 + v
  else if v < 52 then 0x61 + (v - 26)
  else if v < 62 then 0x30 + (v - 52)
  else if v = 62 then 0x2B
  else 0x2F

/-- Model of `base64.StdEncoding.EncodeToString`: three bytes give four characters, and a last
group of one or two bytes is padded with `=`. -/
def EncodeToString : GoString → GoString
  | [] => []
  | [a] => [encodeStd (a / 4), encodeStd (a % 4 * 16), 0x3D, 0x3D]
  | [a, b] => [encodeStd (a / 4), encodeStd (a % 4 * 16 + b / 16), encodeStd (b % 16 * 4), 0x3D]
  | a :: b :: c :: rest =>
    encodeStd (a / 4) :: encodeStd (a % 4 * 16 + b / 16) :: encodeStd (b % 16 * 4 + c / 64) ::
      encodeStd c :: EncodeToString rest

/-- The six-bit value of a character of the standard alphabet: the table `decodeMap`. -/
def decodeStd (c : Nat) : Option Nat :=
  if 0x41 ≤ c ∧ c ≤ 0x5A then some (c - 0x41)
  else if 0x61 ≤ c ∧ c ≤ 0x7A then some (c - 0x61 + 26)
  else if 0x30 ≤ c ∧ c ≤ 0x39 then some (c - 0x30 + 52)
  else if c = 0x2B then some 62
  else if c = 0x2F then some 63
  else none

/-- Decode input from which line breaks have been removed: groups of four characters of the
alphabet, the last of which may end in one or two `=`; anything else is corrupt input. -/
def decodeQuanta : GoString → Option GoString
  | [] => some []
  | [a, b, c, d] =>
    match decodeStd a, decodeStd b with
    | some x, some y =>
      if c = 0x3D then (if d = 0x3D then some [x * 4 + y / 16] else none)
      else
        match decodeStd c with
        | some z =>
          if d = 0x3D then some [x * 4 + y / 16, y % 16 * 16 + z / 4]
          else
            match decodeStd d with
            | some w => some [x * 4 + y / 16, y % 16 * 16 + z / 4, z % 4 * 64 + w]
            | none => none
        | none => none
    | _, _ => none
  | a :: b :: c :: d :: rest =>
    match decodeStd a, decodeStd b, decodeStd c, decodeStd d, decodeQuanta rest with
    | some x, some y, some z, some w, some out =>
      some ((x * 4 + y / 16) :: (y % 16 * 16 + z / 4) :: (z % 4 * 64 + w) :: out)
    | _, _, _, _, _ => none
  | _ => none

/-- Model of `base64.StdEncoding.DecodeString`: carriage returns and line feeds are skipped
wherever they stand, and the rest is decoded; `none` stands for a `CorruptInputError`. -/
def DecodeString (s : GoString) : Option GoString :=
  decodeQuanta (s.filter (fun c => c ≠ 0x0A ∧ c ≠ 0x0D))

end base64

namespace url

/-- Model of `shouldEscape(c, encodeQueryComponent)`: letters, digits and the marks `-`, `_`,
`.`, `~` are kept, every other byte is escaped. -/
def shouldEscape (c : Nat) : Bool :=
  ¬ ((0x61 ≤ c ∧ c ≤ 0x7A) ∨ (0x41 ≤ c ∧ c ≤ 0x5A) ∨ (0x30 ≤ c ∧ c ≤ 0x39) ∨
    c = 0x2D ∨ c = 0x5F ∨ c = 0x2E ∨ c = 0x7E)

/-- The upper-case hexadecimal digit character of `n % 16`. -/
def upperhex (n : Nat) : Nat := if n % 16 < 10 then 0x30 + n % 16 else 0x41 + (n % 16 - 10)

/-- Model of `url.QueryEscape`: a space becomes `+`, any other byte to escape becomes `%XX`. -/
def QueryEscape : GoString → GoString
  | [] => []
  | c :: rest =>
    if c = 0x20 then 0x2B :: QueryEscape rest
    else if shouldEscape c then 0x25 :: upperhex (c / 16) :: upperhex c :: QueryEscape rest
    else c :: QueryEscape rest

/-- Model of `ishex`. -/
def ishex (c : Nat) : Bool :=
  (0x30 ≤ c && c ≤ 0x39) || (0x61 ≤ c && c ≤ 0x66) || (0x41 ≤ c && c ≤ 0x46)

/-- Model of `unhex`. -/
def unhex (c : Nat) : Nat :=
  if 0x30 ≤ c ∧ c ≤ 0x39 then c - 0x30
  else if 0x61 ≤ c ∧ c ≤ 0x66 then c - 0x61 + 10
  else if 0x41 ≤ c ∧ c ≤ 0x46 then c - 0x41 + 10
  else 0

/-- Model of `url.QueryUnescape`: `%XX` becomes the byte with that value, `+` a space; a `%`
not followed by two hexadecimal digits is an `EscapeError`, for which `none` stands. -/
def QueryUnescape : GoString → Option GoString
  | [] => some []
  | c :: rest =>
    if c = 0x25 then
      match rest with
      | h1 :: h2 :: rest2 =>
        if ishex h1 ∧ ishex h2 then
          (QueryUnescape rest2).map ((unhex h1 * 16 + unhex h2) :: ·)
        else none
      | _ => none
    else if c = 0x2B then (QueryUnescape rest).map (0x20 :: ·)
    else (QueryUnescape rest).map (c :: ·)

end url

/-! ## pkg/transform -/

namespace transform

/-- The result of a transformer, Go's `(string, error)`: the string, and the error if any. -/
abbrev Result := GoString × Option GoError

/-- The type `Transformer`. -/
abbrev Transformer := GoString → Result

/-- The functions of `strings` and `golang.org/x/text/cases` that rest on the Unicode tables of
white space and of case mappings, which are not modelled: `strings.TrimSpace`,
`strings.ToUpper`, `strings.ToLower` and `cases.Title(language.English).String`. -/
structure Unicode where
  TrimSpace : GoString → GoString
  ToUpper : GoString → GoString
  ToLower : GoString → GoString
  Title : GoString → GoString

/-- Model of `FormatJSON`. -/
def FormatJSON (text : GoString) : Result :=
  match json.Unmarshal text with
  | .error err => ([], some ⟨ascii "invalid JSON: ", some err⟩)
  | .ok data =>
    match json.MarshalIndent data with
    | .error err => ([], some ⟨ascii "failed to format JSON: ", some err⟩)
    | .ok formatted => (formatted, none)

/-- Model of `MinifyJSON`. -/
def MinifyJSON (text : GoString) : Result :=
  match json.Unmarshal text with
  | .error err => ([], some ⟨ascii "invalid JSON: ", some err⟩)
  | .ok data =>
    match json.Marshal data with
    | .error err => ([], some ⟨ascii "failed to minify JSON: ", some err⟩)
    | .ok minified => (minified, none)

/-- Model of `Trim`. -/
def Trim (u : Unicode) (text : GoString) : Result := (u.TrimSpace text, none)

/-- Model of `Upper`. -/
def Upper (u : Unicode) (text : GoString) : Result := (u.ToUpper text, none)

/-- Model of `Lower`. -/
def Lower (u : Unicode) (text : GoString) : Result := (u.ToLower text, none)

/-- Model of `Title`. -/
def Title (u : Unicode) (text : GoString) : Result := (u.Title text, none)

/-- Model of `Base64Encode`. -/
def Base64Encode (text : GoString) : Result := (base64.EncodeToString text, none)

/-- Model of `Base64Decode`. -/
def Base64Decode (text : GoString) : Result :=
  match base64.DecodeString text with
  | none => ([], some ⟨ascii "failed to decode base64: ", some .base64Corrupt⟩)
  | some decoded => (decoded, none)

/-- Model of `URLEncode`. -/
def URLEncode (text : GoString) : Result := (url.QueryEscape text, none)

/-- Model of `URLDecode`. -/
def URLDecode (text : GoString) : Result :=
  match url.QueryUnescape text with
  | none => ([], some ⟨ascii "failed to decode URL: ", some .urlEscape⟩)
  | some decoded => (decoded, none)

/-- The conversion `[]rune(text)`: the runes of `text`, an invalid byte giving U+FFFD; the
remaining length is the fuel. -/
def toRunes : Nat → GoString → List Nat
  | _, [] => []
  | 0, _ :: _ => []
  | fuel + 1, b :: rest =>
    (utf8.DecodeRune (b :: rest)).1 :: toRunes fuel ((b :: rest).drop (utf8.DecodeRune (b :: rest)).2)

/-- The conversion `string(runes)`: the UTF-8 encodings of the runes, one after the other. -/
def fromRunes : List Nat → GoString
  | [] => []
  | r :: rs => utf8.EncodeRune r ++ fromRunes rs

/-- The statement `runes[i], runes[j] = runes[j], runes[i]`. -/
def swap (runes : List Nat) (i j : Nat) : List Nat :=
  (runes.set i (runes.getD j 0)).set j (runes.getD i 0)

/-- The loop of `Reverse`, `for i, j := 0, len(runes)-1; i < j; i, j = i+1, j-1`, from the
state `(runes, i, j)`; the fuel bounds the number of iterations. -/
def reverseLoop : Nat → List Nat → Nat → Int → List Nat
  | 0, runes, _, _ => runes
  | fuel + 1, runes, i, j =>
    if (i : Int) < j then reverseLoop fuel (swap runes i j.toNat) (i + 1) (j - 1) else runes

/-- Model of `Reverse`. -/
def Reverse (text : GoString) : Result :=
  let runes := toRunes text.length text
  (fromRunes (reverseLoop runes.length runes 0 ((runes.length : Int) - 1)), none)

/-- The map `Transformers`, as the list of its keys and values. -/
def Transformers (u : Unicode) : List (GoString × Transformer) :=
  [(ascii "json", FormatJSON),
   (ascii "json-minify", MinifyJSON),
   (ascii "trim", Trim u),
   (ascii "upper", Upper u),
   (ascii "lower", Lower u),
   (ascii "title", Title u),
   (ascii "base64", Base64Encode),
   (ascii "base64d", Base64Decode),
   (ascii "url", URLEncode),
   (ascii "urld", URLDecode),
   (ascii "reverse", Reverse)]

/-- Model of `Apply`. -/
def Apply (u : Unicode) (name : GoString) (text : GoString) : Result :=
  match (Transformers u).lookup name with
  | none => ([], some ⟨ascii "unknown transformation: " ++ name, none⟩)
  | some transformer => transformer text

/-- Model of `List`: the registered names (Go gives them in no particular order). -/
def List (u : Unicode) : List GoString := (Transformers u).map (·.1)

end transform

/-! ## strings -/

namespace strings

/-- The loop of `strings.Replace(s, old, new, -1)` for a non-empty `old`, with the remaining
length as fuel: every occurrence of `old`, found from left to right without overlap, is
replaced by `new`. -/
def replaceLoop (old new : GoString) : Nat → GoString → GoString
  | _, [] => []
  | 0, c :: rest => c :: rest
  | fuel + 1, c :: rest =>
    if (c :: rest).take old.length = old then
      new ++ replaceLoop old new fuel ((c :: rest).drop old.length)
    else c :: replaceLoop old new fuel rest

/-- Model of `strings.ReplaceAll(s, old, new)` for a non-empty `old`. -/
def ReplaceAll (s old new : GoString) : GoString := replaceLoop old new s.length s

/-- Model of `strings.TrimRight(s, cutset)` for a cutset of ASCII characters: the trailing
bytes of `s` that are in the cutset are removed. -/
def TrimRight (s cutset : GoString) : GoString :=
  (s.reverse.dropWhile (fun c => c ∈ cutset)).reverse

end strings

/-! ## pkg/clipboard -/

namespace clipboard

/-- What `cmd.Run()` gives for a subprocess: the text of its error, if it failed, and the
output captured from its standard output and standard error. -/
structure RunResult where
  err : Option GoString
  stdout : GoString
  stderr : GoString

/-- Model of `windowsClipboard.Read`, given the result `r` of running
`powershell.exe -Command Get-Clipboard`. -/
def windowsClipboard.Read (r : RunResult) : GoString × Option GoError :=
  match r.err with
  | some err =>
    ([], some ⟨ascii "failed to read clipboard: " ++ err ++ ascii ", stderr: " ++ r.stderr, none⟩)
  | none =>
    let result := r.stdout
    let result := strings.ReplaceAll result (ascii "\r\n") (ascii "\n")
    (strings.TrimRight result (ascii "\n"), none)

/-- Model of `windowsClipboard.Write` (and of `Write` of the other backends), given the result
`r` of running the copy command with `text` as its standard input. -/
def Write (r : RunResult) : Option GoError :=
  match r.err with
  | some err =>
    some ⟨ascii "failed to write clipboard: " ++ err ++ ascii ", stderr: " ++ r.stderr, none⟩
  | none => none

end clipboard

/-! ## cmd/clipctl -/

namespace clipctl
open history

/-- How the run of a command ends: the handler returns (exit status 0), the program calls
`os.Exit(code)`, or a run-time panic stops it (exit status 2). -/
inductive Ending where
  | returned
  | exit (code : Nat)
  | panic
  deriving DecidableEq, Repr

/-- The exit status of the process. -/
def Ending.status : Ending → Nat
  | .returned => 0
  | .exit code => code
  | .panic => 2

/-- A message of `handleHistory` on standard error: `Error: ` and an error, `Error writing to
clipboard: ` and an error, the notice that entry `index` was copied, or the notice that `limit`
of `total` entries are shown. -/
inductive Message where
  | error (err : GoError)
  | writeError (err : GoError)
  | copied (index : Int)
  | showing (limit : Int) (total : Nat)
  deriving DecidableEq, Repr

/-- What `handleHistory` prints on standard output: nothing, the line `No history entries`, or
the table: its two header lines and one row per entry with the cells index, time and content
(before `tabwriter` aligns the columns). -/
inductive Printed where
  | nothing
  | noEntries
  | table (rows : List (Nat × GoString × GoString))
  deriving DecidableEq, Repr

/-- The effects of a run: how it ends, what it prints, and the texts it hands to the
clipboard's `Write`, in order. -/
structure Effects where
  ending : Ending
  stdout : Printed
  stderr : List Message
  clipboard : List GoString
  deriving DecidableEq, Repr

/-- What the platform supplies to the clipboard package: the error of `clipboard.New()` if no
backend is available, and the result of running the copy command. -/
structure Clip where
  newErr : Option GoError
  write : clipboard.RunResult

/-- The options of `handleHistory`. -/
structure Options where
  limit : Int
  showAll : Bool
  getIndex : Int
  deriving DecidableEq, Repr

/-- The option loop of `handleHistory` over the arguments from `os.Args[2]` on.  `sscan s` is
the integer `fmt.Sscanf(s, "%d", &x)` stores in `x`, or `none` when the scan fails and `x`
keeps its value.  An option `-n`, `-g` or `--get` that is the last argument is ignored. -/
def parseOptions (sscan : GoString → Option Int) : List GoString → Options → Options
  | [], o => o
  | arg :: rest, o =>
    if arg = ascii "-a" ∨ arg = ascii "--all" then
      parseOptions sscan rest { o with showAll := true }
    else if arg = ascii "-n" then
      match rest with
      | v :: rest1 => parseOptions sscan rest1 { o with limit := (sscan v).getD o.limit }
      | [] => o
    else if arg = ascii "-g" ∨ arg = ascii "--get" then
      match rest with
      | v :: rest1 => parseOptions sscan rest1 { o with getIndex := (sscan v).getD o.getIndex }
      | [] => o
    else parseOptions sscan rest o

/-- The slice expression `entries[:high]`; `none` stands for the run-time panic `slice bounds
out of range`.  (Go allows `high` up to the capacity; the program takes the slice only with
`high` below the length.) -/
def sliceTo (entries : List Entry) (high : Int) : Option (List Entry) :=
  if 0 ≤ high ∧ high ≤ (entries.length : Int) then some (entries.take high.toNat) else none

/-- The content cell of a row: at most 60 bytes of the content, then `...` if it was longer,
with every newline written as a backslash and `n`. -/
def displayContent (content : GoString) : GoString :=
  let content := if 60 < content.length then content.take 60 ++ ascii "..." else content
  strings.ReplaceAll content (ascii "\n") (ascii "\\n")

/-- The listing step of `handleHistory` (from the comment `Display history` on), for the store
`hist` and the options `o`.  The function `formatTime`, which reads the clock, is a
parameter. -/
def listHistory (hist : History) (o : Options) (formatTime : time.Time → GoString) : Effects :=
  let entries := hist.List
  if entries.length = 0 then ⟨.returned, .noEntries, [], []⟩
  else
    let shown : Option (List Entry) :=
      if o.showAll = false ∧ o.limit < (entries.length : Int) then sliceTo entries o.limit
      else some entries
    match shown with
    | none => ⟨.panic, .nothing, [], []⟩
    | some entries =>
      let rows := entries.enum.map
        (fun ie => (ie.1, formatTime ie.2.Timestamp, displayContent ie.2.Content))
      ⟨.returned, .table rows,
        if o.showAll = false ∧ o.limit < (hist.List.length : Int) then
          [.showing o.limit hist.List.length]
        else [],
        []⟩

/-- Model of `handleHistory`, for the environment `env` of `history.New`, the arguments `args`
(all of `os.Args`), the scanner `sscan` of integers, and the clipboard `clip`. -/
def handleHistory (env : Env) (args : List GoString) (sscan : GoString → Option Int)
    (clip : Clip) (formatTime : time.Time → GoString) : Effects :=
  match New env with
  | (_, some err) => ⟨.exit 1, .nothing, [.error err], []⟩
  | (none, none) => ⟨.panic, .nothing, [], []⟩
  | (some hist, none) =>
    let o := parseOptions sscan (args.drop 2) ⟨10, false, -1⟩
    if 0 ≤ o.getIndex then
      match hist.Get o.getIndex with
      | (_, some err) => ⟨.exit 1, .nothing, [.error err], []⟩
      | (entry, none) =>
        match clip.newErr with
        | some err => ⟨.exit 1, .nothing, [.error err], []⟩
        | none =>
          match clipboard.Write clip.write with
          | some err => ⟨.exit 1, .nothing, [.writeError err], [entry.Content]⟩
          | none => ⟨.returned, .nothing, [.copied o.getIndex], [entry.Content]⟩
    else listHistory hist o formatTime

end clipctl

/-! ## Notions used to state the properties -/

/-- The eleven registered names. -/
def transformNames : List GoString :=
  [ascii "json", ascii "json-minify", ascii "trim", ascii "upper", ascii "lower", ascii "title",
   ascii "base64", ascii "base64d", ascii "url", ascii "urld", ascii "reverse"]

/-- Whether a string holds two consecutive space characters. -/
def twoSpaces : GoString → Bool
  | [] => false
  | [_] => false
  | a :: b :: t => (a = 0x20 && b = 0x20) || twoSpaces (b :: t)

namespace json

mutual
/-- The strings of a value: its string values and its object keys, at any depth. -/
def Value.strings : Value → List GoString
  | .null => []
  | .bool _ => []
  | .number _ => []
  | .string s => [s]
  | .array items => Value.stringsOfItems items
  | .object ms => Value.stringsOfMembers ms
/-- The strings of the items of an array. -/
def Value.stringsOfItems : List Value → List GoString
  | [] => []
  | v :: vs => Value.strings v ++ Value.stringsOfItems vs
/-- The strings of the members of an object. -/
def Value.stringsOfMembers : List (GoString × Value) → List GoString
  | [] => []
  | (k, v) :: ms => k :: Value.strings v ++ Value.stringsOfMembers ms
end

/-- An array or object that is not empty. -/
def Value.filled : Value → Bool
  | .array (_ :: _) => true
  | .object (_ :: _) => true
  | _ => false

/-- Whether the text `data` writes an array or object that is not empty: after leading white
space it opens with `[` or `{`, and the next byte that is not white space is not the matching
closing bracket. -/
def textFilled (data : GoString) : Bool :=
  match data.dropWhile isSpace with
  | [] => false
  | c :: rest =>
    if c = 0x5B then
      match rest.dropWhile isSpace with
      | [] => false
      | x :: _ => x ≠ 0x5D
    else if c = 0x7B then
      match rest.dropWhile isSpace with
      | [] => false
      | x :: _ => x ≠ 0x7D
    else false

mutual
/-- Whether every number of a syntax tree is within the range of `float64`. -/
def Syn.inRange : Syn → Bool
  | .null => true
  | .bool _ => true
  | .num lit => (strconv.ParseFloat lit).isSome
  | .str _ _ => true
  | .arr items => Syn.itemsInRange items
  | .obj ms => Syn.membersInRange ms
/-- Whether every number of the items of an array is within the range of `float64`. -/
def Syn.itemsInRange : List Syn → Bool
  | [] => true
  | x :: xs => Syn.inRange x && Syn.itemsInRange xs
/-- Whether every number of the members of an object is within the range of `float64`. -/
def Syn.membersInRange : List (GoString × Syn) → Bool
  | [] => true
  | (_, x) :: ms => Syn.inRange x && Syn.membersInRange ms
end

/-- Whether every number written in the text `data` is within the range of `float64`, that is,
rounds to a finite `float64`. -/
def numbersFit (data : GoString) : Bool :=
  match decode data with
  | some syn => syn.inRange
  | none => true

end json

namespace base64

/-- A character of the standard alphabet or the padding character `=`. -/
def isStdChar (c : Nat) : Bool := (decodeStd c).isSome || c = 0x3D

end base64

/-- The runes of a text, the conversion `[]rune(text)`. -/
def runesOf (text : GoString) : List Nat := transform.toRunes text.length text

/-- The text `s` with every pair CR LF, taken from left to right, replaced by LF. -/
def crlfToLf : GoString → GoString
  | [] => []
  | [c] => [c]
  | a :: b :: rest =>
    if a = 0x0D ∧ b = 0x0A then 0x0A :: crlfToLf rest else a :: crlfToLf (b :: rest)

/-- The text `s` without its last byte if that is a newline, and `s` itself otherwise: a
single trailing newline stripped. -/
def stripOneNewline (s : GoString) : GoString :=
  if s.getLast? = some 0x0A then s.dropLast else s

/-- A scanner of integers for examples: it knows the texts `-1`, `0`, `1`, `5`. -/
def sscanSmall (s : GoString) : Option Int :=
  if s = ascii "-1" then some (-1)
  else if s = ascii "0" then some 0
  else if s = ascii "1" then some 1
  else if s = ascii "5" then some 5
  else none

/-- An environment whose history file holds the two entries `b` and `a`. -/
def envTwo : history.Env :=
  ⟨.ok (ascii "/home/u"), none, none,
    fun p => if p = history.historyPath (ascii "/home/u") then
      some (ascii ("[\x7b\"content\":\"b\",\"timestamp\":\"2024-01-02T03:04:05Z\"\x7d," ++
        "\x7b\"content\":\"a\",\"timestamp\":\"2024-01-02T03:04:04Z\"\x7d]"))
    else none,
    fun _ => none⟩

/-- The time of the first entry of `envTwo`. -/
def timeB : time.Time :=
  ⟨2024, 1, 2, 3, 4, 5, 0, 0, by decide, by decide, by decide, by decide, by decide, by decide⟩

/-- The time of the second entry of `envTwo`. -/
def timeA : time.Time :=
  ⟨2024, 1, 2, 3, 4, 4, 0, 0, by decide, by decide, by decide, by decide, by decide, by decide⟩

/-- The store that `New` loads in the environment `envTwo`. -/
def histTwo : history.History :=
  ⟨[⟨ascii "b", timeB⟩, ⟨ascii "a", timeA⟩], history.historyPath (ascii "/home/u")⟩

/-- A clipboard that is available and whose copy command succeeds. -/
def clipOk : clipctl.Clip := ⟨none, ⟨none, [], []⟩⟩

/-! ## Predicates of the proofs -/

namespace utf8

/-- The shapes of a byte sequence on which `DecodeRune` succeeds. -/
inductive RuneShape : GoString → Nat → Nat → Prop
  | one (b : Nat) (t : GoString) : b < 0x80 → RuneShape (b :: t) b 1
  | two (b0 b1 : Nat) (t : GoString) : 0xC2 ≤ b0 → b0 < 0xE0 → 0x80 ≤ b1 → b1 ≤ 0xBF →
      RuneShape (b0 :: b1 :: t) ((b0 % 32) * 64 + b1 % 64) 2
  | three (b0 b1 b2 : Nat) (t : GoString) : 0xE0 ≤ b0 → b0 < 0xF0 →
      (if b0 = 0xE0 then 0xA0 else 0x80) ≤ b1 → b1 ≤ (if b0 = 0xED then 0x9F else 0xBF) →
      0x80 ≤ b2 → b2 ≤ 0xBF →
      RuneShape (b0 :: b1 :: b2 :: t) ((b0 % 16) * 4096 + (b1 % 64) * 64 + b2 % 64) 3
  | four (b0 b1 b2 b3 : Nat) (t : GoString) : 0xF0 ≤ b0 → b0 < 0xF5 →
      (if b0 = 0xF0 then 0x90 else 0x80) ≤ b1 → b1 ≤ (if b0 = 0xF4 then 0x8F else 0xBF) →
      0x80 ≤ b2 → b2 ≤ 0xBF → 0x80 ≤ b3 → b3 ≤ 0xBF →
      RuneShape (b0 :: b1 :: b2 :: b3 :: t)
        ((b0 % 8) * 262144 + (b1 % 64) * 4096 + (b2 % 64) * 64 + b3 % 64) 4

end utf8

namespace json

/-- A byte string that, read inside a string literal, leaves the decoder inside the literal
and is appended to the literal's bytes. -/
def StrChunk (bytes : GoString) : Prop :=
  ∀ d : Decoder, d.scan.step = .inString →
    Decoder.run d bytes = { d with lit := d.lit ++ bytes }

/-- The syntax tree of the object written for one entry. -/
def entrySyn (c esc ts : GoString) : Syn :=
  .obj [(ascii "content", .str esc c), (ascii "timestamp", .str ts ts)]

end json

namespace json
open history

/-- The syntax tree the decoder builds for the text written for entry `e`. -/
def synOf (e : Entry) : Syn :=
  entrySyn e.Content (escapeLoop e.Content.length e.Content)
    (time.formatRFC3339Nano e.Timestamp)

end json

/-- A character that occurs in the text of a number: a digit, the period, `e`, `+` or `-`. -/
def numChar (c : Nat) : Prop :=
  (0x30 ≤ c ∧ c ≤ 0x39) ∨ c = 0x2E ∨ c = 0x65 ∨ c = 0x2B ∨ c = 0x2D

/-- A text without two consecutive spaces that neither starts nor ends with a space. -/
def Tight (s : GoString) : Prop :=
  twoSpaces s = false ∧ s.head? ≠ some 0x20 ∧ s.getLast? ≠ some 0x20

namespace json

/-- The step function of the scanner inside a string literal, on the steps alone: the step
after the byte `c`. -/
def strNext (st : Step) (c : Nat) : Step :=
  match st with
  | .inString =>
    if c = 0x22 then .endValue
    else if c = 0x5C then .inStringEsc
    else if c < 0x20 then .error
    else .inString
  | .inStringEsc =>
    if c = 0x62 ∨ c = 0x66 ∨ c = 0x6E ∨ c = 0x72 ∨ c = 0x74 ∨ c = 0x5C ∨ c = 0x2F ∨ c = 0x22 then
      .inString
    else if c = 0x75 then .inStringEscU
    else .error
  | .inStringEscU => if isHex c then .inStringEscU1 else .error
  | .inStringEscU1 => if isHex c then .inStringEscU12 else .error
  | .inStringEscU12 => if isHex c then .inStringEscU123 else .error
  | .inStringEscU123 => if isHex c then .inString else .error
  | _ => .error

/-- The step of the scanner after the bytes `body`, read inside a string literal from the
step `st`. -/
def strScanFrom (st : Step) (body : GoString) : Step := body.foldl strNext st

/-- Whether a step is one of the steps inside a string literal. -/
def isStr (st : Step) : Bool :=
  match st with
  | .inString | .inStringEsc | .inStringEscU | .inStringEscU1 | .inStringEscU12
  | .inStringEscU123 => true
  | _ => false

/-- Whether a step is one inside a number or one of the words true, false and null. -/
def isWord (st : Step) : Bool :=
  match st with
  | .neg | .s1 | .s0 | .dot | .dot0 | .e | .eSign | .e0
  | .t | .tr | .tru | .f | .fa | .fal | .fals | .n | .nu | .nul => true
  | _ => false

/-- The steps at which a value may begin, be under way or be complete. -/
def isValStep (st : Step) : Bool :=
  match st with
  | .beginValueOrEmpty | .beginValue | .endValue => true
  | st => isStr st || isWord st

/-- The steps at which an object key may begin, be under way or be complete. -/
def isKeyStep (st : Step) : Bool :=
  match st with
  | .beginStringOrEmpty | .beginString | .endValue => true
  | st => isStr st

/-- The steps from which the end of a value is recognised by the byte that follows it. -/
def isDone (st : Step) : Bool :=
  match st with
  | .endValue | .s1 | .s0 | .dot0 | .e0 => true
  | _ => false

/-- A complete literal: not empty, and if it is a string, closed by its quote. -/
def LitDone (lit : GoString) : Prop :=
  match lit with
  | [] => False
  | c :: body => c = 0x22 → strScanFrom .inString body = .endValue

/-- The bytes of the literal being read agree with the step of the scanner. -/
def LitOK (st : Step) (lit : GoString) : Prop :=
  match st with
  | .beginValueOrEmpty | .beginValue | .beginStringOrEmpty | .beginString | .endTop => lit = []
  | .endValue => lit = [] ∨ LitDone lit
  | .error => False
  | st =>
    if isStr st then ∃ body, lit = 0x22 :: body ∧ strScanFrom .inString body = st
    else lit ≠ [] ∧ lit.head? ≠ some 0x22

/-- A container that waits for a value. -/
def Waiting : ParseState → Frame → Prop
  | .arrayValue, .array _ => True
  | .objectValue, .object _ (some _) => True
  | _, _ => False

/-- A container that has taken the value (or key) last read and waits for a delimiter. -/
def AfterOK : ParseState → Frame → Prop
  | .arrayValue, .array _ => True
  | .objectValue, .object _ none => True
  | .objectKey, .object _ (some _) => True
  | _, _ => False

/-- The innermost container agrees with the parse state, the step and the literal. -/
def FrameOK (p : ParseState) (f : Frame) (st : Step) (lit : GoString) : Prop :=
  match p, f with
  | .arrayValue, .array _ => isValStep st = true
  | .objectValue, .object _ key =>
    isValStep st = true ∧ (key.isSome = true ↔ ¬ (st = .endValue ∧ lit = []))
  | .objectKey, .object _ key =>
    isKeyStep st = true ∧ (lit = [] ∨ lit.head? = some 0x22) ∧
      (key.isSome = true ↔ (st = .endValue ∧ lit = []))
  | _, _ => False

/-- The containers under construction agree with the scanner. -/
def CtxOK (s : Scanner) (stack : List Frame) (lit : GoString) (top : Option Syn) : Prop :=
  match s.parseState, stack with
  | [], [] =>
    if s.endTop = true then s.step = .endTop ∧ top.isSome = true
    else isValStep s.step = true ∧ (s.step = .endValue → lit ≠ [])
  | p :: ps, f :: fs => s.endTop = false ∧ FrameOK p f s.step lit ∧ List.Forall₂ Waiting ps fs
  | _, _ => False

/-- The containers under construction once the value last read has been handed on. -/
def CtxAfter (ps : List ParseState) (stack : List Frame) (top : Option Syn) : Prop :=
  match ps, stack with
  | [], [] => top.isSome = true
  | p :: ps, f :: fs => AfterOK p f ∧ List.Forall₂ Waiting ps fs
  | _, _ => False

/-- The invariant of the decoder on input the scanner accepts. -/
structure Inv (d : Decoder) : Prop where
  bad : d.bad = false
  lit : LitOK d.scan.step d.lit
  ctx : CtxOK d.scan d.stack d.lit d.top

/-- The action of the decoder on a result of the scanner. -/
def Decoder.apply (d : Decoder) (r : Scanner × Op) (c : Nat) : Decoder :=
  match r.2 with
  | .scanContinue => { d with scan := r.1, lit := d.lit ++ [c] }
  | .scanBeginLiteral => { d.flush with scan := r.1, lit := [c] }
  | .scanBeginObject =>
    let d1 := d.flush
    { d1 with scan := r.1, stack := .object [] none :: d1.stack }
  | .scanBeginArray =>
    let d1 := d.flush
    { d1 with scan := r.1, stack := .array [] :: d1.stack }
  | .scanEndObject =>
    let d1 := d.flush
    match d1.stack with
    | .object ms _ :: fs => Decoder.emit { d1 with scan := r.1, stack := fs } (.obj ms.reverse)
    | _ => { d1 with scan := r.1, bad := true }
  | .scanEndArray =>
    let d1 := d.flush
    match d1.stack with
    | .array items :: fs => Decoder.emit { d1 with scan := r.1, stack := fs } (.arr items.reverse)
    | _ => { d1 with scan := r.1, bad := true }
  | _ => { d.flush with scan := r.1 }

/-- A syntax tree that is an array or object with at least one item or member. -/
def Syn.filled : Syn → Bool
  | .arr (_ :: _) => true
  | .obj (_ :: _) => true
  | _ => false

/-- A container under construction that holds an item, a member or a key. -/
def Frame.filled : Frame → Bool
  | .array items => !items.isEmpty
  | .object ms key => !ms.isEmpty || key.isSome

/-- The outermost container under construction holds something, or something is on its way
into it: a container opened inside it, or a literal being read. -/
def Pending (stack : List Frame) (lit : GoString) : Prop :=
  ∃ fs f, stack = fs ++ [f] ∧ (f.filled = true ∨ fs ≠ [] ∨ lit ≠ [])

/-- The decoder after the top-level value: nothing is open and the scanner only accepts white
space. -/
def Closed (d : Decoder) : Prop :=
  d.stack = [] ∧ d.lit = [] ∧ d.scan.parseState = [] ∧
    (d.scan.step = .endTop ∨ d.scan.step = .error)

/-- The decoder reads or has read a top-level array or object that is not empty. -/
def Outer (d : Decoder) : Prop :=
  Pending d.stack d.lit ∨ (Closed d ∧ ∃ v, d.top = some v ∧ v.filled = true)

/-- The steps at which a value or an object key may begin. -/
def isBegin (st : Step) : Bool :=
  match st with
  | .beginValueOrEmpty | .beginValue | .beginStringOrEmpty | .beginString => true
  | _ => false

/-- The decoder reads or has read a top-level value that is not a container: nothing is open,
no value can begin, and the top-level value, if there is one already, is not a container that
holds anything. -/
def Scalar (d : Decoder) : Prop :=
  d.stack = [] ∧ d.scan.parseState = [] ∧ isBegin d.scan.step = false ∧
    ∀ v, d.top = some v → v.filled = false

end json

namespace utf8

/-- A rune that `DecodeRune` reads from a valid encoding: a Unicode scalar value. -/
def IsRune (r : Nat) : Prop := ∃ p n, RuneShape p r n

end utf8

/-! # Properties -/

/-! ## UTF-8: decoding and encoding agree on valid sequences -/

namespace utf8

theorem DecodeRune_shape (p : GoString) (hp : p ≠ []) :
    DecodeRune p = (RuneError, 1) ∨ RuneShape p (DecodeRune p).1 (DecodeRune p).2 := by
  match p, hp with
  | p0 :: rest, _ =>
    by_cases h1 : p0 < 0x80
    · right
      have : DecodeRune (p0 :: rest) = (p0, 1) := by simp [DecodeRune, h1]
      rw [this]; exact .one p0 rest h1
    by_cases h2 : p0 < 0xC2
    · left; simp [DecodeRune, h1, h2]
    by_cases h3 : p0 < 0xE0
    · match rest with
      | [] => left; simp [DecodeRune, h1, h2, h3]
      | b1 :: t =>
        by_cases hc : isCont b1 = true
        · right
          have : DecodeRune (p0 :: b1 :: t) = ((p0 % 32) * 64 + b1 % 64, 2) := by
            simp [DecodeRune, h1, h2, h3, hc]
          rw [this]
          simp [isCont] at hc
          exact .two p0 b1 t (by omega) h3 hc.1 hc.2
        · left; simp [DecodeRune, h1, h2, h3, hc]
    by_cases h4 : p0 < 0xF0
    · match rest with
      | [] => left; simp [DecodeRune, h1, h2, h3, h4]
      | [_] => left; simp [DecodeRune, h1, h2, h3, h4]
      | b1 :: b2 :: t =>
        by_cases hr : (if p0 = 0xE0 then 0xA0 else 0x80) ≤ b1 ∧ b1 ≤ (if p0 = 0xED then 0x9F else 0xBF)
        · by_cases hc : isCont b2 = true
          · right
            have : DecodeRune (p0 :: b1 :: b2 :: t) =
                ((p0 % 16) * 4096 + (b1 % 64) * 64 + b2 % 64, 3) := by
              simp only [DecodeRune, h1, h2, h3, h4, hr, hc, if_true, if_false, and_self]
            rw [this]
            simp [isCont] at hc
            exact .three p0 b1 b2 t (by omega) h4 hr.1 hr.2 hc.1 hc.2
          · left; simp only [DecodeRune, h1, h2, h3, h4, hr, hc, if_true, if_false, and_self, Bool.false_eq_true]
        · left; simp only [DecodeRune, h1, h2, h3, h4, hr, if_true, if_false]
    by_cases h5 : p0 < 0xF5
    · match rest with
      | [] => left; simp [DecodeRune, h1, h2, h3, h4, h5]
      | [_] => left; simp [DecodeRune, h1, h2, h3, h4, h5]
      | [_, _] => left; simp [DecodeRune, h1, h2, h3, h4, h5]
      | b1 :: b2 :: b3 :: t =>
        by_cases hr : (if p0 = 0xF0 then 0x90 else 0x80) ≤ b1 ∧ b1 ≤ (if p0 = 0xF4 then 0x8F else 0xBF)
        · by_cases hc : isCont b2 = true
          · by_cases hd : isCont b3 = true
            · right
              have : DecodeRune (p0 :: b1 :: b2 :: b3 :: t) =
                  ((p0 % 8) * 262144 + (b1 % 64) * 4096 + (b2 % 64) * 64 + b3 % 64, 4) := by
                simp only [DecodeRune, h1, h2, h3, h4, h5, hr, hc, hd, if_true, if_false, and_self]
              rw [this]
              simp [isCont] at hc hd
              exact .four p0 b1 b2 b3 t (by omega) h5 hr.1 hr.2 hc.1 hc.2 hd.1 hd.2
            · left; simp only [DecodeRune, h1, h2, h3, h4, h5, hr, hc, hd, if_true, if_false, and_self, Bool.false_eq_true]
          · left; simp only [DecodeRune, h1, h2, h3, h4, h5, hr, hc, if_true, if_false, and_self, Bool.false_eq_true]
        · left; simp only [DecodeRune, h1, h2, h3, h4, h5, hr, if_true, if_false]
    · left; simp [DecodeRune, h1, h2, h3, h4, h5]

theorem RuneShape.size_pos {p r n} (h : RuneShape p r n) : 1 ≤ n ∧ n ≤ p.length := by
  cases h <;> simp

theorem RuneShape.decode {p r n} (h : RuneShape p r n) (q : GoString) :
    DecodeRune (p.take n ++ q) = (r, n) := by
  cases h with
  | one b t hb => simp [DecodeRune, hb]
  | two b0 b1 t h0 h0' h1 h1' =>
    have e1 : ¬ b0 < 0x80 := by omega
    have e2 : ¬ b0 < 0xC2 := by omega
    simp [DecodeRune, e1, e2, h0', isCont, h1, h1']
  | three b0 b1 b2 t h0 h0' h1 h1' h2 h2' =>
    have e1 : ¬ b0 < 0x80 := by omega
    have e2 : ¬ b0 < 0xC2 := by omega
    have e3 : ¬ b0 < 0xE0 := by omega
    simp only [List.take_succ_cons, List.take_zero, List.cons_append, List.nil_append,
      DecodeRune, e1, e2, e3, h0', isCont, h1, h1', h2, h2', if_true, if_false, and_self,
      decide_True, Bool.and_self]
  | four b0 b1 b2 b3 t h0 h0' h1 h1' h2 h2' h3 h3' =>
    have e1 : ¬ b0 < 0x80 := by omega
    have e2 : ¬ b0 < 0xC2 := by omega
    have e3 : ¬ b0 < 0xE0 := by omega
    have e4 : ¬ b0 < 0xF0 := by omega
    simp only [List.take_succ_cons, List.take_zero, List.cons_append, List.nil_append,
      DecodeRune, e1, e2, e3, e4, h0', isCont, h1, h1', h2, h2', h3, h3', if_true, if_false,
      and_self, decide_True, Bool.and_self]

theorem RuneShape.encode {p r n} (h : RuneShape p r n) : EncodeRune r = p.take n := by
  cases h with
  | one b t hb =>
    simp [EncodeRune]
    intro hh; omega
  | two b0 b1 t h0 h0' h1 h1' =>
    have e1 : ¬ (b0 % 32 * 64 + b1 % 64 ≤ 0x7F) := by omega
    have e2 : b0 % 32 * 64 + b1 % 64 ≤ 0x7FF := by omega
    simp only [EncodeRune, e1, e2, if_true, if_false, List.take_succ_cons, List.take_zero]
    congr 1
    · omega
    · congr 1; omega
  | three b0 b1 b2 t h0 h0' h1 h1' h2 h2' =>
    have e1 : ¬ (b0 % 16 * 4096 + b1 % 64 * 64 + b2 % 64 ≤ 0x7F) := by split_ifs at h1 h1' <;> omega
    have e2 : ¬ (b0 % 16 * 4096 + b1 % 64 * 64 + b2 % 64 ≤ 0x7FF) := by split_ifs at h1 h1' <;> omega
    have e3 : ¬ (0x10FFFF < b0 % 16 * 4096 + b1 % 64 * 64 + b2 % 64 ∨
        (0xD800 ≤ b0 % 16 * 4096 + b1 % 64 * 64 + b2 % 64 ∧
          b0 % 16 * 4096 + b1 % 64 * 64 + b2 % 64 ≤ 0xDFFF)) := by
      split_ifs at h1 h1' <;> omega
    have e4 : b0 % 16 * 4096 + b1 % 64 * 64 + b2 % 64 ≤ 0xFFFF := by omega
    simp only [EncodeRune, e1, e2, e3, e4, if_true, if_false, List.take_succ_cons, List.take_zero]
    congr 1
    · omega
    · congr 1
      · split_ifs at h1 h1' <;> omega
      · congr 1; omega
  | four b0 b1 b2 b3 t h0 h0' h1 h1' h2 h2' h3 h3' =>
    have e1 : ¬ (b0 % 8 * 262144 + b1 % 64 * 4096 + b2 % 64 * 64 + b3 % 64 ≤ 0x7F) := by
      split_ifs at h1 h1' <;> omega
    have e2 : ¬ (b0 % 8 * 262144 + b1 % 64 * 4096 + b2 % 64 * 64 + b3 % 64 ≤ 0x7FF) := by
      split_ifs at h1 h1' <;> omega
    have e3 : ¬ (0x10FFFF < b0 % 8 * 262144 + b1 % 64 * 4096 + b2 % 64 * 64 + b3 % 64 ∨
        (0xD800 ≤ b0 % 8 * 262144 + b1 % 64 * 4096 + b2 % 64 * 64 + b3 % 64 ∧
          b0 % 8 * 262144 + b1 % 64 * 4096 + b2 % 64 * 64 + b3 % 64 ≤ 0xDFFF)) := by
      split_ifs at h1 h1' <;> omega
    have e4 : ¬ (b0 % 8 * 262144 + b1 % 64 * 4096 + b2 % 64 * 64 + b3 % 64 ≤ 0xFFFF) := by
      split_ifs at h1 h1' <;> omega
    simp only [EncodeRune, e1, e2, e3, e4, if_true, if_false, List.take_succ_cons, List.take_zero]
    congr 1
    · split_ifs at h1 h1' <;> omega
    · congr 1
      · split_ifs at h1 h1' <;> omega
      · congr 1
        · omega
        · congr 1; omega

theorem RuneShape.high {p r n} (h : RuneShape p r n) (hb : ∀ b ∈ p.head?, 0x80 ≤ b) :
    ∀ x ∈ p.take n, 0x80 ≤ x := by
  cases h with
  | one b t hb' => simpa using hb
  | two b0 b1 t h0 h0' h1 h1' => simp; omega
  | three b0 b1 b2 t h0 h0' h1 h1' h2 h2' =>
    simp; refine ⟨by omega, ?_, by omega⟩; split_ifs at h1 h1' <;> omega
  | four b0 b1 b2 b3 t h0 h0' h1 h1' h2 h2' h3 h3' =>
    simp; refine ⟨by omega, ?_, by omega, by omega⟩; split_ifs at h1 h1' <;> omega

end utf8

/-! ## JSON strings: what `appendString` writes, the scanner accepts and `unquote` reads back -/

namespace json
open utf8

theorem StrChunk.nil : StrChunk [] := by
  intro d _; simp [Decoder.run]

theorem StrChunk.append {a b : GoString} (ha : StrChunk a) (hb : StrChunk b) :
    StrChunk (a ++ b) := by
  intro d hd
  have h1 := ha d hd
  unfold Decoder.run at h1 ⊢
  rw [List.foldl_append, h1]
  have h2 := hb { d with lit := d.lit ++ a } hd
  unfold Decoder.run at h2
  rw [h2]
  simp

theorem StrChunk.plain {c : Nat} (h0 : 0x20 ≤ c) (h1 : c ≠ 0x22) (h2 : c ≠ 0x5C) :
    StrChunk [c] := by
  intro d hd
  obtain ⟨⟨step, eT, ps⟩, stack, lit, top, bad⟩ := d
  simp only at hd
  subst hd
  have h3 : ¬ c < 0x20 := by omega
  simp [Decoder.run, Decoder.next, Scanner.next, h1, h2, h3]

theorem StrChunk.plains {bs : GoString} (h : ∀ c ∈ bs, 0x20 ≤ c ∧ c ≠ 0x22 ∧ c ≠ 0x5C) :
    StrChunk bs := by
  induction bs with
  | nil => exact StrChunk.nil
  | cons c cs ih =>
    have hc := h c (by simp)
    have := StrChunk.append (StrChunk.plain hc.1 hc.2.1 hc.2.2)
      (ih (fun x hx => h x (by simp [hx])))
    simpa using this

theorem StrChunk.esc {x : Nat}
    (hx : x = 0x62 ∨ x = 0x66 ∨ x = 0x6E ∨ x = 0x72 ∨ x = 0x74 ∨ x = 0x5C ∨ x = 0x2F ∨ x = 0x22) :
    StrChunk [0x5C, x] := by
  intro d hd
  obtain ⟨⟨step, eT, ps⟩, stack, lit, top, bad⟩ := d
  simp only at hd
  subst hd
  simp [Decoder.run, Decoder.next, Scanner.next, hx]

theorem StrChunk.escU {a b c e : Nat} (ha : isHex a = true) (hb : isHex b = true)
    (hc : isHex c = true) (he : isHex e = true) :
    StrChunk [0x5C, 0x75, a, b, c, e] := by
  intro d hd
  obtain ⟨⟨step, eT, ps⟩, stack, lit, top, bad⟩ := d
  simp only at hd
  subst hd
  simp [Decoder.run, Decoder.next, Scanner.next, ha, hb, hc, he]

theorem isHex_hex (n : Nat) : isHex (hex n) = true := by
  unfold isHex hex
  simp only [Bool.or_eq_true, Bool.and_eq_true, decide_eq_true_eq]
  split_ifs with h <;> omega

theorem StrChunk.escapeByte (b : Nat) : StrChunk (escapeByte b) := by
  unfold json.escapeByte
  split_ifs with h1 h2 h3 h4 h5 h6
  · rcases h1 with h | h <;> subst h
    · exact StrChunk.esc (by decide)
    · exact StrChunk.esc (by decide)
  · exact StrChunk.esc (by decide)
  · exact StrChunk.esc (by decide)
  · exact StrChunk.esc (by decide)
  · exact StrChunk.esc (by decide)
  · exact StrChunk.esc (by decide)
  · exact StrChunk.escU (by decide) (by decide) (isHex_hex _) (isHex_hex _)

theorem htmlSafe_plain {b : Nat} (h : htmlSafe b = true) : 0x20 ≤ b ∧ b ≠ 0x22 ∧ b ≠ 0x5C := by
  simp [htmlSafe] at h
  omega

theorem StrChunk.escapeLoop (fuel : Nat) : ∀ s : GoString, StrChunk (escapeLoop fuel s) := by
  induction fuel with
  | zero =>
    intro s
    cases s <;> exact StrChunk.nil
  | succ n ih =>
    intro s
    cases s with
    | nil => exact StrChunk.nil
    | cons b rest =>
      unfold json.escapeLoop
      dsimp only
      split_ifs with h1 h2 h3 h4
      · have hp := htmlSafe_plain h2
        exact StrChunk.append (StrChunk.plain hp.1 hp.2.1 hp.2.2) (ih _)
      · exact StrChunk.append (StrChunk.escapeByte b) (ih _)
      · exact StrChunk.append (StrChunk.escU (a := 0x66) (b := 0x66) (c := 0x66) (e := 0x64)
          (by decide) (by decide) (by decide) (by decide)) (ih _)
      · exact StrChunk.append (StrChunk.escU (a := 0x32) (b := 0x30) (c := 0x32)
          (by decide) (by decide) (by decide) (isHex_hex _)) (ih _)
      · refine StrChunk.append (StrChunk.plains ?_) (ih _)
        rcases DecodeRune_shape (b :: rest) (by simp) with he | hs
        · exfalso; apply h3; rw [he]; exact ⟨rfl, rfl⟩
        · intro c hc
          have := hs.high (by simp; omega) c hc
          omega

theorem unquoteLoop_plain (f c : Nat) (tail : GoString) (h0 : 0x20 ≤ c) (h1 : c < 0x80)
    (h2 : c ≠ 0x22) (h3 : c ≠ 0x5C) :
    unquoteLoop (f + 1) (c :: tail) = (unquoteLoop f tail).map (c :: ·) := by
  have h4 : ¬ (c = 0x22 ∨ c < 0x20) := by omega
  simp only [unquoteLoop, h3, h4, h1, if_true, if_false]

theorem getu4_hex (b : Nat) (hb : b < 0x100) (tail : GoString) :
    getu4 (0x5C :: 0x75 :: 0x30 :: 0x30 :: hex (b / 16) :: hex b :: tail) = some b := by
  have key : ∀ n, (if 0x30 ≤ hex n ∧ hex n ≤ 0x39 then some (hex n - 0x30)
      else if 0x61 ≤ hex n ∧ hex n ≤ 0x66 then some (hex n - 0x61 + 10)
      else if 0x41 ≤ hex n ∧ hex n ≤ 0x46 then some (hex n - 0x41 + 10)
      else none) = some (n % 16) := by
    intro n
    unfold hex
    split_ifs <;> first | omega | (congr 1; omega)
  simp only [getu4, key]
  norm_num
  omega

theorem unquoteEscape_escapeByte (b : Nat) (tail : GoString) (hb : b < 0x80) :
    unquoteEscape (escapeByte b ++ tail) = some ([b], tail) := by
  unfold json.escapeByte
  split_ifs with h1 h2 h3 h4 h5 h6
  · rcases h1 with h | h <;> subst h <;> simp [unquoteEscape]
  · subst h2; simp [unquoteEscape]
  · subst h3; simp [unquoteEscape]
  · subst h4; simp [unquoteEscape]
  · subst h5; simp [unquoteEscape]
  · subst h6; simp [unquoteEscape]
  · have hg := getu4_hex b (by omega) tail
    have hsur : isSurrogate b = false := by simp [isSurrogate]; omega
    have henc : EncodeRune b = [b] := by
      have : b ≤ 0x7F := by omega
      simp [EncodeRune, this]
    simp only [List.cons_append, List.nil_append, unquoteEscape, hg]
    norm_num
    simp [hsur, henc]

theorem escapeByte_head (b : Nat) : ∃ e, escapeByte b = 0x5C :: e := by
  unfold json.escapeByte
  split_ifs <;> exact ⟨_, rfl⟩

theorem unquoteLoop_escapeByte (f b : Nat) (tail : GoString) (hb : b < 0x80) :
    unquoteLoop (f + 1) (escapeByte b ++ tail) = (unquoteLoop f tail).map (b :: ·) := by
  have h := unquoteEscape_escapeByte b tail hb
  obtain ⟨e, he⟩ := escapeByte_head b
  rw [he] at h ⊢
  rw [List.cons_append] at h ⊢
  rw [unquoteLoop.eq_3, if_pos rfl, h]
  rfl

theorem unquoteLoop_escU (f r : Nat) (tail : GoString) (hr : r = 0x2028 ∨ r = 0x2029) :
    unquoteLoop (f + 1) ([0x5C, 0x75, 0x32, 0x30, 0x32, hex r] ++ tail) =
      (unquoteLoop f tail).map (EncodeRune r ++ ·) := by
  rw [List.cons_append, unquoteLoop.eq_3, if_pos rfl]
  rcases hr with h | h <;> subst h <;> simp [unquoteEscape, getu4, hex, isSurrogate]

theorem unquoteLoop_rune (f : Nat) {p : GoString} {r n : Nat} (hs : RuneShape p r n)
    (hh : ∀ b ∈ p.head?, 0x80 ≤ b) (tail : GoString) :
    unquoteLoop (f + 1) (p.take n ++ tail) = (unquoteLoop f tail).map (p.take n ++ ·) := by
  have hd := hs.decode tail
  have he := hs.encode
  have hn := hs.size_pos
  have hhigh := hs.high hh
  have hlen : (p.take n).length = n := by simp; omega
  cases htk : p.take n with
  | nil => rw [htk] at hlen; simp at hlen; omega
  | cons c rest =>
    rw [htk] at hd hhigh
    have hc : 0x80 ≤ c := hhigh c (by simp)
    rw [List.cons_append] at hd ⊢
    rw [unquoteLoop.eq_3, if_neg (by omega), if_neg (by omega), if_neg (by omega), hd]
    simp only
    rw [he, htk]
    congr 1
    congr 1
    rw [← List.cons_append, ← htk, List.drop_append_eq_append_drop, hlen]
    simp [hlen]

theorem unquoteLoop_escapeLoop (fuel : Nat) : ∀ s : GoString, s.length ≤ fuel →
    validLoop fuel s = true → ∀ f, (escapeLoop fuel s).length ≤ f →
      unquoteLoop f (escapeLoop fuel s) = some s := by
  induction fuel with
  | zero =>
    intro s hl _ f _
    cases s with
    | nil => simp [json.escapeLoop, unquoteLoop]
    | cons b rest => simp at hl
  | succ n ih =>
    intro s hl hv f hf
    cases s with
    | nil => simp [json.escapeLoop, unquoteLoop]
    | cons b rest =>
      simp only [List.length_cons, Nat.add_le_add_iff_right] at hl
      rw [validLoop.eq_3] at hv
      rw [escapeLoop.eq_3] at hf ⊢
      dsimp only at hv hf ⊢
      by_cases h1 : b < 0x80
      · have hdec : DecodeRune (b :: rest) = (b, 1) := by simp [DecodeRune, h1]
        rw [hdec] at hv
        have hb : ¬ (b = RuneError ∧ 1 = 1) := by simp [RuneError]; omega
        rw [if_neg hb] at hv
        simp only [List.drop_succ_cons, List.drop_zero] at hv
        rw [if_pos h1] at hf ⊢
        by_cases h2 : htmlSafe b = true
        · rw [if_pos h2] at hf ⊢
          have hp := htmlSafe_plain h2
          simp only [List.singleton_append, List.length_cons] at hf ⊢
          obtain ⟨f0, rfl⟩ : ∃ f0, f = f0 + 1 := ⟨f - 1, by omega⟩
          rw [unquoteLoop_plain f0 b _ hp.1 h1 hp.2.1 hp.2.2, ih rest hl hv f0 (by omega)]
          rfl
        · rw [if_neg h2] at hf ⊢
          obtain ⟨e, he⟩ := escapeByte_head b
          have hlen : 1 ≤ (escapeByte b).length := by rw [he]; simp
          rw [List.length_append] at hf
          obtain ⟨f0, rfl⟩ : ∃ f0, f = f0 + 1 := ⟨f - 1, by omega⟩
          rw [unquoteLoop_escapeByte f0 b _ h1, ih rest hl hv f0 (by omega)]
          rfl
      · rw [if_neg h1] at hf ⊢
        by_cases h3 : (DecodeRune (b :: rest)).1 = RuneError ∧ (DecodeRune (b :: rest)).2 = 1
        · rw [if_pos h3] at hv; simp at hv
        · rw [if_neg h3] at hv hf ⊢
          rcases DecodeRune_shape (b :: rest) (by simp) with he | hs
          · exfalso; apply h3; rw [he]; exact ⟨rfl, rfl⟩
          · have hn := hs.size_pos
            have hhd : ∀ x ∈ (b :: rest).head?, 0x80 ≤ x := by simp; omega
            have hdl : ((b :: rest).drop (DecodeRune (b :: rest)).2).length ≤ n := by
              simp only [List.length_drop, List.length_cons]; omega
            have hsplit : (b :: rest).take (DecodeRune (b :: rest)).2 ++
                (b :: rest).drop (DecodeRune (b :: rest)).2 = b :: rest :=
              List.take_append_drop _ _
            by_cases h4 : (DecodeRune (b :: rest)).1 = 0x2028 ∨ (DecodeRune (b :: rest)).1 = 0x2029
            · rw [if_pos h4] at hf ⊢
              simp only [List.length_append, List.length_cons, List.length_nil] at hf
              obtain ⟨f0, rfl⟩ : ∃ f0, f = f0 + 1 := ⟨f - 1, by omega⟩
              rw [unquoteLoop_escU f0 _ _ h4, ih _ hdl hv f0 (by omega), hs.encode]
              simp only [Option.map_some']
              rw [hsplit]
            · rw [if_neg h4] at hf ⊢
              have htl : ((b :: rest).take (DecodeRune (b :: rest)).2).length =
                  (DecodeRune (b :: rest)).2 := by
                rw [List.length_take]; simp only [List.length_cons] at hn ⊢; omega
              rw [List.length_append, htl] at hf
              obtain ⟨f0, rfl⟩ : ∃ f0, f = f0 + 1 := ⟨f - 1, by omega⟩
              rw [unquoteLoop_rune f0 hs hhd, ih _ hdl hv f0 (by omega)]
              simp only [Option.map_some']
              rw [hsplit]

theorem unquote_escapeLoop (s : GoString) (hv : utf8.Valid s = true) :
    unquote (escapeLoop s.length s) = some s :=
  unquoteLoop_escapeLoop s.length s (Nat.le_refl _) hv _ (Nat.le_refl _)

end json

/-! ## RFC 3339: what `MarshalJSON` writes, `parseRFC3339` accepts -/

namespace time

theorem digit_sub (d : Nat) : digit d - 0x30 = d % 10 := by unfold digit; omega

theorem isDigit_digit (d : Nat) : isDigit (digit d) = true := by
  unfold isDigit digit
  simp only [Bool.and_eq_true, decide_eq_true_eq]
  omega

theorem parseUint_pad2 (n lo hi : Nat) (h : n < 100) (hlo : lo ≤ n) (hhi : n ≤ hi) :
    parseUint [digit (n / 10), digit n] lo hi = some n := by
  simp [parseUint, isDigit_digit, digit_sub]
  omega

theorem parseUint_pad4 (n lo hi : Nat) (h : n < 10000) (hlo : lo ≤ n) (hhi : n ≤ hi) :
    parseUint [digit (n / 1000), digit (n / 100), digit (n / 10), digit n] lo hi = some n := by
  simp [parseUint, isDigit_digit, digit_sub]
  omega

theorem parseZone_appendZone (off : Int) (hz : off = 0 ∨ off.natAbs / 60 / 60 < 24) :
    (parseZone (appendZone off)).isSome = true := by
  unfold appendZone
  by_cases h0 : off = 0
  · simp [h0, parseZone]
  · rw [if_neg h0]
    have hh : off.natAbs / 60 / 60 < 24 := by rcases hz with h | h; exact absurd h h0; exact h
    simp only [pad2, List.cons_append, List.nil_append, parseZone]
    rw [parseUint_pad2 _ 0 23 (by omega) (by omega) (by omega),
      parseUint_pad2 _ 0 59 (by omega) (by omega) (by omega)]
    simp only
    split_ifs with h1 h2 h3 <;> simp_all

theorem dropZeros_all (l : GoString) (h : ∀ c ∈ l, isDigit c = true) :
    ∀ c ∈ dropZeros l, isDigit c = true := by
  induction l with
  | nil => simp [dropZeros]
  | cons a t ih =>
    unfold dropZeros
    split_ifs with h0
    · exact ih (fun c hc => h c (by simp [hc]))
    · exact h

theorem dropZeros_length (l : GoString) : (dropZeros l).length ≤ l.length := by
  induction l with
  | nil => simp [dropZeros]
  | cons a t ih =>
    unfold dropZeros
    split_ifs with h0
    · simp; omega
    · simp

theorem dropZeros_ne_nil (l : GoString) (h : ∃ c ∈ l, c ≠ 0x30) : dropZeros l ≠ [] := by
  induction l with
  | nil => simp at h
  | cons a t ih =>
    unfold dropZeros
    split_ifs with h0
    · apply ih
      obtain ⟨c, hc, hne⟩ := h
      simp at hc
      rcases hc with rfl | hc
      · exact absurd h0 hne
      · exact ⟨c, hc, hne⟩
    · simp

theorem pad9_digits (n : Nat) : ∀ c ∈ pad9 n, isDigit c = true := by
  intro c hc
  simp [pad9] at hc
  rcases hc with h | h | h | h | h | h | h | h | h <;> subst h <;> exact isDigit_digit _

theorem pad9_nonzero (n : Nat) (h0 : n ≠ 0) (h1 : n ≤ 999999999) : ∃ c ∈ pad9 n, c ≠ 0x30 := by
  by_contra hall
  push_neg at hall
  have d8 := hall (digit (n / 100000000)) (by simp [pad9])
  have d7 := hall (digit (n / 10000000)) (by simp [pad9])
  have d6 := hall (digit (n / 1000000)) (by simp [pad9])
  have d5 := hall (digit (n / 100000)) (by simp [pad9])
  have d4 := hall (digit (n / 10000)) (by simp [pad9])
  have d3 := hall (digit (n / 1000)) (by simp [pad9])
  have d2 := hall (digit (n / 100)) (by simp [pad9])
  have d1 := hall (digit (n / 10)) (by simp [pad9])
  have d0 := hall (digit n) (by simp [pad9])
  unfold digit at d0 d1 d2 d3 d4 d5 d6 d7 d8
  clear hall
  have e8 : n < 100000000 := by clear d7 d6 d5 d4 d3 d2 d1 d0; omega
  have e7 : n < 10000000 := by clear d8 d6 d5 d4 d3 d2 d1 d0 h1; omega
  have e6 : n < 1000000 := by clear d8 d7 d5 d4 d3 d2 d1 d0 h1 e8; omega
  have e5 : n < 100000 := by clear d8 d7 d6 d4 d3 d2 d1 d0 h1 e8 e7; omega
  have e4 : n < 10000 := by clear d8 d7 d6 d5 d3 d2 d1 d0 h1 e8 e7 e6; omega
  have e3 : n < 1000 := by clear d8 d7 d6 d5 d4 d2 d1 d0 h1 e8 e7 e6 e5; omega
  have e2 : n < 100 := by clear d8 d7 d6 d5 d4 d3 d1 d0 h1 e8 e7 e6 e5 e4; omega
  have e1 : n < 10 := by clear d8 d7 d6 d5 d4 d3 d2 d0 h1 e8 e7 e6 e5 e4 e3; omega
  clear d8 d7 d6 d5 d4 d3 d2 d1 h1 e8 e7 e6 e5 e4 e3 e2
  omega

theorem foldl_digits_lt (ds : GoString) (h : ∀ c ∈ ds, isDigit c = true) :
    ∀ acc, ds.foldl (fun x c => x * 10 + (c - 0x30)) acc < (acc + 1) * 10 ^ ds.length := by
  induction ds with
  | nil => intro acc; simp
  | cons c t ih =>
    intro acc
    have hc := h c (by simp)
    simp only [isDigit, Bool.and_eq_true, decide_eq_true_eq] at hc
    have := ih (fun x hx => h x (by simp [hx])) (acc * 10 + (c - 0x30))
    simp only [List.foldl_cons, List.length_cons]
    calc _ < (acc * 10 + (c - 0x30) + 1) * 10 ^ t.length := this
      _ ≤ ((acc + 1) * 10) * 10 ^ t.length := Nat.mul_le_mul_right _ (by omega)
      _ = (acc + 1) * 10 ^ (t.length + 1) := by rw [Nat.pow_succ]; ring

theorem parseNanoseconds_le (ds : GoString) (h : ∀ c ∈ ds, isDigit c = true) :
    parseNanoseconds ds ≤ 999999999 := by
  unfold parseNanoseconds
  dsimp only
  have hall : ∀ c ∈ ds.take 9, isDigit c = true := fun c hc => h c (List.mem_of_mem_take hc)
  have hlt := foldl_digits_lt (ds.take 9) hall 0
  have hlen : (ds.take 9).length ≤ 9 := by simp
  generalize (ds.take 9).foldl (fun x c => x * 10 + (c - 0x30)) 0 = v at hlt ⊢
  generalize (ds.take 9).length = k at hlt hlen ⊢
  simp only [Nat.zero_add, Nat.one_mul] at hlt
  have h1 : (v + 1) * 10 ^ (9 - k) ≤ 10 ^ k * 10 ^ (9 - k) := Nat.mul_le_mul_right _ hlt
  rw [← Nat.pow_add, show k + (9 - k) = 9 by omega] at h1
  have h2 : 1 ≤ 10 ^ (9 - k) := Nat.one_le_pow _ _ (by decide)
  have h3 : (v + 1) * 10 ^ (9 - k) = v * 10 ^ (9 - k) + 10 ^ (9 - k) := by ring
  have h4 : (10 : Nat) ^ 9 = 1000000000 := by norm_num
  omega

theorem appendZone_head (off : Int) :
    ∃ z zs, appendZone off = z :: zs ∧ isDigit z = false ∧ z ≠ 0x2E := by
  unfold appendZone
  by_cases h0 : off = 0
  · rw [if_pos h0]; exact ⟨_, _, rfl, by decide, by decide⟩
  · rw [if_neg h0]
    dsimp only
    by_cases h1 : off < 0 ∧ off.natAbs / 60 ≠ 0
    · rw [if_pos h1]; exact ⟨_, _, rfl, by decide, by decide⟩
    · rw [if_neg h1]; exact ⟨_, _, rfl, by decide, by decide⟩

theorem takeWhile_digits (ds zs : GoString) (z : Nat) (h : ∀ c ∈ ds, isDigit c = true)
    (hz : isDigit z = false) :
    (ds ++ z :: zs).takeWhile isDigit = ds ∧ (ds ++ z :: zs).dropWhile isDigit = z :: zs := by
  induction ds with
  | nil => simp [List.takeWhile, List.dropWhile, hz]
  | cons c t ih =>
    have hc := h c (by simp)
    have := ih (fun x hx => h x (by simp [hx]))
    simp [List.takeWhile, List.dropWhile, hc, this]

theorem parseFraction_appendNano (nsec : Nat) (hn : nsec ≤ 999999999) (off : Int) :
    (parseFraction (appendNano nsec ++ appendZone off)).2 = appendZone off ∧
    (parseFraction (appendNano nsec ++ appendZone off)).1 ≤ 999999999 := by
  obtain ⟨z, zs, hz, hzd, hzp⟩ := appendZone_head off
  unfold appendNano
  by_cases h0 : nsec = 0
  · rw [if_pos h0, List.nil_append, hz]
    unfold parseFraction
    split
    · rename_i c rest heq
      simp at heq
      exact absurd heq.1 hzp
    · simp
  · rw [if_neg h0]
    have hall : ∀ c ∈ (dropZeros (pad9 nsec).reverse).reverse, isDigit c = true := by
      intro c hc
      rw [List.mem_reverse] at hc
      exact dropZeros_all _ (fun x hx => pad9_digits nsec x (List.mem_reverse.mp hx)) c hc
    have hne : (dropZeros (pad9 nsec).reverse).reverse ≠ [] := by
      intro h
      rw [List.reverse_eq_nil_iff] at h
      obtain ⟨c, hc, hc0⟩ := pad9_nonzero nsec h0 hn
      exact dropZeros_ne_nil _ ⟨c, List.mem_reverse.mpr hc, hc0⟩ h
    generalize (dropZeros (pad9 nsec).reverse).reverse = ds at hall hne
    cases ds with
    | nil => exact absurd rfl hne
    | cons c t =>
      have hc := hall c (by simp)
      have htw := takeWhile_digits (c :: t) zs z hall hzd
      rw [hz]
      simp only [List.cons_append] at htw ⊢
      simp only [parseFraction, hc, if_true, htw]
      exact ⟨trivial, parseNanoseconds_le _ hall⟩

theorem parseRFC3339_format (t : Time) (hy : 0 ≤ t.year ∧ t.year ≤ 9999)
    (hz : t.offset = 0 ∨ t.offset.natAbs / 60 / 60 < 24) :
    (parseRFC3339 (formatRFC3339Nano t)).isSome = true := by
  have hyear : ((t.year.toNat : Nat) : Int) = t.year := Int.toNat_of_nonneg hy.1
  have e1 := parseUint_pad4 t.year.toNat 0 9999 (by omega) (by omega) (by omega)
  have e2 := parseUint_pad2 t.month 1 12 (by have := t.month_ok; omega) t.month_ok.1 t.month_ok.2
  have hdi : daysIn t.month t.year ≤ 31 := by unfold daysIn; split_ifs <;> omega
  have e3 := parseUint_pad2 t.day 1 (daysIn t.month t.year) (by have := t.day_ok; omega)
    t.day_ok.1 t.day_ok.2
  have e4 := parseUint_pad2 t.hour 0 23 (by have := t.hour_ok; omega) (by omega) t.hour_ok
  have e5 := parseUint_pad2 t.minute 0 59 (by have := t.minute_ok; omega) (by omega) t.minute_ok
  have e6 := parseUint_pad2 t.second 0 59 (by have := t.second_ok; omega) (by omega) t.second_ok
  have hfr := parseFraction_appendNano t.nsec t.nsec_ok t.offset
  have hzone := parseZone_appendZone t.offset hz
  simp only [formatRFC3339Nano, pad4, pad2, List.cons_append, List.nil_append, parseRFC3339,
    e1, e2, hyear, e3, e4, e5, e6, and_self, if_true]
  rw [hfr.1]
  cases hpz : parseZone (appendZone t.offset) with
  | none => rw [hpz] at hzone; simp at hzone
  | some off =>
    simp only
    rw [dif_pos ⟨t.month_ok, t.day_ok, t.hour_ok, t.minute_ok, t.second_ok, hfr.2⟩]
    rfl

end time

/-! ## The decoder on the text `save` writes -/

namespace json

theorem run_append (d : Decoder) (a b : GoString) :
    Decoder.run d (a ++ b) = Decoder.run (Decoder.run d a) b := by
  simp [Decoder.run, List.foldl_append]

theorem run_cons (d : Decoder) (c : Nat) (b : GoString) :
    Decoder.run d (c :: b) = Decoder.run (d.next c) b := rfl

/-- Reading a whole string literal whose body is a chunk: the literal is left pending. -/
theorem run_literal (d : Decoder) (body : GoString) (hb : StrChunk body) (hl : d.lit = [])
    (hq : d.scan.next 0x22 = ({ d.scan with step := .inString }, .scanBeginLiteral)) :
    Decoder.run d (0x22 :: body ++ [0x22]) =
      { d with scan := { d.scan with step := .endValue }, lit := 0x22 :: body ++ [0x22] } := by
  obtain ⟨⟨step, eT, ps⟩, stack, lit, top, bad⟩ := d
  simp only at hl hq
  subst hl
  rw [List.cons_append, run_cons, run_append]
  have h1 : Decoder.next ⟨⟨step, eT, ps⟩, stack, [], top, bad⟩ 0x22 =
      ⟨⟨.inString, eT, ps⟩, stack, [0x22], top, bad⟩ := by
    simp [Decoder.next, hq, Decoder.flush]
  rw [h1, hb _ rfl]
  simp [Decoder.run, Decoder.next, Scanner.next]

theorem literalValue_string (body v : GoString) (h : unquote body = some v) :
    literalValue (0x22 :: body ++ [0x22]) = some (.str body v) := by
  simp [literalValue, h]

end json

namespace json

theorem ascii_head : ascii "\x7b\n    \"content\": " =
    [0x7B, 0x0A, 0x20, 0x20, 0x20, 0x20, 0x22, 0x63, 0x6F, 0x6E, 0x74, 0x65, 0x6E, 0x74, 0x22,
      0x3A, 0x20] := by decide

theorem ascii_mid : ascii ",\n    \"timestamp\": " =
    [0x2C, 0x0A, 0x20, 0x20, 0x20, 0x20, 0x22, 0x74, 0x69, 0x6D, 0x65, 0x73, 0x74, 0x61, 0x6D,
      0x70, 0x22, 0x3A, 0x20] := by decide

theorem ascii_tail : ascii "\n  \x7d" = [0x0A, 0x20, 0x20, 0x7D] := by decide

theorem literalValue_content :
    literalValue [0x22, 0x63, 0x6F, 0x6E, 0x74, 0x65, 0x6E, 0x74, 0x22] =
      some (.str (ascii "content") (ascii "content")) := by rfl

theorem literalValue_timestamp :
    literalValue [0x22, 0x74, 0x69, 0x6D, 0x65, 0x73, 0x74, 0x61, 0x6D, 0x70, 0x22] =
      some (.str (ascii "timestamp") (ascii "timestamp")) := by rfl

theorem literalValue_string' (body v : GoString) (h : unquote body = some v) :
    literalValue (0x22 :: (body ++ [0x22])) = some (.str body v) := by
  simp [literalValue, h]

theorem run_entry_head (st : Step) (hst : st = .beginValue ∨ st = .beginValueOrEmpty)
    (acc : List Syn) :
    Decoder.run ⟨⟨st, false, [.arrayValue]⟩, [.array acc], [], none, false⟩
      (ascii "\x7b\n    \"content\": ") =
    ⟨⟨.beginValue, false, [.objectValue, .arrayValue]⟩,
      [.object [] (some (ascii "content")), .array acc], [], none, false⟩ := by
  rw [ascii_head]
  rcases hst with h | h <;> subst h <;>
    simp [Decoder.run, Decoder.next, Scanner.next, Scanner.stateBeginValue,
      Scanner.stateBeginString, Scanner.stateEndValue, Scanner.pushParseState, isSpace,
      Decoder.flush, Decoder.emit, maxNestingDepth, literalValue_content]

theorem run_entry_mid (acc : List Syn) (esc c : GoString) (h : unquote esc = some c) :
    Decoder.run ⟨⟨.endValue, false, [.objectValue, .arrayValue]⟩,
      [.object [] (some (ascii "content")), .array acc], 0x22 :: (esc ++ [0x22]), none, false⟩
      (ascii ",\n    \"timestamp\": ") =
    ⟨⟨.beginValue, false, [.objectValue, .arrayValue]⟩,
      [.object [(ascii "content", .str esc c)] (some (ascii "timestamp")), .array acc],
      [], none, false⟩ := by
  rw [ascii_mid]
  simp [Decoder.run, Decoder.next, Scanner.next, Scanner.stateBeginValue,
      Scanner.stateBeginString, Scanner.stateEndValue, Scanner.pushParseState, isSpace,
      Decoder.flush, Decoder.emit, maxNestingDepth, literalValue_timestamp,
      literalValue_string' esc c h]

theorem run_entry_tail (acc : List Syn) (esc c ts : GoString) (h : unquote ts = some ts) :
    Decoder.run ⟨⟨.endValue, false, [.objectValue, .arrayValue]⟩,
      [.object [(ascii "content", .str esc c)] (some (ascii "timestamp")), .array acc],
      0x22 :: (ts ++ [0x22]), none, false⟩ (ascii "\n  \x7d") =
    ⟨⟨.endValue, false, [.arrayValue]⟩, [.array (entrySyn c esc ts :: acc)], [], none, false⟩ := by
  rw [ascii_tail]
  simp [Decoder.run, Decoder.next, Scanner.next, Scanner.stateBeginValue,
      Scanner.stateBeginString, Scanner.stateEndValue, Scanner.pushParseState, isSpace,
      Decoder.flush, Decoder.emit, maxNestingDepth, Scanner.popParseState,
      literalValue_string' ts ts h, entrySyn]

end json

namespace json

theorem unquoteLoop_plains (bs : GoString)
    (h : ∀ c ∈ bs, 0x20 ≤ c ∧ c < 0x80 ∧ c ≠ 0x22 ∧ c ≠ 0x5C) :
    ∀ f, bs.length ≤ f → unquoteLoop f bs = some bs := by
  induction bs with
  | nil => intro f _; simp [unquoteLoop]
  | cons c t ih =>
    intro f hf
    simp only [List.length_cons] at hf
    obtain ⟨f0, rfl⟩ : ∃ f0, f = f0 + 1 := ⟨f - 1, by omega⟩
    have hc := h c (by simp)
    rw [unquoteLoop_plain f0 c t hc.1 hc.2.1 hc.2.2.1 hc.2.2.2,
      ih (fun x hx => h x (by simp [hx])) f0 (by omega)]
    rfl

end json

namespace time

theorem formatRFC3339Nano_plain (t : Time) :
    ∀ c ∈ formatRFC3339Nano t, 0x20 ≤ c ∧ c < 0x80 ∧ c ≠ 0x22 ∧ c ≠ 0x5C := by
  have hd : ∀ c, isDigit c = true → 0x20 ≤ c ∧ c < 0x80 ∧ c ≠ 0x22 ∧ c ≠ 0x5C := by
    intro c hc
    simp only [isDigit, Bool.and_eq_true, decide_eq_true_eq] at hc
    omega
  have hdig : ∀ n, 0x20 ≤ digit n ∧ digit n < 0x80 ∧ digit n ≠ 0x22 ∧ digit n ≠ 0x5C :=
    fun n => hd _ (isDigit_digit n)
  have hnano : ∀ c ∈ appendNano t.nsec, 0x20 ≤ c ∧ c < 0x80 ∧ c ≠ 0x22 ∧ c ≠ 0x5C := by
    intro c hc
    unfold appendNano at hc
    split_ifs at hc with h0
    · simp at hc
    · simp only [List.mem_cons, List.mem_reverse] at hc
      rcases hc with rfl | hc
      · decide
      · exact hd c (dropZeros_all _ (fun x hx => pad9_digits _ x (List.mem_reverse.mp hx)) c hc)
  have hzone : ∀ c ∈ appendZone t.offset, 0x20 ≤ c ∧ c < 0x80 ∧ c ≠ 0x22 ∧ c ≠ 0x5C := by
    intro c hc
    unfold appendZone at hc
    split_ifs at hc with h0
    · simp at hc; subst hc; decide
    · simp [pad2] at hc
      rcases hc with h | h | h | h | h | h <;> subst h <;>
        first | decide | exact hdig _ | (split_ifs <;> decide)
  intro c hc
  simp only [formatRFC3339Nano, pad4, pad2, List.mem_append, List.mem_cons, List.mem_singleton,
    List.not_mem_nil, or_false, or_assoc] at hc
  rcases hc with h | h | h | h | h | h | h | h | h | h | h | h | h | h | h | h | h | h | h | h | h
  all_goals first | exact hnano c h | exact hzone c h | (subst h; first | decide | exact hdig _)

end time

namespace json
open history

theorem MarshalJSON_ok {t : time.Time} {ts : GoString} (h : t.MarshalJSON = .ok ts) :
    ts = 0x22 :: time.formatRFC3339Nano t ++ [0x22] ∧ (0 ≤ t.year ∧ t.year ≤ 9999) ∧
      (t.offset = 0 ∨ t.offset.natAbs / 60 / 60 < 24) := by
  unfold time.Time.MarshalJSON at h
  split_ifs at h with h1 h2
  injection h with h
  refine ⟨h.symm, by omega, ?_⟩
  by_cases h0 : t.offset = 0
  · exact Or.inl h0
  · right
    by_contra hc
    exact h2 ⟨h0, by omega⟩

theorem run_entry (st : Step) (hst : st = .beginValue ∨ st = .beginValueOrEmpty)
    (acc : List Syn) (e : Entry) (x : GoString) (hx : marshalEntry e = .ok x)
    (hv : utf8.Valid e.Content = true) :
    Decoder.run ⟨⟨st, false, [.arrayValue]⟩, [.array acc], [], none, false⟩ x =
      ⟨⟨.endValue, false, [.arrayValue]⟩, [.array (synOf e :: acc)], [], none, false⟩ := by
  unfold marshalEntry at hx
  cases hts : e.Timestamp.MarshalJSON with
  | error msg => rw [hts] at hx; cases hx
  | ok ts =>
    rw [hts] at hx
    injection hx with hx
    obtain ⟨hts1, -, -⟩ := MarshalJSON_ok hts
    subst hx
    rw [hts1]
    have hplain := time.formatRFC3339Nano_plain e.Timestamp
    have hu1 := unquote_escapeLoop e.Content hv
    have hu2 : unquote (time.formatRFC3339Nano e.Timestamp) =
        some (time.formatRFC3339Nano e.Timestamp) :=
      unquoteLoop_plains _ hplain _ (Nat.le_refl _)
    have htxt : ascii "\x7b\n    \"content\": " ++ appendString e.Content ++
        ascii ",\n    \"timestamp\": " ++ (0x22 :: time.formatRFC3339Nano e.Timestamp ++ [0x22]) ++
        ascii "\n  \x7d" =
        ascii "\x7b\n    \"content\": " ++ ((0x22 :: escapeLoop e.Content.length e.Content ++ [0x22]) ++
          (ascii ",\n    \"timestamp\": " ++
            ((0x22 :: time.formatRFC3339Nano e.Timestamp ++ [0x22]) ++ ascii "\n  \x7d"))) := by
      simp only [appendString, List.append_assoc]
    rw [htxt, run_append, run_append, run_append, run_append, run_entry_head st hst acc]
    have h1 := run_literal ⟨⟨.beginValue, false, [.objectValue, .arrayValue]⟩,
      [.object [] (some (ascii "content")), .array acc], [], none, false⟩
      (escapeLoop e.Content.length e.Content) (StrChunk.escapeLoop _ _) rfl rfl
    simp only [List.cons_append] at h1 ⊢
    rw [h1, run_entry_mid acc _ _ hu1]
    have h2 := run_literal ⟨⟨.beginValue, false, [.objectValue, .arrayValue]⟩,
      [.object [(ascii "content", .str (escapeLoop e.Content.length e.Content) e.Content)]
        (some (ascii "timestamp")), .array acc], [], none, false⟩
      (time.formatRFC3339Nano e.Timestamp)
      (StrChunk.plains (fun c hc => ⟨(hplain c hc).1, (hplain c hc).2.2.1, (hplain c hc).2.2.2⟩))
      rfl rfl
    simp only [List.cons_append] at h2
    rw [h2]
    exact run_entry_tail acc _ _ _ hu2

end json

namespace json
open history

theorem ascii_sep : ascii ",\n  " = [0x2C, 0x0A, 0x20, 0x20] := by decide
theorem ascii_open : ascii "[\n  " = [0x5B, 0x0A, 0x20, 0x20] := by decide
theorem ascii_close : ascii "\n]" = [0x0A, 0x5D] := by decide

theorem run_sep (acc : List Syn) :
    Decoder.run ⟨⟨.endValue, false, [.arrayValue]⟩, [.array acc], [], none, false⟩
      (ascii ",\n  ") =
    ⟨⟨.beginValue, false, [.arrayValue]⟩, [.array acc], [], none, false⟩ := by
  rw [ascii_sep]
  simp [Decoder.run, Decoder.next, Scanner.next, Scanner.stateBeginValue,
      Scanner.stateEndValue, isSpace, Decoder.flush]

theorem run_open :
    Decoder.run Decoder.init (ascii "[\n  ") =
    ⟨⟨.beginValueOrEmpty, false, [.arrayValue]⟩, [.array []], [], none, false⟩ := by
  rw [ascii_open]
  simp [Decoder.init, Scanner.reset, Decoder.run, Decoder.next, Scanner.next,
    Scanner.stateBeginValue, Scanner.pushParseState, maxNestingDepth, isSpace, Decoder.flush]

theorem run_close (acc : List Syn) :
    Decoder.run ⟨⟨.endValue, false, [.arrayValue]⟩, [.array acc], [], none, false⟩
      (ascii "\n]") =
    ⟨⟨.endTop, true, []⟩, [], [], some (.arr acc.reverse), false⟩ := by
  rw [ascii_close]
  simp [Decoder.run, Decoder.next, Scanner.next, Scanner.stateEndValue, Scanner.popParseState,
    isSpace, Decoder.flush, Decoder.emit]

theorem run_items (es : List Entry) : ∀ (items : List GoString) (st : Step) (acc : List Syn),
    marshalEntries es = .ok items → (∀ e ∈ es, utf8.Valid e.Content = true) → es ≠ [] →
    st = .beginValue ∨ st = .beginValueOrEmpty →
    Decoder.run ⟨⟨st, false, [.arrayValue]⟩, [.array acc], [], none, false⟩ (joinItems items) =
      ⟨⟨.endValue, false, [.arrayValue]⟩, [.array ((es.map synOf).reverse ++ acc)], [], none,
        false⟩ := by
  induction es with
  | nil => intro _ _ _ _ _ h; exact absurd rfl h
  | cons e rest ih =>
    intro items st acc hm hv _ hst
    unfold marshalEntries at hm
    cases hx : marshalEntry e with
    | error err => rw [hx] at hm; cases hm
    | ok x =>
      rw [hx] at hm
      cases hr : marshalEntries rest with
      | error err => rw [hr] at hm; cases hm
      | ok xs =>
        rw [hr] at hm
        injection hm with hm
        subst hm
        have he := run_entry st hst acc e x hx (hv e (by simp))
        cases rest with
        | nil =>
          unfold marshalEntries at hr
          injection hr with hr
          subst hr
          simp only [joinItems, List.map_cons, List.map_nil, List.reverse_cons, List.reverse_nil,
            List.nil_append, List.singleton_append]
          exact he
        | cons e2 rest2 =>
          cases xs with
          | nil =>
            unfold marshalEntries at hr
            cases h1 : marshalEntry e2 with
            | error err => rw [h1] at hr; cases hr
            | ok y =>
              rw [h1] at hr
              cases h2 : marshalEntries rest2 with
              | error err => rw [h2] at hr; cases hr
              | ok ys => rw [h2] at hr; cases hr
          | cons y ys =>
            have := ih (y :: ys) .beginValue (synOf e :: acc) hr
              (fun e' he' => hv e' (by simp [he'])) (by simp) (Or.inl rfl)
            simp only [joinItems]
            rw [run_append, run_append, he, run_sep, this]
            simp

theorem scan_next (d : Decoder) (c : Nat) : (d.next c).scan = (d.scan.next c).1 := by
  unfold Decoder.next
  dsimp only
  split <;> try rfl
  · (split <;> simp [Decoder.emit])
    split <;> try rfl
  · (split <;> simp [Decoder.emit])
    split <;> try rfl

theorem scan_run (data : GoString) : ∀ d : Decoder, (d.run data).scan = d.scan.run data := by
  induction data with
  | nil => intro d; rfl
  | cons c t ih =>
    intro d
    show ((d.next c).run t).scan = ((d.scan.next c).1).run t
    rw [ih, scan_next]

end json

namespace json
open history

theorem decodeMembers_synOf (lp : GoString → Option time.Time) (e : Entry)
    (hp : (time.parseRFC3339 (time.formatRFC3339Nano e.Timestamp)).isSome = true) :
    ∃ t, decodeMembers lp [(ascii "content", .str (escapeLoop e.Content.length e.Content)
        e.Content), (ascii "timestamp", .str (time.formatRFC3339Nano e.Timestamp)
        (time.formatRFC3339Nano e.Timestamp))] Entry.zero none = .ok (⟨e.Content, t⟩, none) := by
  cases hpt : time.parseRFC3339 (time.formatRFC3339Nano e.Timestamp) with
  | none => rw [hpt] at hp; cases hp
  | some t =>
    refine ⟨t, ?_⟩
    have k1 : keyMatches (ascii "content") (ascii "content") = true := by decide
    have k2 : keyMatches (ascii "content") (ascii "timestamp") = false := by decide
    have k3 : keyMatches (ascii "timestamp") (ascii "timestamp") = true := by decide
    simp [decodeMembers, k1, k2, k3, unmarshalTime, hpt]

theorem decodeItems_synOf (lp : GoString → Option time.Time) (es : List Entry)
    (hp : ∀ e ∈ es, (time.parseRFC3339 (time.formatRFC3339Nano e.Timestamp)).isSome = true) :
    ∃ es', decodeItems lp (es.map synOf) none = .ok (es', none) ∧
      es'.map Entry.Content = es.map Entry.Content := by
  induction es with
  | nil => exact ⟨[], rfl, rfl⟩
  | cons e rest ih =>
    obtain ⟨es', h1, h2⟩ := ih (fun x hx => hp x (by simp [hx]))
    obtain ⟨t, ht⟩ := decodeMembers_synOf lp e (hp e (by simp))
    refine ⟨⟨e.Content, t⟩ :: es', ?_, by simp [h2]⟩
    simp only [List.map_cons, synOf, entrySyn, decodeItems, ht, h1]

end json

namespace json
open history

theorem marshalEntries_ok (es : List Entry) : ∀ items, marshalEntries es = .ok items →
    items.length = es.length ∧ ∀ e ∈ es, ∃ ts, e.Timestamp.MarshalJSON = .ok ts := by
  induction es with
  | nil =>
    intro items h
    unfold marshalEntries at h
    injection h with h
    subst h
    simp
  | cons e rest ih =>
    intro items h
    unfold marshalEntries at h
    cases hx : marshalEntry e with
    | error err => rw [hx] at h; cases h
    | ok x =>
      rw [hx] at h
      cases hr : marshalEntries rest with
      | error err => rw [hr] at h; cases h
      | ok xs =>
        rw [hr] at h
        injection h with h
        subst h
        obtain ⟨h1, h2⟩ := ih xs hr
        refine ⟨by simp [h1], ?_⟩
        intro e' he'
        simp only [List.mem_cons] at he'
        rcases he' with rfl | he'
        · unfold marshalEntry at hx
          cases hts : e'.Timestamp.MarshalJSON with
          | error msg => rw [hts] at hx; cases hx
          | ok ts => exact ⟨ts, rfl⟩
        · exact h2 e' he'

/-- What `save` writes, `load` reads back: decoding the text written for entries whose contents
are valid UTF-8 succeeds and gives entries with the same contents in the same order. -/
theorem unmarshal_marshalIndent (lp : GoString → Option time.Time) (es : List Entry)
    (data : GoString) (hm : marshalIndent es = .ok data)
    (hv : ∀ e ∈ es, utf8.Valid e.Content = true) :
    ∃ es', unmarshalEntries lp data = .ok es' ∧ es'.map Entry.Content = es.map Entry.Content := by
  unfold marshalIndent at hm
  cases hme : marshalEntries es with
  | error err => rw [hme] at hm; cases hm
  | ok items =>
    rw [hme] at hm
    obtain ⟨hlen, hts⟩ := marshalEntries_ok es items hme
    have hparse : ∀ e ∈ es,
        (time.parseRFC3339 (time.formatRFC3339Nano e.Timestamp)).isSome = true := by
      intro e he
      obtain ⟨ts, h⟩ := hts e he
      obtain ⟨-, hy, hz⟩ := MarshalJSON_ok h
      exact time.parseRFC3339_format e.Timestamp hy hz
    cases items with
    | nil =>
      have hes : es = [] := by
        cases es with
        | nil => rfl
        | cons _ _ => simp at hlen
      subst hes
      simp only at hm
      injection hm with hm
      subst hm
      exact ⟨[], rfl, rfl⟩
    | cons x xs =>
      have hes : es ≠ [] := by
        intro h; subst h; simp at hlen
      simp only at hm
      injection hm with hm
      subst hm
      have hrun : Decoder.run Decoder.init (ascii "[\n  " ++ joinItems (x :: xs) ++ ascii "\n]") =
          ⟨⟨.endTop, true, []⟩, [], [], some (.arr (es.map synOf)), false⟩ := by
        rw [run_append, run_append, run_open,
          run_items es (x :: xs) .beginValueOrEmpty [] hme hv hes (Or.inr rfl), run_close]
        simp
      have hvalid : Valid (ascii "[\n  " ++ joinItems (x :: xs) ++ ascii "\n]") = true := by
        unfold Valid
        have := scan_run (ascii "[\n  " ++ joinItems (x :: xs) ++ ascii "\n]") Decoder.init
        rw [hrun] at this
        have h0 : Decoder.init.scan = Scanner.reset := rfl
        rw [h0] at this
        rw [← this]
        rfl
      have hdec : decode (ascii "[\n  " ++ joinItems (x :: xs) ++ ascii "\n]") =
          some (.arr (es.map synOf)) := by
        unfold decode
        rw [hrun]
        rfl
      obtain ⟨es', h1, h2⟩ := decodeItems_synOf lp es hparse
      refine ⟨es', ?_, h2⟩
      unfold unmarshalEntries
      rw [hvalid, hdec]
      simp only [if_true, h1]

end json

namespace history

/-! ## Add, List and Get -/

theorem take_cons_take {α : Type} (n : Nat) (x : α) (l : List α) :
    (x :: l.take n).take n = (x :: l).take n := by
  cases n with
  | zero => rfl
  | succ k =>
    simp only [List.take_succ_cons, List.take_take]
    congr 1
    rw [Nat.min_eq_left (Nat.le_succ k)]

theorem take_append_take {α : Type} (n : Nat) (l m : List α) :
    (l ++ m.take n).take n = (l ++ m).take n := by
  rw [List.take_append_eq_append_take, List.take_append_eq_append_take, List.take_take]
  congr 2
  omega

theorem Add_entries_of_insert (h : History) (c : GoString) (now : time.Time) (w : WriteOutcome)
    (fs : Files) (hc : c ≠ []) (hd : ∀ e ∈ h.entries.head?, e.Content ≠ c) :
    (h.Add c now w fs).1.entries = (⟨c, now⟩ :: h.entries).take maxHistorySize := by
  have hne : ¬ (0 < h.entries.length ∧ (h.entries.map Entry.Content).head? = some c) := by
    rintro ⟨-, h2⟩
    cases hes : h.entries with
    | nil => simp [hes] at h2
    | cons e es =>
      rw [hes] at h2 hd
      simp at h2
      exact hd e (by simp) h2
  unfold History.Add
  rw [if_neg hc, if_neg hne]
  simp only
  split
  · rfl
  · rename_i hlen
    rw [List.take_of_length_le (Nat.le_of_not_lt hlen)]

/-- C1: when `c` is non-empty and differs from the content of the head entry (or the store is
empty), `Add(c)` sets the in-memory list to the first 100 elements of `new :: es`, where `new`
holds `c` and the current time: the new entry is at index 0, the old entries follow in their
order, and exactly the entries of `new :: es` beyond position 100 are dropped. -/
theorem C1_Add_prepends_and_truncates (h : History) (c : GoString) (now : time.Time)
    (w : WriteOutcome) (fs : Files) (hc : c ≠ [])
    (hd : ∀ e ∈ h.entries.head?, e.Content ≠ c) :
    (h.Add c now w fs).1.List = (⟨c, now⟩ :: h.entries).take 100 ∧
    (h.Add c now w fs).1.List.head? = some ⟨c, now⟩ ∧
    (h.Add c now w fs).1.List.tail = h.entries.take 99 ∧
    (h.Add c now w fs).1.List ++ (⟨c, now⟩ :: h.entries).drop 100 = ⟨c, now⟩ :: h.entries := by
  have key := Add_entries_of_insert h c now w fs hc hd
  unfold History.List
  rw [key]
  refine ⟨rfl, rfl, rfl, ?_⟩
  exact List.take_append_drop _ _

/-- C1 at a store of one entry `a`, adding `b`. -/
theorem C1_Add_prepends_and_truncates_witness :
    (ascii "b" ≠ [] ∧
      ∀ e ∈ (⟨[⟨ascii "a", time.Time.zero⟩], ascii "p"⟩ : History).entries.head?,
        e.Content ≠ ascii "b") ∧
    ((⟨[⟨ascii "a", time.Time.zero⟩], ascii "p"⟩ : History).Add (ascii "b") time.Time.zero
        .done (fun _ => none)).1.List.map Entry.Content = [ascii "b", ascii "a"] := by
  have hc : ascii "b" ≠ [] := by decide
  have hd : ∀ e ∈ (⟨[⟨ascii "a", time.Time.zero⟩], ascii "p"⟩ : History).entries.head?,
      e.Content ≠ ascii "b" := by
    intro e he
    simp at he
    subst he
    decide
  refine ⟨⟨hc, hd⟩, ?_⟩
  rw [(C1_Add_prepends_and_truncates _ _ time.Time.zero .done (fun _ => none) hc hd).1]
  rfl

/-- C2: `Add(c)` is a no-op when `c` is empty or equals the content of the current head
entry: no error, the same store (entries, timestamps, order and path) and the same files. -/
theorem C2_Add_noop (h : History) (c : GoString) (now : time.Time) (w : WriteOutcome)
    (fs : Files) (hc : c = [] ∨ ∃ e ∈ h.entries.head?, e.Content = c) :
    h.Add c now w fs = (h, fs, none) := by
  unfold History.Add
  rcases hc with hc | ⟨e, he, hec⟩
  · rw [if_pos hc]
  · by_cases h0 : c = []
    · rw [if_pos h0]
    · rw [if_neg h0]
      cases hes : h.entries with
      | nil => simp [hes] at he
      | cons e0 es =>
        rw [hes] at he
        simp at he
        subst he
        rw [if_pos]
        simp [hec]

/-- C2 at the empty content and at a repeated head content. -/
theorem C2_Add_noop_witness :
    ((ascii "" = [] ∨ ∃ e ∈ (⟨[], ascii "p"⟩ : History).entries.head?, e.Content = ascii "") ∧
      (⟨[], ascii "p"⟩ : History).Add (ascii "") time.Time.zero .done (fun _ => none) =
        (⟨[], ascii "p"⟩, fun _ => none, none)) ∧
    ((ascii "a" = [] ∨ ∃ e ∈ (⟨[⟨ascii "a", time.Time.zero⟩], ascii "p"⟩ : History).entries.head?,
        e.Content = ascii "a") ∧
      (⟨[⟨ascii "a", time.Time.zero⟩], ascii "p"⟩ : History).Add (ascii "a") time.Time.zero
          .done (fun _ => none) =
        (⟨[⟨ascii "a", time.Time.zero⟩], ascii "p"⟩, fun _ => none, none)) :=
  ⟨⟨Or.inl rfl, C2_Add_noop _ _ _ _ _ (Or.inl rfl)⟩,
   ⟨Or.inr ⟨_, rfl, rfl⟩, C2_Add_noop _ _ _ _ _ (Or.inr ⟨_, rfl, rfl⟩)⟩⟩

theorem contents_Add_of_insert (h : History) (c : GoString) (now : time.Time) (w : WriteOutcome)
    (fs : Files) (hc : c ≠ []) (hd : (contents h).head? ≠ some c) :
    contents (h.Add c now w fs).1 = (c :: contents h).take 100 := by
  have hd2 : ∀ e ∈ h.entries.head?, e.Content ≠ c := by
    intro e he hec
    apply hd
    cases hes : h.entries with
    | nil => simp [hes] at he
    | cons e0 es =>
      rw [hes] at he
      simp at he
      subst he
      simp [contents, History.List, hes, hec]
  unfold contents History.List
  rw [Add_entries_of_insert h c now w fs hc hd2]
  simp [maxHistorySize, List.map_take]

theorem contents_addAll (ops : List (GoString × time.Time × WriteOutcome)) :
    ∀ (h : History) (fs : Files), (∀ x ∈ ops.map (·.1), x ≠ []) →
      List.Chain (· ≠ ·) ((contents h).head?) ((ops.map (·.1)).map some) →
      contents (addAll h fs ops).1 = ((ops.map (·.1)).reverse ++ contents h).take 100 ∨
        (ops = [] ∧ contents (addAll h fs ops).1 = contents h) := by
  induction ops with
  | nil => intro h fs _ _; right; exact ⟨rfl, rfl⟩
  | cons op rest ih =>
    intro h fs hne hch
    obtain ⟨c, now, w⟩ := op
    left
    simp only [List.map_cons, List.chain_cons] at hch
    have hc : c ≠ [] := hne c (by simp)
    have hstep := contents_Add_of_insert h c now w fs hc hch.1
    have hhead : (contents (h.Add c now w fs).1).head? = some c := by
      rw [hstep]; rfl
    have hrest := ih (h.Add c now w fs).1 (h.Add c now w fs).2.1
      (fun x hx => hne x (by simp at hx ⊢; right; exact hx))
      (by rw [hhead]; exact hch.2)
    simp only [addAll]
    rcases hrest with hr | ⟨hnil, hr⟩
    · rw [hr, hstep]
      simp only [List.map_cons, List.reverse_cons, List.append_assoc, List.singleton_append]
      exact take_append_take 100 _ _
    · subst hnil
      rw [hr, hstep]
      simp

/-- C4: adding the pairwise distinct, non-empty strings `xs` in order to a fresh (empty) store
leaves exactly the first 100 elements of `reverse xs` as the contents of `List()`, whatever the
clock readings and whether or not the saves succeed: the length is `min |xs| 100`, the string
added last is at index 0, and when `|xs| = 101` the string added first is the one missing. -/
theorem C4_add_distinct_fresh (path : GoString) (fs : Files)
    (ops : List (GoString × time.Time × WriteOutcome))
    (hne : ∀ x ∈ ops.map (·.1), x ≠ []) (hnd : (ops.map (·.1)).Nodup) :
    contents (addAll ⟨[], path⟩ fs ops).1 = ((ops.map (·.1)).reverse).take 100 ∧
    (contents (addAll ⟨[], path⟩ fs ops).1).length = min (ops.map (·.1)).length 100 ∧
    (contents (addAll ⟨[], path⟩ fs ops).1).head? = (ops.map (·.1)).getLast? ∧
    ((ops.map (·.1)).length = 101 →
      ∀ x ∈ (ops.map (·.1)).head?, x ∉ contents (addAll ⟨[], path⟩ fs ops).1 ∧
        contents (addAll ⟨[], path⟩ fs ops).1 = ((ops.map (·.1)).tail).reverse) := by
  have hchain : List.Chain (· ≠ ·) ((contents ⟨[], path⟩).head?) ((ops.map (·.1)).map some) := by
    have h1 : List.Chain' (· ≠ ·) ((ops.map (·.1)).map some) := by
      apply List.Pairwise.chain'
      rw [List.pairwise_map]
      exact hnd.imp (fun hab h => hab (Option.some.inj h))
    cases hops : (ops.map (·.1)).map some with
    | nil => exact List.Chain.nil
    | cons a l =>
      rw [hops] at h1
      refine List.Chain.cons ?_ h1
      simp [contents, History.List]
      cases hm : List.map (fun x => x.1) ops with
      | nil => simp [hm] at hops
      | cons b bs => simp [hm] at hops; intro hb; rw [← hops.1] at hb; cases hb
  have key : contents (addAll ⟨[], path⟩ fs ops).1 = ((ops.map (·.1)).reverse).take 100 := by
    rcases contents_addAll ops ⟨[], path⟩ fs hne hchain with hr | ⟨hnil, hr⟩
    · rw [hr]; simp [contents, History.List]
    · subst hnil; rw [hr]; simp [contents, History.List]
  refine ⟨key, ?_, ?_, ?_⟩
  · rw [key, List.length_take, List.length_reverse]; omega
  · rw [key]
    cases hr : (ops.map (·.1)).reverse with
    | nil => simp at hr; simp [hr]
    | cons a l =>
      have : ops.map (·.1) = l.reverse ++ [a] := by
        rw [← List.reverse_reverse (ops.map (·.1)), hr]; simp
      rw [this]; simp
  · intro hlen x hx
    cases hxs : ops.map (·.1) with
    | nil => rw [hxs] at hlen; simp at hlen
    | cons a t =>
      rw [hxs] at hlen hx hnd key
      simp at hx hlen
      subst hx
      have hk : contents (addAll ⟨[], path⟩ fs ops).1 = t.reverse := by
        rw [key, List.reverse_cons, List.take_append_of_le_length (by simp; omega),
          List.take_of_length_le (by simp; omega)]
      refine ⟨?_, by simpa using hk⟩
      rw [hk, List.mem_reverse]
      exact (List.nodup_cons.mp hnd).1

/-- C4 at the strings `test1`, `test2` of `TestAdd`. -/
theorem C4_add_distinct_fresh_witness :
    ((∀ x ∈ ([(ascii "test1", time.Time.zero, WriteOutcome.done),
        (ascii "test2", time.Time.zero, WriteOutcome.done)]).map (·.1), x ≠ []) ∧
      (([(ascii "test1", time.Time.zero, WriteOutcome.done),
        (ascii "test2", time.Time.zero, WriteOutcome.done)]).map (·.1)).Nodup) ∧
    contents (addAll ⟨[], ascii "p"⟩ (fun _ => none)
      [(ascii "test1", time.Time.zero, WriteOutcome.done),
        (ascii "test2", time.Time.zero, WriteOutcome.done)]).1 = [ascii "test2", ascii "test1"] := by
  have hne : ∀ x ∈ ([(ascii "test1", time.Time.zero, WriteOutcome.done),
      (ascii "test2", time.Time.zero, WriteOutcome.done)]).map (·.1), x ≠ [] := by decide
  have hnd : (([(ascii "test1", time.Time.zero, WriteOutcome.done),
      (ascii "test2", time.Time.zero, WriteOutcome.done)]).map (·.1)).Nodup := by decide
  refine ⟨⟨hne, hnd⟩, ?_⟩
  rw [(C4_add_distinct_fresh (ascii "p") (fun _ => none) _ hne hnd).1]
  rfl

/-- C5: `Get(index)` returns an error exactly when `index < 0` or `index >= len`, and then the
zero entry; otherwise it returns no error and the entry at that position of `List()`.  `Get`
only reads the store: its result is a function of the store, which it does not return
changed. -/
theorem C5_Get_range (h : History) (index : Int) :
    ((h.Get index).2 ≠ none ↔ (index < 0 ∨ (h.List.length : Int) ≤ index)) ∧
    (index < 0 ∨ (h.List.length : Int) ≤ index →
      h.Get index = (Entry.zero, some ⟨ascii "index out of range", none⟩)) ∧
    (0 ≤ index → index < (h.List.length : Int) →
      (h.Get index).2 = none ∧ h.List[index.toNat]? = some (h.Get index).1) := by
  unfold History.Get History.List
  by_cases hr : index < 0 ∨ (h.entries.length : Int) ≤ index
  · rw [dif_pos hr]
    refine ⟨⟨fun _ => hr, fun _ => by simp⟩, fun _ => rfl, fun h0 h1 => ?_⟩
    omega
  · rw [dif_neg hr]
    refine ⟨⟨fun hc => absurd rfl hc, fun hc => absurd hc hr⟩, fun hc => absurd hc hr,
      fun _ _ => ⟨rfl, ?_⟩⟩
    simp [List.getElem?_eq_getElem]

/-- C5 at a store of two entries: index 0 gives the head entry, and the indices 10 and -1 are
errors. -/
theorem C5_Get_range_witness :
    ((⟨[⟨ascii "test2", time.Time.zero⟩, ⟨ascii "test1", time.Time.zero⟩], ascii "p"⟩ :
        History).Get 0).2 = none ∧
    ((⟨[⟨ascii "test2", time.Time.zero⟩, ⟨ascii "test1", time.Time.zero⟩], ascii "p"⟩ :
        History).Get 0).1.Content = ascii "test2" ∧
    ((⟨[⟨ascii "test2", time.Time.zero⟩, ⟨ascii "test1", time.Time.zero⟩], ascii "p"⟩ :
        History).Get 10).2 ≠ none ∧
    ((⟨[⟨ascii "test2", time.Time.zero⟩, ⟨ascii "test1", time.Time.zero⟩], ascii "p"⟩ :
        History).Get (-1)).2 ≠ none :=
  ⟨((C5_Get_range _ 0).2.2 (by decide) (by decide)).1, rfl,
   (C5_Get_range _ 10).1.mpr (Or.inr (by decide)),
   (C5_Get_range _ (-1)).1.mpr (Or.inl (by decide))⟩

end history

/-! ## New, the length of the list, and reloading -/

namespace history

theorem New_of_file (home : GoString) (fs : Files) (lp : GoString → Option time.Time)
    (data : GoString) (es : List Entry) (hf : fs (historyPath home) = some data)
    (hu : json.unmarshalEntries lp data = .ok es) :
    New ⟨.ok home, none, none, fs, lp⟩ = (some ⟨es, historyPath home⟩, none) := by
  simp [New, History.load, hf, hu]

theorem marshalEntries_total (es : List Entry)
    (h : ∀ e ∈ es, ∃ ts, e.Timestamp.MarshalJSON = .ok ts) :
    ∃ items, marshalEntries es = .ok items := by
  induction es with
  | nil => exact ⟨[], rfl⟩
  | cons e rest ih =>
    obtain ⟨items, hi⟩ := ih (fun x hx => h x (by simp [hx]))
    obtain ⟨ts, hts⟩ := h e (by simp)
    rw [marshalEntries]
    simp only [marshalEntry, hts, hi]
    exact ⟨_, rfl⟩

theorem marshalIndent_total (es : List Entry)
    (h : ∀ e ∈ es, ∃ ts, e.Timestamp.MarshalJSON = .ok ts) :
    ∃ data, marshalIndent es = .ok data := by
  obtain ⟨items, hi⟩ := marshalEntries_total es h
  unfold marshalIndent
  rw [hi]
  cases items <;> exact ⟨_, rfl⟩

/-- C3, counterexample: a persisted array of 101 entries (the text `save` writes for 101 entries
with content `x`) is loaded by `New` as it stands, and the store has 101 entries. -/
theorem C3_counterexample :
    ∃ h, New ⟨.ok (ascii "/home/u"), none, none,
        fun _ => (marshalIndent (List.replicate 101 ⟨ascii "x", time.Time.zero⟩)).toOption,
        fun _ => none⟩ = (some h, none) ∧ 100 < h.List.length := by
  have hts : ∀ e ∈ List.replicate 101 (⟨ascii "x", time.Time.zero⟩ : Entry),
      ∃ ts, e.Timestamp.MarshalJSON = .ok ts := by
    intro e he
    rw [List.eq_of_mem_replicate he]
    exact ⟨_, rfl⟩
  obtain ⟨data, hd⟩ := marshalIndent_total _ hts
  have hv : ∀ e ∈ List.replicate 101 (⟨ascii "x", time.Time.zero⟩ : Entry),
      utf8.Valid e.Content = true := by
    intro e he
    rw [List.eq_of_mem_replicate he]
    decide
  obtain ⟨es', h1, h2⟩ := json.unmarshal_marshalIndent (fun _ => none) _ data hd hv
  refine ⟨⟨es', historyPath (ascii "/home/u")⟩, ?_, ?_⟩
  · rw [hd]
    exact New_of_file _ _ _ data es' rfl h1
  · have := congrArg List.length h2
    simp only [List.length_map, List.length_replicate] at this
    simp [History.List, this]

theorem Add_length_le (h : History) (c : GoString) (now : time.Time) (w : WriteOutcome)
    (fs : Files) :
    (h.Add c now w fs).1.entries.length ≤ max 100 h.entries.length := by
  unfold History.Add
  by_cases h1 : c = []
  · rw [if_pos h1]; simp
  · rw [if_neg h1]
    by_cases h2 : 0 < h.entries.length ∧ (h.entries.map Entry.Content).head? = some c
    · rw [if_pos h2]; simp
    · rw [if_neg h2]
      dsimp only
      by_cases h3 : maxHistorySize < (⟨c, now⟩ :: h.entries : List Entry).length
      · rw [if_pos h3]
        simp only [List.length_take, maxHistorySize]
        omega
      · rw [if_neg h3]
        simp only [maxHistorySize, List.length_cons, not_lt] at h3 ⊢
        omega

theorem call_length_le (h : History) (fs : Files) (c : Call) :
    (h.call fs c).1.entries.length ≤ max 100 h.entries.length := by
  cases c with
  | add content now w => exact Add_length_le h content now w fs
  | clear w => simp [History.call, History.Clear]

theorem runCalls_length_le (calls : List Call) : ∀ (h : History) (fs : Files),
    (runCalls h fs calls).1.entries.length ≤ max 100 h.entries.length := by
  induction calls with
  | nil => intro h fs; simp [runCalls]
  | cons c cs ih =>
    intro h fs
    have h1 := ih (h.call fs c).1 (h.call fs c).2
    have h2 := call_length_le h fs c
    simp only [runCalls]
    omega

theorem New_missing_file (env : Env) (h : History) (hnew : New env = (some h, none))
    (hf : env.files h.filePath = none) : h.entries = [] := by
  cases hh : env.homeDir with
  | error err => simp [New, hh] at hnew
  | ok home =>
    cases hm : env.mkdirAll with
    | some err => simp [New, hh, hm] at hnew
    | none =>
      cases hr : env.readFault with
      | some err => simp [New, History.load, hh, hm, hr] at hnew
      | none =>
        cases hfile : env.files (historyPath home) with
        | none =>
          simp [New, History.load, hh, hm, hr, hfile] at hnew
          rw [← hnew]
        | some data =>
          cases hu : json.unmarshalEntries env.layoutParse data with
          | error err => simp [New, History.load, hh, hm, hr, hfile, hu] at hnew
          | ok es =>
            simp [New, History.load, hh, hm, hr, hfile, hu] at hnew
            rw [← hnew] at hf
            simp only at hf
            rw [hfile] at hf
            cases hf

/-- C3, amended: a store obtained from `New` whose loaded list has at most 100 entries (as it
has when no file exists: the store is then empty) has at most 100 entries after every sequence
of `Add` and `Clear` calls; whatever was loaded, the length never exceeds the larger of 100 and
the loaded length. -/
theorem C3_length_invariant (env : Env) (h : History) (hnew : New env = (some h, none))
    (fs : Files) (calls : List Call) :
    (runCalls h fs calls).1.List.length ≤ max 100 h.List.length ∧
    (h.List.length ≤ 100 → (runCalls h fs calls).1.List.length ≤ 100) ∧
    (env.files h.filePath = none → h.List = [] ∧ (runCalls h fs calls).1.List.length ≤ 100) := by
  have h1 := runCalls_length_le calls h fs
  unfold History.List
  refine ⟨h1, fun h2 => by omega, fun h3 => ?_⟩
  have h4 := New_missing_file env h hnew h3
  refine ⟨h4, ?_⟩
  rw [h4] at h1
  simpa using h1

/-- C3 at a fresh store (no file), after adding `a`, `b`, clearing and adding `c`. -/
theorem C3_length_invariant_witness :
    New ⟨.ok (ascii "/home/u"), none, none, fun _ => none, fun _ => none⟩ =
      (some ⟨[], historyPath (ascii "/home/u")⟩, none) ∧
    (runCalls ⟨[], historyPath (ascii "/home/u")⟩ (fun _ => none)
      [.add (ascii "a") time.Time.zero .done, .add (ascii "b") time.Time.zero .done,
        .clear .done, .add (ascii "c") time.Time.zero .done]).1.List.length ≤ 100 :=
  ⟨rfl, ((C3_length_invariant ⟨.ok (ascii "/home/u"), none, none, fun _ => none, fun _ => none⟩
    ⟨[], historyPath (ascii "/home/u")⟩ rfl (fun _ => none) _).2.2 rfl).2⟩

end history

namespace history

theorem save_reload (h : History) (home : GoString) (hp : h.filePath = historyPath home)
    (lp : GoString → Option time.Time) (w : WriteOutcome) (fs : Files)
    (hok : (h.save w fs).2 = none) (hv : ∀ e ∈ h.entries, utf8.Valid e.Content = true) :
    ∃ h', New ⟨.ok home, none, none, (h.save w fs).1, lp⟩ = (some h', none) ∧
      contents h' = contents h := by
  unfold History.save at hok ⊢
  cases hm : marshalIndent h.entries with
  | error err => rw [hm] at hok; simp at hok
  | ok data =>
    rw [hm] at hok
    cases w with
    | failed err left => simp at hok
    | done =>
      simp only
      obtain ⟨es', h1, h2⟩ := json.unmarshal_marshalIndent lp h.entries data hm hv
      refine ⟨⟨es', historyPath home⟩, ?_, ?_⟩
      · apply New_of_file _ _ _ data es' _ h1
        simp [Files.set, hp]
      · simpa [contents, History.List] using h2

set_option maxRecDepth 100000 in
/-- C6, counterexample: on a fresh store, `Add` of the one-byte string 0xFF (not valid UTF-8)
returns no error and holds that string in memory, but the store `New` then reads from the
written file holds the three bytes of U+FFFD instead. -/
theorem C6_counterexample :
    ((⟨[], historyPath (ascii "/home/u")⟩ : History).Add [0xFF] time.Time.zero .done
        (fun _ => none)).2.2 = none ∧
    contents ((⟨[], historyPath (ascii "/home/u")⟩ : History).Add [0xFF] time.Time.zero .done
        (fun _ => none)).1 = [[0xFF]] ∧
    (New ⟨.ok (ascii "/home/u"), none, none,
        ((⟨[], historyPath (ascii "/home/u")⟩ : History).Add [0xFF] time.Time.zero .done
          (fun _ => none)).2.1, fun _ => none⟩).2 = none ∧
    (New ⟨.ok (ascii "/home/u"), none, none,
        ((⟨[], historyPath (ascii "/home/u")⟩ : History).Add [0xFF] time.Time.zero .done
          (fun _ => none)).2.1, fun _ => none⟩).1.map contents = some [[0xEF, 0xBF, 0xBD]] := by
  refine ⟨by decide, by decide, ?_, ?_⟩
  · decide
  · decide

end history

namespace history

/-- C6, amended: after an `Add` that inserts or a `Clear`, if the call returns no error and
every content of the mutated list is valid UTF-8, the store `New` then constructs from the
written file has the same contents in the same order as the mutated in-memory list; after
`Clear` both are empty. -/
theorem C6_reload_mirrors (h : History) (home : GoString) (hp : h.filePath = historyPath home)
    (lp : GoString → Option time.Time) (fs : Files) :
    (∀ c now w, c ≠ [] → (∀ e ∈ h.entries.head?, e.Content ≠ c) →
      (h.Add c now w fs).2.2 = none →
      (∀ e ∈ (h.Add c now w fs).1.List, utf8.Valid e.Content = true) →
      ∃ h', New ⟨.ok home, none, none, (h.Add c now w fs).2.1, lp⟩ = (some h', none) ∧
        contents h' = contents (h.Add c now w fs).1) ∧
    (∀ w, (h.Clear w fs).2.2 = none →
      (h.Clear w fs).1.List = [] ∧
      ∃ h', New ⟨.ok home, none, none, (h.Clear w fs).2.1, lp⟩ = (some h', none) ∧
        h'.List = []) := by
  constructor
  · intro c now w hc hd hok hv
    have hne : ¬ (0 < h.entries.length ∧ (h.entries.map Entry.Content).head? = some c) := by
      rintro ⟨-, h2⟩
      cases hes : h.entries with
      | nil => simp [hes] at h2
      | cons e es =>
        rw [hes] at h2 hd
        simp at h2
        exact hd e (by simp) h2
    unfold History.Add at hok hv ⊢
    rw [if_neg hc, if_neg hne] at hok hv ⊢
    dsimp only at hok hv ⊢
    refine save_reload _ home ?_ lp w fs hok hv
    exact hp
  · intro w hok
    refine ⟨rfl, ?_⟩
    unfold History.Clear at hok ⊢
    dsimp only at hok ⊢
    obtain ⟨h', h1, h2⟩ := save_reload ⟨[], h.filePath⟩ home hp lp w fs hok (by simp)
    refine ⟨h', h1, ?_⟩
    simpa [contents, History.List] using h2

set_option maxRecDepth 100000 in
/-- C6 at `TestPersistence`: a fresh store, `Add("test persistent")`, then `New`. -/
theorem C6_reload_mirrors_witness :
    ∃ h', New ⟨.ok (ascii "/home/u"), none, none,
        ((⟨[], historyPath (ascii "/home/u")⟩ : History).Add (ascii "test persistent")
          time.Time.zero .done (fun _ => none)).2.1, fun _ => none⟩ = (some h', none) ∧
      contents h' = [ascii "test persistent"] := by
  obtain ⟨h', h1, h2⟩ := (C6_reload_mirrors ⟨[], historyPath (ascii "/home/u")⟩ (ascii "/home/u")
    rfl (fun _ => none) (fun _ => none)).1 (ascii "test persistent") time.Time.zero .done
    (by decide) (by simp) (by decide) (by
      intro e he
      have hl : ((⟨[], historyPath (ascii "/home/u")⟩ : History).Add (ascii "test persistent")
          time.Time.zero .done (fun _ => none)).1.List =
          [⟨ascii "test persistent", time.Time.zero⟩] := by rfl
      rw [hl] at he
      simp only [List.mem_singleton] at he
      subst he
      decide)
  exact ⟨h', h1, h2⟩

end history

/-! ## The transform registry -/

section
open transform

theorem lookup_unregistered (u : Unicode) (name : GoString) (h : name ∉ transformNames) :
    (Transformers u).lookup name = none := by
  simp only [transformNames, List.mem_cons, List.mem_singleton, List.not_mem_nil, or_false,
    not_or] at h
  obtain ⟨h1, h2, h3, h4, h5, h6, h7, h8, h9, h10, h11⟩ := h
  have e : ∀ k : GoString, name ≠ k → (name == k) = false := fun k hk => beq_false_of_ne hk
  simp only [Transformers, List.lookup, e _ h1, e _ h2, e _ h3, e _ h4, e _ h5, e _ h6, e _ h7,
    e _ h8, e _ h9, e _ h10, e _ h11]

/-- C7: `Apply(name, text)` returns exactly the result of the function registered under `name`
for each of the eleven registered names, and for every other name it returns the empty string
and the error `unknown transformation: ` followed by that name, whatever the text is. -/
theorem C7_Apply_registry (u : Unicode) (text : GoString) :
    Apply u (ascii "json") text = FormatJSON text ∧
    Apply u (ascii "json-minify") text = MinifyJSON text ∧
    Apply u (ascii "trim") text = Trim u text ∧
    Apply u (ascii "upper") text = Upper u text ∧
    Apply u (ascii "lower") text = Lower u text ∧
    Apply u (ascii "title") text = Title u text ∧
    Apply u (ascii "base64") text = Base64Encode text ∧
    Apply u (ascii "base64d") text = Base64Decode text ∧
    Apply u (ascii "url") text = URLEncode text ∧
    Apply u (ascii "urld") text = URLDecode text ∧
    Apply u (ascii "reverse") text = Reverse text ∧
    (transform.List u).length = 11 ∧ (∀ name, name ∈ transform.List u ↔ name ∈ transformNames) ∧
    ∀ name, name ∉ transformNames →
      Apply u name text = ([], some ⟨ascii "unknown transformation: " ++ name, none⟩) := by
  refine ⟨rfl, rfl, rfl, rfl, rfl, rfl, rfl, rfl, rfl, rfl, rfl, rfl, fun name => Iff.rfl, ?_⟩
  intro name h
  unfold Apply
  rw [lookup_unregistered u name h]

/-- C7 at the unregistered name `unknown-name` of the spec's scenario. -/
theorem C7_Apply_registry_witness :
    transform.Apply ⟨id, id, id, id⟩ (ascii "unknown-name") (ascii "x") =
      ([], some ⟨ascii "unknown transformation: unknown-name", none⟩) :=
  (C7_Apply_registry ⟨id, id, id, id⟩ (ascii "x")).2.2.2.2.2.2.2.2.2.2.2.2.2 _ (by decide)

end

/-! ## The text of numbers -/

section
open strconv json

namespace strconv

theorem decDigits_chars (fuel : Nat) : ∀ (n : Nat) (acc : GoString),
    (∀ c ∈ acc, 0x30 ≤ c ∧ c ≤ 0x39) → ∀ c ∈ decDigits fuel n acc, 0x30 ≤ c ∧ c ≤ 0x39 := by
  induction fuel with
  | zero => intro n acc h; simpa [decDigits] using h
  | succ k ih =>
    intro n acc h
    unfold decDigits
    split_ifs with hn
    · intro c hc
      simp only [List.mem_cons] at hc
      rcases hc with rfl | hc
      · omega
      · exact h c hc
    · apply ih
      intro c hc
      simp only [List.mem_cons] at hc
      rcases hc with rfl | hc
      · omega
      · exact h c hc

theorem natDigits_chars (n : Nat) : ∀ c ∈ natDigits n, 0x30 ≤ c ∧ c ≤ 0x39 :=
  decDigits_chars _ _ _ (by simp)

theorem trimZeros_sub (l : GoString) : ∀ c ∈ trimZeros l, c ∈ l := by
  induction l with
  | nil => simp [trimZeros]
  | cons a t ih =>
    unfold trimZeros
    split_ifs with h
    · intro c hc; exact List.mem_cons_of_mem _ (ih c hc)
    · intro c hc; exact hc

theorem mkDecimal_chars (n : Nat) (k : Int) : ∀ c ∈ (mkDecimal n k).d, 0x30 ≤ c ∧ c ≤ 0x39 := by
  intro c hc
  simp only [mkDecimal, List.mem_reverse] at hc
  exact natDigits_chars n c (List.mem_reverse.mp (trimZeros_sub _ c hc))

theorem shortestLoop_chars (fuel : Nat) : ∀ (V L U den : Nat) (inc : Bool) (k : Int),
    ∀ c ∈ (shortestLoop fuel V L U den inc k).d, 0x30 ≤ c ∧ c ≤ 0x39 := by
  induction fuel with
  | zero => intro V L U den inc k; exact mkDecimal_chars _ _
  | succ f ih =>
    intro V L U den inc k
    unfold shortestLoop
    dsimp only
    split_ifs <;> first | exact mkDecimal_chars _ _ | exact ih _ _ _ _ _ _

theorem shortest_chars (m : Nat) (e : Int) : ∀ c ∈ (shortest m e).d, 0x30 ≤ c ∧ c ≤ 0x39 :=
  shortestLoop_chars _ _ _ _ _ _ _

theorem mem_ite {α : Type} {p : Prop} [Decidable p] {a b : List α} {c : α}
    (h : c ∈ (if p then a else b)) : c ∈ a ∨ c ∈ b := by
  split_ifs at h
  · exact Or.inl h
  · exact Or.inr h

theorem fmtF_chars (d : Decimal) (hd : ∀ c ∈ d.d, 0x30 ≤ c ∧ c ≤ 0x39) :
    ∀ c ∈ fmtF d, numChar c := by
  have hip : ∀ c ∈ (if 0 < d.dp then d.d.take d.dp.toNat ++ zeros (d.dp.toNat - d.d.length)
      else [0x30]), numChar c := by
    intro c hc
    rcases mem_ite hc with hc | hc
    · simp only [List.mem_append, zeros] at hc
      rcases hc with hc | hc
      · exact Or.inl (hd c (List.mem_of_mem_take hc))
      · rw [List.eq_of_mem_replicate hc]; exact Or.inl (by decide)
    · simp at hc; subst hc; exact Or.inl (by decide)
  intro c hc
  unfold fmtF at hc
  dsimp only at hc
  rcases mem_ite hc with hc | hc
  · exact hip c hc
  · simp only [List.mem_append, List.mem_cons, List.mem_map, List.mem_range] at hc
    rcases hc with hc | rfl | ⟨i, -, rfl⟩
    · exact hip c hc
    · exact Or.inr (Or.inl rfl)
    · unfold Decimal.digitAt
      split_ifs
      · rw [List.getD_eq_getElem?_getD]
        cases hg : d.d[(d.dp + ↑i).toNat]? with
        | none => exact Or.inl (by decide)
        | some x => exact Or.inl (hd x (List.getElem?_mem hg))
      · exact Or.inl (by decide)

theorem fmtE_chars (d : Decimal) (hd : ∀ c ∈ d.d, 0x30 ≤ c ∧ c ≤ 0x39) :
    ∀ c ∈ fmtE d, numChar c := by
  intro c hc
  unfold fmtE at hc
  dsimp only at hc
  rw [List.mem_append, List.mem_cons, List.mem_cons, List.mem_cons] at hc
  rcases hc with (rfl | hc) | rfl | rfl | hc
  · cases hdd : d.d with
    | nil => exact Or.inl (by decide)
    | cons a t => exact Or.inl (hd a (by simp [hdd]))
  · rcases mem_ite hc with hc | hc
    · simp only [List.mem_cons] at hc
      rcases hc with rfl | hc
      · exact Or.inr (Or.inl rfl)
      · exact Or.inl (hd c (List.mem_of_mem_drop hc))
    · simp at hc
  · exact Or.inr (Or.inr (Or.inl rfl))
  · split_ifs <;> first
      | exact Or.inr (Or.inr (Or.inr (Or.inr rfl)))
      | exact Or.inr (Or.inr (Or.inr (Or.inl rfl)))
  · rcases mem_ite hc with hc | hc
    · simp only [List.mem_cons] at hc
      rcases hc with rfl | hc
      · exact Or.inl (by decide)
      · exact Or.inl (natDigits_chars _ c hc)
    · exact Or.inl (natDigits_chars _ c hc)

end strconv

namespace json

theorem cleanExponent_sub (b : GoString) : ∀ c ∈ cleanExponent b, c ∈ b := by
  intro c hc
  unfold cleanExponent at hc
  split at hc
  · rename_i x sg rest heq
    split_ifs at hc
    · have : c ∈ b.reverse := by
        rw [heq]
        simp only [List.reverse_cons, List.mem_append, List.mem_reverse, List.mem_singleton,
          List.mem_cons] at hc ⊢
        tauto
      exact List.mem_reverse.mp this
    · exact hc
  · exact hc

theorem encodeFloat_chars (f : Float64) : ∀ c ∈ encodeFloat f, numChar c := by
  have hs : ∀ c ∈ (if f.neg = true then [0x2D] else ([] : GoString)), numChar c := by
    intro c hc
    rcases strconv.mem_ite hc with hc | hc
    · simp at hc; subst hc; exact Or.inr (Or.inr (Or.inr (Or.inr rfl)))
    · simp at hc
  intro c hc
  unfold encodeFloat at hc
  dsimp only at hc
  rcases strconv.mem_ite hc with hc | hc
  · rw [List.mem_append, List.mem_singleton] at hc
    rcases hc with hc | rfl
    · exact hs c hc
    · exact Or.inl (by decide)
  · rcases strconv.mem_ite hc with hc | hc
    · rw [List.mem_append] at hc
      rcases hc with hc | hc
      · exact hs c hc
      · exact strconv.fmtE_chars _ (strconv.shortest_chars _ _) c (cleanExponent_sub _ c hc)
    · rw [List.mem_append] at hc
      rcases hc with hc | hc
      · exact hs c hc
      · exact strconv.fmtF_chars _ (strconv.shortest_chars _ _) c hc

end json

end

/-! ## The scanner and `unquote` on the body of a string literal -/

section
open json utf8 strconv transform

namespace json

theorem strScanFrom_error (l : GoString) : strScanFrom .error l = .error := by
  induction l with
  | nil => rfl
  | cons c t ih => simpa [strScanFrom, strNext] using ih

theorem strScanFrom_endValue (l : GoString) : strScanFrom .endValue l ≠ .inString := by
  cases l with
  | nil => simp [strScanFrom]
  | cons c t =>
    have := strScanFrom_error t
    simp only [strScanFrom, List.foldl_cons, strNext] at this ⊢
    rw [this]; simp

theorem strScanFrom_cons (st : Step) (c : Nat) (l : GoString) :
    strScanFrom st (c :: l) = strScanFrom (strNext st c) l := rfl

theorem strScanFrom_append (st : Step) (a b : GoString) :
    strScanFrom st (a ++ b) = strScanFrom (strScanFrom st a) b := by
  simp [strScanFrom, List.foldl_append]

theorem strScanFrom_high (l : GoString) (h : ∀ x ∈ l, 0x80 ≤ x) :
    strScanFrom .inString l = .inString := by
  induction l with
  | nil => rfl
  | cons c t ih =>
    have hc := h c (by simp)
    have e1 : c ≠ 0x22 := by omega
    have e2 : c ≠ 0x5C := by omega
    have e3 : ¬ c < 0x20 := by omega
    rw [strScanFrom_cons]
    simp only [strNext, e1, e2, e3, if_false]
    exact ih (fun x hx => h x (by simp [hx]))

theorem strScanFrom_hex (st st' : Step)
    (hst : ∀ c, strNext st c = if isHex c = true then st' else .error) (hne : st ≠ .inString)
    (l : GoString) (h : strScanFrom st l = .inString) :
    ∃ c t, l = c :: t ∧ isHex c = true ∧ strScanFrom st' t = .inString := by
  cases l with
  | nil => exact absurd h hne
  | cons c t =>
    rw [strScanFrom_cons, hst] at h
    by_cases hc : isHex c = true
    · rw [if_pos hc] at h
      exact ⟨c, t, rfl, hc, h⟩
    · rw [if_neg hc, strScanFrom_error] at h
      cases h

/-- Four hexadecimal digits after the escape introducer: what the scanner requires and what
`getu4` reads. -/
theorem strScanFrom_escU (l : GoString) (h : strScanFrom .inStringEscU l = .inString) :
    ∃ a b c e t, l = a :: b :: c :: e :: t ∧ isHex a = true ∧ isHex b = true ∧ isHex c = true ∧
      isHex e = true ∧ strScanFrom .inString t = .inString := by
  obtain ⟨a, t1, rfl, ha, h1⟩ := strScanFrom_hex .inStringEscU .inStringEscU1 (fun _ => rfl) (by decide) l h
  obtain ⟨b, t2, rfl, hb, h2⟩ := strScanFrom_hex .inStringEscU1 .inStringEscU12 (fun _ => rfl) (by decide) t1 h1
  obtain ⟨c, t3, rfl, hc, h3⟩ := strScanFrom_hex .inStringEscU12 .inStringEscU123 (fun _ => rfl) (by decide) t2 h2
  obtain ⟨e, t4, rfl, he, h4⟩ := strScanFrom_hex .inStringEscU123 .inString (fun _ => rfl) (by decide) t3 h3
  exact ⟨a, b, c, e, t4, rfl, ha, hb, hc, he, h4⟩

theorem getu4_isSome (a b c e : Nat) (t : GoString) (ha : isHex a = true) (hb : isHex b = true)
    (hc : isHex c = true) (he : isHex e = true) :
    ∃ r, getu4 (0x5C :: 0x75 :: a :: b :: c :: e :: t) = some r := by
  have key : ∀ x, isHex x = true → ∃ n, (if 0x30 ≤ x ∧ x ≤ 0x39 then some (x - 0x30)
      else if 0x61 ≤ x ∧ x ≤ 0x66 then some (x - 0x61 + 10)
      else if 0x41 ≤ x ∧ x ≤ 0x46 then some (x - 0x41 + 10)
      else none) = some n := by
    intro x hx
    simp only [isHex, Bool.or_eq_true, Bool.and_eq_true, decide_eq_true_eq] at hx
    split_ifs with h1 h2 h3
    · exact ⟨_, rfl⟩
    · exact ⟨_, rfl⟩
    · exact ⟨_, rfl⟩
    · omega
  obtain ⟨na, hna⟩ := key a ha
  obtain ⟨nb, hnb⟩ := key b hb
  obtain ⟨nc, hnc⟩ := key c hc
  obtain ⟨ne, hne⟩ := key e he
  refine ⟨((na * 16 + nb) * 16 + nc) * 16 + ne, ?_⟩
  simp only [getu4, hna, hnb, hnc, hne]

theorem getu4_shape (l : GoString) (r : Nat) (h : getu4 l = some r) :
    ∃ a b c e t, l = 0x5C :: 0x75 :: a :: b :: c :: e :: t := by
  unfold getu4 at h
  split at h
  · exact ⟨_, _, _, _, _, rfl⟩
  · cases h

end json

end

section
open json utf8 strconv transform

namespace json

theorem unquoteEscape_ok (rest : GoString)
    (h : strScanFrom .inStringEsc rest = .inString) :
    ∃ out r, unquoteEscape (0x5C :: rest) = some (out, r) ∧ r.length < rest.length ∧
      strScanFrom .inString r = .inString := by
  cases rest with
  | nil => simp [strScanFrom] at h
  | cons x rest1 =>
    rw [strScanFrom_cons] at h
    by_cases hx : x = 0x62 ∨ x = 0x66 ∨ x = 0x6E ∨ x = 0x72 ∨ x = 0x74 ∨ x = 0x5C ∨ x = 0x2F ∨
        x = 0x22
    · simp only [strNext, hx, if_true] at h
      have hl : rest1.length < (x :: rest1).length := by simp
      rcases hx with rfl | rfl | rfl | rfl | rfl | rfl | rfl | rfl <;>
        exact ⟨_, rest1, rfl, hl, h⟩
    · by_cases hu : x = 0x75
      · subst hu
        simp only [strNext, hx, if_false, if_true] at h
        obtain ⟨a, b, c, e, t, rfl, ha, hb, hc, he, ht⟩ := strScanFrom_escU rest1 h
        obtain ⟨rr, hrr⟩ := getu4_isSome a b c e t ha hb hc he
        unfold unquoteEscape
        simp only [hrr]
        have d4 : (a :: b :: c :: e :: t).drop 4 = t := rfl
        simp only [d4]
        have e1 : ¬ ((0x75 : Nat) = 0x22 ∨ (0x75 : Nat) = 0x5C ∨ (0x75 : Nat) = 0x2F ∨
            (0x75 : Nat) = 0x27) := by decide
        simp only [e1, if_false, if_true, show ¬ ((0x75 : Nat) = 0x62) by decide,
          show ¬ ((0x75 : Nat) = 0x66) by decide, show ¬ ((0x75 : Nat) = 0x6E) by decide,
          show ¬ ((0x75 : Nat) = 0x72) by decide, show ¬ ((0x75 : Nat) = 0x74) by decide]
        by_cases hs : isSurrogate rr = true
        · simp only [hs, if_true]
          by_cases hd : utf16DecodeRune rr (getu4 t) ≠ 0xFFFD
          · rw [if_pos hd]
            refine ⟨_, _, rfl, ?_, ?_⟩
            · simp; omega
            · cases hg : getu4 t with
              | none => rw [hg] at hd; simp [utf16DecodeRune] at hd
              | some r2 =>
                obtain ⟨a2, b2, c2, e2, t2, rfl⟩ := getu4_shape t r2 hg
                have h6 : (0x5C :: 0x75 :: a2 :: b2 :: c2 :: e2 :: t2).drop 6 = t2 := rfl
                rw [h6]
                have h1 : strScanFrom .inStringEscU (a2 :: b2 :: c2 :: e2 :: t2) = .inString := by
                  simpa [strScanFrom, strNext] using ht
                obtain ⟨_, _, _, _, t3, heq, _, _, _, _, h3⟩ := strScanFrom_escU _ h1
                simp only [List.cons.injEq] at heq
                obtain ⟨_, _, _, _, rfl⟩ := heq
                exact h3
          · rw [if_neg hd]
            exact ⟨_, _, rfl, by simp; omega, ht⟩
        · simp only [hs]
          exact ⟨_, _, rfl, by simp; omega, ht⟩
      · have : strNext .inStringEsc x = .error := by simp [strNext, hx, hu]
        rw [this, strScanFrom_error] at h
        cases h

theorem unquoteLoop_isSome : ∀ (fuel : Nat) (body : GoString), body.length ≤ fuel →
    strScanFrom .inString body = .inString → (unquoteLoop fuel body).isSome = true := by
  intro fuel
  induction fuel with
  | zero =>
    intro body hl _
    cases body with
    | nil => simp [unquoteLoop]
    | cons c t => simp at hl
  | succ n ih =>
    intro body hl h
    cases body with
    | nil => simp [unquoteLoop]
    | cons c rest =>
      simp only [List.length_cons, Nat.add_le_add_iff_right] at hl
      rw [unquoteLoop]
      by_cases hb : c = 0x5C
      · subst hb
        have h1 : strScanFrom .inStringEsc rest = .inString := by
          simpa [strScanFrom, strNext] using h
        obtain ⟨out, r, he, hr, hs⟩ := unquoteEscape_ok rest h1
        simp only [if_true, he]
        have := ih r (by omega) hs
        simpa using this
      · rw [if_neg hb]
        by_cases hq : c = 0x22 ∨ c < 0x20
        · exfalso
          rw [strScanFrom_cons] at h
          rcases hq with rfl | hq
          · simp only [strNext, if_true] at h
            exact strScanFrom_endValue rest h
          · by_cases h22 : c = 0x22
            · subst h22; omega
            · simp only [strNext, h22, hb, hq, if_true, if_false] at h
              rw [strScanFrom_error] at h; cases h
        · rw [if_neg hq]
          have hq1 : c ≠ 0x22 := fun hh => hq (Or.inl hh)
          have hq2 : ¬ c < 0x20 := fun hh => hq (Or.inr hh)
          have hrest : strScanFrom .inString rest = .inString := by
            rw [strScanFrom_cons] at h
            simpa only [strNext, hq1, hb, hq2, if_false] using h
          by_cases ha : c < 0x80
          · rw [if_pos ha]
            have := ih rest hl hrest
            simpa using this
          · rw [if_neg ha]
            have key : ((c :: rest).drop (DecodeRune (c :: rest)).2).length ≤ n ∧
                strScanFrom .inString ((c :: rest).drop (DecodeRune (c :: rest)).2) =
                  .inString := by
              rcases DecodeRune_shape (c :: rest) (by simp) with he | hs
              · rw [he]; exact ⟨by simpa using hl, by simpa using hrest⟩
              · have hp := hs.size_pos
                have hh := hs.high (by simp; omega)
                have hsplit := List.take_append_drop (DecodeRune (c :: rest)).2 (c :: rest)
                constructor
                · simp only [List.length_drop, List.length_cons]; omega
                · have h' := h
                  rw [← hsplit, strScanFrom_append, strScanFrom_high _ hh] at h'
                  exact h'
            have := ih _ key.1 key.2
            simpa using this

theorem unquote_isSome (body : GoString) (h : strScanFrom .inString body = .inString) :
    (unquote body).isSome = true :=
  unquoteLoop_isSome body.length body (le_refl _) h

end json

end

/-! ## The decoder on valid JSON text -/

section
open json utf8 strconv transform

namespace json

theorem next_apply (d : Decoder) (c : Nat) : d.next c = d.apply (d.scan.next c) c := rfl

theorem Inv.init : Inv Decoder.init := by
  refine ⟨rfl, ?_, ?_⟩
  · simp [Decoder.init, Scanner.reset, LitOK]
  · simp [Decoder.init, Scanner.reset, CtxOK, isValStep]

theorem flush_nil (d : Decoder) (h : d.lit = []) : d.flush = d := by
  unfold Decoder.flush; rw [h]

/-- Handing a value to a container that waits for one. -/
theorem emit_waiting (d : Decoder) (v : Syn) (ps : List ParseState)
    (hb : d.bad = false) (h : List.Forall₂ Waiting ps d.stack) :
    (d.emit v).bad = false ∧ (d.emit v).lit = d.lit ∧ (d.emit v).scan = d.scan ∧
      CtxAfter ps (d.emit v).stack (d.emit v).top := by
  obtain ⟨scan, stack, lit, top, bad⟩ := d
  simp only at hb h
  cases h with
  | nil => simp [Decoder.emit, CtxAfter, hb]
  | @cons p f ps fs hpf hrest =>
    cases p <;> cases f <;> simp only [Waiting] at hpf
    · rename_i ms key
      cases key with
      | none => simp [Waiting] at hpf
      | some k => simp [Decoder.emit, CtxAfter, AfterOK, hb, hrest]
    · simp [Decoder.emit, CtxAfter, AfterOK, hb, hrest]

theorem strNext_endValue (st : Step) (x : Nat) (h : strNext st x = .endValue) :
    st = .inString ∧ x = 0x22 := by
  cases st <;> simp only [strNext] at h <;>
    first
    | cases h
    | (split_ifs at h <;> exact ⟨rfl, by assumption⟩)

theorem literalValue_done (lit : GoString) (h : LitDone lit) :
    ∃ v, literalValue lit = some v ∧
      (lit.head? = some 0x22 → ∃ b k, v = .str b k) := by
  cases lit with
  | nil => exact absurd h (by simp [LitDone])
  | cons c body =>
    simp only [LitDone] at h
    by_cases hc : c = 0x22
    · subst hc
      have hs := h rfl
      rcases List.eq_nil_or_concat body with rfl | ⟨b, x, rfl⟩
      · simp [strScanFrom] at hs
      · rw [List.concat_eq_append] at hs ⊢
        rw [strScanFrom_append] at hs
        have hx : strScanFrom .inString b = .inString ∧ x = 0x22 :=
          strNext_endValue _ x hs
        obtain ⟨hb, rfl⟩ := hx
        have hu := unquote_isSome b hb
        obtain ⟨k, hk⟩ := Option.isSome_iff_exists.mp hu
        exact ⟨.str b k, by simp [literalValue, hk], fun _ => ⟨b, k, rfl⟩⟩
    · simp only [literalValue, hc, if_false, List.head?_cons, Option.some.injEq]
      split_ifs
      · exact ⟨_, rfl, fun hh => hh.elim⟩
      · exact ⟨_, rfl, fun hh => hh.elim⟩
      · exact ⟨_, rfl, fun hh => hh.elim⟩
      · exact ⟨_, rfl, fun hh => hh.elim⟩

theorem LitOK.done {st : Step} {lit : GoString} (h : LitOK st lit) (hd : isDone st = true) :
    lit = [] ∧ st = .endValue ∨ LitDone lit := by
  cases st <;> simp only [isDone] at hd <;> try cases hd
  · rcases h with h | h
    · exact Or.inl ⟨h, rfl⟩
    · exact Or.inr h
  all_goals
    simp only [LitOK, isStr] at h
    right
    cases lit with
    | nil => simp at h
    | cons c body =>
      intro hc
      subst hc
      simp at h

/-- Closing the literal at a step where a value is complete: the value, if there was one still
to close, is handed to the innermost container, which then waits for a delimiter. -/
theorem flush_done (d : Decoder) (hI : Inv d) (hd : isDone d.scan.step = true) :
    d.flush.bad = false ∧ d.flush.lit = [] ∧ d.flush.scan = d.scan ∧ d.scan.endTop = false ∧
      CtxAfter d.scan.parseState d.flush.stack d.flush.top := by
  obtain ⟨⟨st, eT, ps⟩, stack, lit, top, bad⟩ := d
  obtain ⟨hb, hl, hc⟩ := hI
  simp only at hb hl hc hd ⊢
  subst hb
  have hst : st ≠ .endTop := by rintro rfl; simp [isDone] at hd
  rcases hl.done hd with ⟨rfl, rfl⟩ | hdone
  · rw [flush_nil _ rfl]
    refine ⟨rfl, rfl, rfl, ?_⟩
    match ps, stack, hc with
    | [], [], hc =>
      simp only [CtxOK] at hc
      split_ifs at hc with h
      · exact absurd hc.1 (by decide)
      · exact absurd rfl (hc.2 trivial)
    | p :: ps, f :: fs, hc =>
      simp only [CtxOK] at hc
      obtain ⟨he, hf, hw⟩ := hc
      refine ⟨he, ?_, hw⟩
      match p, f, hf with
      | .arrayValue, .array _, _ => trivial
      | .objectValue, .object _ none, _ => trivial
      | .objectValue, .object _ (some _), hf => simp [FrameOK] at hf
      | .objectKey, .object _ none, hf => simp [FrameOK] at hf
      | .objectKey, .object _ (some _), _ => trivial
      | .arrayValue, .object _ _, hf => exact hf.elim
      | .objectValue, .array _, hf => exact hf.elim
      | .objectKey, .array _, hf => exact hf.elim
    | [], _ :: _, hc => exact hc.elim
    | _ :: _, [], hc => exact hc.elim
  · obtain ⟨v, hv, hstr⟩ := literalValue_done lit hdone
    cases lit with
    | nil => exact absurd hdone (by simp [LitDone])
    | cons c body =>
      have hf : Decoder.flush ⟨⟨st, eT, ps⟩, stack, c :: body, top, false⟩ =
          Decoder.emit ⟨⟨st, eT, ps⟩, stack, [], top, false⟩ v := by
        simp only [Decoder.flush, hv]
      rw [hf]
      match ps, stack, hc with
      | [], [], hc =>
        simp only [CtxOK] at hc
        split_ifs at hc with h
        · exact absurd hc.1 hst
        · simp [Decoder.emit, CtxAfter]
          simpa using h
      | p :: ps, f :: fs, hc =>
        simp only [CtxOK] at hc
        obtain ⟨he, hf, hw⟩ := hc
        match p, f, hf with
        | .arrayValue, .array _, _ => simp [Decoder.emit, CtxAfter, AfterOK, he, hw]
        | .objectValue, .object _ none, hf => simp [FrameOK] at hf
        | .objectValue, .object _ (some _), _ => simp [Decoder.emit, CtxAfter, AfterOK, he, hw]
        | .objectKey, .object _ none, hf =>
          obtain ⟨-, hq, -⟩ := hf
          simp only [List.head?_cons, Option.some.injEq, reduceCtorEq, false_or] at hq
          obtain ⟨b, k, rfl⟩ := hstr (by simp [hq])
          simp [Decoder.emit, CtxAfter, AfterOK, he, hw]
        | .objectKey, .object _ (some _), hf => simp [FrameOK] at hf
        | .arrayValue, .object _ _, hf => exact hf.elim
        | .objectValue, .array _, hf => exact hf.elim
        | .objectKey, .array _, hf => exact hf.elim
      | [], _ :: _, hc => exact hc.elim
      | _ :: _, [], hc => exact hc.elim

end json

end

section
open json utf8 strconv transform

namespace json

/-- A decoder whose innermost container waits for a delimiter satisfies the invariant at the
step after a value. -/
theorem Inv.ofAfter (st : Step) (eT : Bool) (ps : List ParseState) (stack : List Frame)
    (top : Option Syn) (h : CtxAfter ps stack top)
    (hst : (ps = [] ∧ st = .endTop ∧ eT = true) ∨ (ps ≠ [] ∧ st = .endValue ∧ eT = false)) :
    Inv ⟨⟨st, eT, ps⟩, stack, [], top, false⟩ := by
  match ps, stack, h with
  | [], [], h =>
    rcases hst with ⟨-, rfl, rfl⟩ | ⟨h1, -, -⟩
    · exact ⟨rfl, rfl, by simpa [CtxOK, CtxAfter] using h⟩
    · exact absurd rfl h1
  | p :: ps, f :: fs, h =>
    rcases hst with ⟨h1, -, -⟩ | ⟨-, rfl, rfl⟩
    · cases h1
    · refine ⟨rfl, Or.inl rfl, ?_⟩
      simp only [CtxOK, CtxAfter] at h ⊢
      refine ⟨trivial, ?_, h.2⟩
      have hf := h.1
      match p, f, hf with
      | .arrayValue, .array _, _ => simp [FrameOK, isValStep]
      | .objectValue, .object _ none, _ => simp [FrameOK, isValStep]
      | .objectKey, .object _ (some _), _ => simp [FrameOK, isKeyStep]
      | .objectValue, .object _ (some _), hf => exact hf.elim
      | .objectKey, .object _ none, hf => exact hf.elim
      | .arrayValue, .object _ _, hf => exact hf.elim
      | .objectValue, .array _, hf => exact hf.elim
      | .objectKey, .array _, hf => exact hf.elim
  | [], _ :: _, h => exact h.elim
  | _ :: _, [], h => exact h.elim

theorem popParseState_eq (st : Step) (eT : Bool) (p : ParseState) (ps : List ParseState) :
    Scanner.popParseState ⟨st, eT, p :: ps⟩ =
      if ps = [] then ⟨.endTop, true, []⟩ else ⟨.endValue, eT, ps⟩ := by
  cases ps <;> simp [Scanner.popParseState]

/-- Closing a container: the finished value is handed to the container around it. -/
theorem emit_pop (st : Step) (eT : Bool) (p : ParseState) (ps : List ParseState)
    (fs : List Frame) (top : Option Syn) (v : Syn) (he : eT = false)
    (hw : List.Forall₂ Waiting ps fs) :
    Inv (Decoder.emit ⟨Scanner.popParseState ⟨st, eT, p :: ps⟩, fs, [], top, false⟩ v) := by
  have key := emit_waiting ⟨Scanner.popParseState ⟨st, eT, p :: ps⟩, fs, [], top, false⟩ v ps
    rfl hw
  obtain ⟨h1, h2, h3, h4⟩ := key
  generalize Decoder.emit ⟨Scanner.popParseState ⟨st, eT, p :: ps⟩, fs, [], top, false⟩ v = d
    at h1 h2 h3 h4
  obtain ⟨scan, stack, lit, top', bad⟩ := d
  simp only at h1 h2 h3 h4
  subst h1; subst h2; subst h3
  rw [popParseState_eq]
  split_ifs with hps
  · exact Inv.ofAfter _ _ _ _ _ (by simpa [hps] using h4) (Or.inl ⟨rfl, rfl, rfl⟩)
  · exact Inv.ofAfter _ _ _ _ _ h4 (Or.inr ⟨hps, rfl, he⟩)

/-- The delimiter after a value: the invariant holds again after it. -/
theorem endValue_core (d1 : Decoder) (s : Scanner) (c : Nat) (hb : d1.bad = false)
    (hl : d1.lit = []) (he : s.endTop = false)
    (hc : CtxAfter s.parseState d1.stack d1.top)
    (hne : (s.stateEndValue c).1.step ≠ .error) :
    Inv (d1.apply (s.stateEndValue c) c) := by
  obtain ⟨scan, stack, lit, top, bad⟩ := d1
  obtain ⟨st, eT, ps⟩ := s
  simp only at hb hl he hc hne
  subst hb; subst hl; subst he
  match ps, stack, hc with
  | [], [], hc =>
    by_cases hsp : isSpace c = true
    · simp only [Scanner.stateEndValue, Scanner.stateEndTop, hsp, if_true, Decoder.apply,
        Decoder.flush]
      exact Inv.ofAfter _ _ _ _ _ hc (Or.inl ⟨rfl, rfl, rfl⟩)
    · simp [Scanner.stateEndValue, Scanner.stateEndTop, hsp] at hne
  | p :: ps, f :: fs, hc =>
    obtain ⟨hf, hw⟩ := hc
    by_cases hsp : isSpace c = true
    · simp only [Scanner.stateEndValue, hsp, if_true, Decoder.apply, Decoder.flush]
      exact Inv.ofAfter _ _ _ _ _ ⟨hf, hw⟩ (Or.inr ⟨by simp, rfl, rfl⟩)
    · match p, f, hf with
      | .arrayValue, .array items, _ =>
        by_cases h1 : c = 0x2C
        · subst h1
          simp only [Scanner.stateEndValue, hsp, if_true, if_false, Decoder.apply, Decoder.flush]
          refine ⟨rfl, rfl, ?_⟩
          simp [CtxOK, FrameOK, isValStep, hw]
        · by_cases h2 : c = 0x5D
          · subst h2
            simp only [Scanner.stateEndValue, hsp, h1, if_true, if_false, Decoder.apply,
              Decoder.flush]
            exact emit_pop _ _ _ _ _ _ _ rfl hw
          · simp [Scanner.stateEndValue, hsp, h1, h2, Scanner.fail] at hne
      | .objectValue, .object ms none, _ =>
        by_cases h1 : c = 0x2C
        · subst h1
          simp only [Scanner.stateEndValue, hsp, if_true, if_false, Decoder.apply, Decoder.flush]
          refine ⟨rfl, rfl, ?_⟩
          simp [CtxOK, FrameOK, isKeyStep, hw]
        · by_cases h2 : c = 0x7D
          · subst h2
            simp only [Scanner.stateEndValue, hsp, h1, if_true, if_false, Decoder.apply,
              Decoder.flush]
            exact emit_pop _ _ _ _ _ _ _ rfl hw
          · simp [Scanner.stateEndValue, hsp, h1, h2, Scanner.fail] at hne
      | .objectKey, .object ms (some k), _ =>
        by_cases h1 : c = 0x3A
        · subst h1
          simp only [Scanner.stateEndValue, hsp, if_true, if_false, Decoder.apply, Decoder.flush]
          refine ⟨rfl, rfl, ?_⟩
          simp [CtxOK, FrameOK, isValStep, hw]
        · simp [Scanner.stateEndValue, hsp, h1, Scanner.fail] at hne
      | .objectValue, .object _ (some _), hf => exact hf.elim
      | .objectKey, .object _ none, hf => exact hf.elim
      | .arrayValue, .object _ _, hf => exact hf.elim
      | .objectValue, .array _, hf => exact hf.elim
      | .objectKey, .array _, hf => exact hf.elim
  | [], _ :: _, hc => exact hc.elim
  | _ :: _, [], hc => exact hc.elim

end json

end

section
open json utf8 strconv transform

namespace json

theorem stateEndValue_op (s : Scanner) (c : Nat) : (s.stateEndValue c).2 ≠ .scanContinue := by
  obtain ⟨st, eT, ps⟩ := s
  unfold Scanner.stateEndValue
  cases ps with
  | nil => simp only [Scanner.stateEndTop]; split_ifs <;> simp
  | cons p ps =>
    cases p <;> simp only [Scanner.fail] <;> split_ifs <;> simp

/-- Inside a string literal the scanner follows `strNext`. -/
theorem next_str (s : Scanner) (c : Nat) (h : isStr s.step = true) :
    s.next c = ({ s with step := strNext s.step c },
      if strNext s.step c = .error then .scanError else .scanContinue) := by
  obtain ⟨st, eT, ps⟩ := s
  cases st <;> simp only [isStr] at h <;> try cases h
  all_goals
    simp only [Scanner.next, strNext, Scanner.fail]
    split_ifs <;> simp_all

/-- Inside a number or a word that is not yet complete, the scanner continues or fails. -/
theorem next_word (s : Scanner) (c : Nat) (h : isWord s.step = true)
    (hd : isDone s.step = false) :
    (s.next c).1.step = .error ∨
      ((s.next c).2 = .scanContinue ∧ (s.next c).1.parseState = s.parseState ∧
        (s.next c).1.endTop = s.endTop ∧
        (isWord (s.next c).1.step = true ∨ (s.next c).1.step = .endValue)) := by
  obtain ⟨st, eT, ps⟩ := s
  cases st <;> simp only [isWord] at h <;> try cases h
  all_goals simp only [isDone] at hd
  all_goals try cases hd
  all_goals
    simp only [Scanner.next, Scanner.fail, Scanner.stateESign]
    split_ifs <;> simp [isWord]

/-- At a step where a value is complete, the scanner continues within a number or goes on to
the delimiter. -/
theorem next_done (s : Scanner) (c : Nat) (hd : isDone s.step = true) :
    ((s.next c).2 = .scanContinue ∧ (s.next c).1.parseState = s.parseState ∧
        (s.next c).1.endTop = s.endTop ∧ isWord s.step = true ∧
        isWord (s.next c).1.step = true) ∨
      s.next c = s.stateEndValue c := by
  obtain ⟨st, eT, ps⟩ := s
  cases st <;> simp only [isDone] at hd <;> try cases hd
  all_goals
    simp only [Scanner.next, Scanner.state0]
    first
    | exact Or.inr trivial
    | (split_ifs <;> simp [isWord])

theorem emit_lit (d : Decoder) (v : Syn) : (d.emit v).lit = d.lit := by
  unfold Decoder.emit
  split <;> try rfl
  split <;> rfl

theorem flush_lit (d : Decoder) : d.flush.lit = [] := by
  unfold Decoder.flush
  split
  · assumption
  · split
    · rw [emit_lit]
    · rfl

theorem flush_flush (d : Decoder) : d.flush.flush = d.flush := flush_nil _ (flush_lit d)

theorem apply_flush (d : Decoder) (r : Scanner × Op) (c : Nat) (h : r.2 ≠ .scanContinue) :
    d.apply r c = d.flush.apply r c := by
  obtain ⟨s, op⟩ := r
  cases op <;> simp only [Decoder.apply, flush_flush]
  exact absurd rfl h

end json

end

section
open json utf8 strconv transform

namespace json

theorem isStr_facts (st : Step) (h : isStr st = true) :
    isValStep st = true ∧ isKeyStep st = true ∧ st ≠ .endValue ∧ st ≠ .endTop ∧
      isWord st = false := by
  cases st <;> simp [isStr] at h <;> simp [isValStep, isKeyStep, isWord, isStr]

theorem isWord_facts (st : Step) (h : isWord st = true) :
    isValStep st = true ∧ isKeyStep st = false ∧ st ≠ .endValue ∧ st ≠ .endTop ∧
      isStr st = false := by
  cases st <;> simp [isWord] at h <;> simp [isValStep, isKeyStep, isWord, isStr]

theorem strNext_cases (st : Step) (c : Nat) :
    strNext st c = .error ∨ isStr (strNext st c) = true ∨ strNext st c = .endValue := by
  cases st <;> simp only [strNext] <;>
    first | exact Or.inl trivial | exact Or.inl rfl | (split_ifs <;> simp [isStr])

theorem LitOK_str {st : Step} {lit : GoString} (h : isStr st = true) :
    LitOK st lit ↔ ∃ body, lit = 0x22 :: body ∧ strScanFrom .inString body = st := by
  cases st <;> simp [isStr] at h <;> simp [LitOK, isStr]

theorem LitOK_word {st : Step} {lit : GoString} (h : isWord st = true) :
    LitOK st lit ↔ lit ≠ [] ∧ lit.head? ≠ some 0x22 := by
  cases st <;> simp [isWord] at h <;> simp [LitOK, isStr]

/-- A byte that continues the literal being read keeps the invariant. -/
theorem Inv.extend (d : Decoder) (s' : Scanner) (c : Nat) (hI : Inv d)
    (hps : s'.parseState = d.scan.parseState) (het : s'.endTop = d.scan.endTop)
    (hne : s'.step ≠ .error)
    (hstep : (isStr d.scan.step = true ∧ s'.step = strNext d.scan.step c) ∨
      (isWord d.scan.step = true ∧ (isWord s'.step = true ∨ s'.step = .endValue))) :
    Inv { d with scan := s', lit := d.lit ++ [c] } := by
  obtain ⟨⟨st, eT, ps⟩, stack, lit, top, bad⟩ := d
  obtain ⟨st', eT', ps'⟩ := s'
  obtain ⟨hb, hl, hc⟩ := hI
  simp only at hb hl hc hps het hne hstep ⊢
  subst hb; subst hps; subst het
  -- facts about the two steps and the literal
  have hfacts : isValStep st = true ∧ st ≠ .endValue ∧ st ≠ .endTop ∧ lit ≠ [] ∧
      isValStep st' = true ∧ LitOK st' (lit ++ [c]) ∧
      (isKeyStep st = true → isKeyStep st' = true ∧ (lit ++ [c]).head? = some 0x22) := by
    rcases hstep with ⟨hs, rfl⟩ | ⟨hw, hw'⟩
    · have f := isStr_facts st hs
      obtain ⟨body, rfl, hbody⟩ := (LitOK_str hs).mp hl
      have hscan : strScanFrom .inString (body ++ [c]) = strNext st c := by
        rw [strScanFrom_append, hbody]; rfl
      refine ⟨f.1, f.2.2.1, f.2.2.2.1, by simp, ?_, ?_, ?_⟩
      · rcases strNext_cases st c with h | h | h
        · exact absurd h hne
        · exact (isStr_facts _ h).1
        · rw [h]; rfl
      · rcases strNext_cases st c with h | h | h
        · exact absurd h hne
        · exact (LitOK_str h).mpr ⟨body ++ [c], rfl, hscan⟩
        · rw [h]
          right
          show LitDone (0x22 :: (body ++ [c]))
          intro _
          rw [hscan, h]
      · intro _
        refine ⟨?_, rfl⟩
        rcases strNext_cases st c with h | h | h
        · exact absurd h hne
        · exact (isStr_facts _ h).2.1
        · rw [h]; rfl
    · have f := isWord_facts st hw
      obtain ⟨hl1, hl2⟩ := (LitOK_word hw).mp hl
      obtain ⟨x, l, rfl⟩ := List.exists_cons_of_ne_nil hl1
      have hx : x ≠ 0x22 := by simpa using hl2
      refine ⟨f.1, f.2.2.1, f.2.2.2.1, by simp, ?_, ?_, ?_⟩
      · rcases hw' with h | h
        · exact (isWord_facts _ h).1
        · rw [h]; rfl
      · rcases hw' with h | h
        · exact (LitOK_word h).mpr ⟨by simp, by simpa using hx⟩
        · rw [h]
          right
          show LitDone (x :: (l ++ [c]))
          intro hh
          exact absurd hh hx
      · intro hk
        rw [f.2.1] at hk
        cases hk
  obtain ⟨h1, h2, h3, h4, h5, h6, h7⟩ := hfacts
  have h8 : lit ++ [c] ≠ [] := by simp
  refine ⟨rfl, h6, ?_⟩
  match ps', stack, hc with
  | [], [], hc =>
    simp only [CtxOK] at hc ⊢
    split_ifs at hc ⊢ with h
    · exact absurd hc.1 h3
    · exact ⟨h5, fun _ => h8⟩
  | p :: ps, f :: fs, hc =>
    simp only [CtxOK] at hc ⊢
    obtain ⟨he, hf, hw⟩ := hc
    refine ⟨he, ?_, hw⟩
    match p, f, hf with
    | .arrayValue, .array _, _ => exact h5
    | .objectValue, .object _ key, hf =>
      simp only [FrameOK] at hf ⊢
      refine ⟨h5, ?_⟩
      rw [hf.2]
      simp [h2, h8]
    | .objectKey, .object _ key, hf =>
      simp only [FrameOK] at hf ⊢
      obtain ⟨hk1, hk2⟩ := h7 hf.1
      refine ⟨hk1, Or.inr hk2, ?_⟩
      rw [hf.2.2]
      simp [h2, h8]
    | .arrayValue, .object _ _, hf => exact hf.elim
    | .objectValue, .array _, hf => exact hf.elim
    | .objectKey, .array _, hf => exact hf.elim
  | [], _ :: _, hc => exact hc.elim
  | _ :: _, [], hc => exact hc.elim

end json

end

section
open json utf8 strconv transform

namespace json

theorem apply_continue (d : Decoder) (r : Scanner × Op) (c : Nat) (h : r.2 = .scanContinue) :
    d.apply r c = { d with scan := r.1, lit := d.lit ++ [c] } := by
  unfold Decoder.apply; rw [h]

/-- Where a value may begin, the containers around it wait for a value. -/
theorem ctx_begin (st : Step) (eT : Bool) (ps : List ParseState) (stack : List Frame)
    (top : Option Syn) (hc : CtxOK ⟨st, eT, ps⟩ stack [] top)
    (hst : st = .beginValue ∨ st = .beginValueOrEmpty) :
    eT = false ∧ List.Forall₂ Waiting ps stack ∧
      ∀ (X : Step) (c : Nat), isValStep X = true → X ≠ .endValue →
        CtxOK ⟨X, eT, ps⟩ stack [c] top := by
  have h1 : st ≠ .endTop := by rcases hst with rfl | rfl <;> decide
  have h2 : st ≠ .endValue := by rcases hst with rfl | rfl <;> decide
  have h3 : isKeyStep st = false := by rcases hst with rfl | rfl <;> rfl
  match ps, stack, hc with
  | [], [], hc =>
    simp only [CtxOK] at hc
    split_ifs at hc with h
    · exact absurd hc.1 h1
    · refine ⟨by simpa using h, List.Forall₂.nil, ?_⟩
      intro X c hX hX'
      simp only [CtxOK, h, if_false]
      exact ⟨hX, fun hh => absurd hh hX'⟩
  | p :: ps, f :: fs, hc =>
    simp only [CtxOK] at hc
    obtain ⟨he, hf, hw⟩ := hc
    match p, f, hf with
    | .arrayValue, .array _, _ =>
      refine ⟨he, List.Forall₂.cons trivial hw, ?_⟩
      intro X c hX hX'
      exact ⟨he, hX, hw⟩
    | .objectValue, .object _ none, hf => simp [FrameOK, h2] at hf
    | .objectValue, .object _ (some _), hf =>
      refine ⟨he, List.Forall₂.cons trivial hw, ?_⟩
      intro X c hX hX'
      refine ⟨he, ?_, hw⟩
      simp [FrameOK, hX, hX']
    | .objectKey, .object _ _, hf => simp [FrameOK, h3] at hf
    | .arrayValue, .object _ _, hf => exact hf.elim
    | .objectValue, .array _, hf => exact hf.elim
    | .objectKey, .array _, hf => exact hf.elim
  | [], _ :: _, hc => exact hc.elim
  | _ :: _, [], hc => exact hc.elim

/-- The byte that begins a value keeps the invariant. -/
theorem beginValue_core (st : Step) (eT : Bool) (ps : List ParseState) (stack : List Frame)
    (top : Option Syn) (c : Nat)
    (hI : Inv ⟨⟨st, eT, ps⟩, stack, [], top, false⟩)
    (hst : st = .beginValue ∨ st = .beginValueOrEmpty)
    (hne : (Scanner.stateBeginValue ⟨st, eT, ps⟩ c).1.step ≠ .error) :
    Inv (Decoder.apply ⟨⟨st, eT, ps⟩, stack, [], top, false⟩
      (Scanner.stateBeginValue ⟨st, eT, ps⟩ c) c) := by
  obtain ⟨he, hw, hX⟩ := ctx_begin st eT ps stack top hI.ctx hst
  subst he
  by_cases h0 : isSpace c = true
  · have hs : Scanner.stateBeginValue ⟨st, false, ps⟩ c = (⟨st, false, ps⟩, .scanSkipSpace) := by
      simp [Scanner.stateBeginValue, h0]
    rw [hs]
    exact hI
  by_cases h1 : c = 0x7B
  · subst h1
    by_cases hdepth : ps.length + 1 ≤ maxNestingDepth
    · have hs : Scanner.stateBeginValue ⟨st, false, ps⟩ 0x7B =
          (⟨.beginStringOrEmpty, false, .objectKey :: ps⟩, .scanBeginObject) := by
        simp [Scanner.stateBeginValue, isSpace, Scanner.pushParseState, hdepth]
      rw [hs]
      show Inv ⟨⟨.beginStringOrEmpty, false, .objectKey :: ps⟩, .object [] none :: stack, [],
        top, false⟩
      refine ⟨rfl, by simp [LitOK], ?_⟩
      simp only [CtxOK]
      exact ⟨trivial, by simp [FrameOK, isKeyStep], hw⟩
    · simp [Scanner.stateBeginValue, isSpace, Scanner.pushParseState, hdepth] at hne
  by_cases h2 : c = 0x5B
  · subst h2
    by_cases hdepth : ps.length + 1 ≤ maxNestingDepth
    · have hs : Scanner.stateBeginValue ⟨st, false, ps⟩ 0x5B =
          (⟨.beginValueOrEmpty, false, .arrayValue :: ps⟩, .scanBeginArray) := by
        simp [Scanner.stateBeginValue, isSpace, Scanner.pushParseState, hdepth]
      rw [hs]
      show Inv ⟨⟨.beginValueOrEmpty, false, .arrayValue :: ps⟩, .array [] :: stack, [],
        top, false⟩
      refine ⟨rfl, by simp [LitOK], ?_⟩
      simp only [CtxOK]
      exact ⟨trivial, by simp [FrameOK, isValStep], hw⟩
    · simp [Scanner.stateBeginValue, isSpace, Scanner.pushParseState, hdepth] at hne
  by_cases h3 : c = 0x22
  · subst h3
    have hs : Scanner.stateBeginValue ⟨st, false, ps⟩ 0x22 =
        (⟨.inString, false, ps⟩, .scanBeginLiteral) := by
      simp [Scanner.stateBeginValue, isSpace]
    rw [hs]
    show Inv ⟨⟨.inString, false, ps⟩, stack, [0x22], top, false⟩
    exact ⟨rfl, by simp [LitOK, isStr, strScanFrom], hX _ _ rfl (by decide)⟩
  have hlit : ∀ X : Step, isWord X = true →
      Scanner.stateBeginValue ⟨st, false, ps⟩ c = (⟨X, false, ps⟩, .scanBeginLiteral) →
      Inv (Decoder.apply ⟨⟨st, false, ps⟩, stack, [], top, false⟩
        (Scanner.stateBeginValue ⟨st, false, ps⟩ c) c) := by
    intro X hXw hs
    rw [hs]
    show Inv ⟨⟨X, false, ps⟩, stack, [c], top, false⟩
    have f := isWord_facts X hXw
    exact ⟨rfl, (LitOK_word hXw).mpr ⟨by simp, by simpa using h3⟩, hX _ _ f.1 f.2.2.1⟩
  by_cases h4 : c = 0x2D
  · exact hlit .neg rfl (by subst h4; simp [Scanner.stateBeginValue, isSpace])
  by_cases h5 : c = 0x30
  · exact hlit .s0 rfl (by subst h5; simp [Scanner.stateBeginValue, isSpace])
  by_cases h6 : c = 0x74
  · exact hlit .t rfl (by subst h6; simp [Scanner.stateBeginValue, isSpace])
  by_cases h7 : c = 0x66
  · exact hlit .f rfl (by subst h7; simp [Scanner.stateBeginValue, isSpace])
  by_cases h8 : c = 0x6E
  · exact hlit .n rfl (by subst h8; simp [Scanner.stateBeginValue, isSpace])
  by_cases h9 : 0x31 ≤ c ∧ c ≤ 0x39
  · exact hlit .s1 rfl (by simp [Scanner.stateBeginValue, h0, h1, h2, h3, h4, h5, h6, h7, h8, h9])
  · simp [Scanner.stateBeginValue, h0, h1, h2, h3, h4, h5, h6, h7, h8, h9, Scanner.fail] at hne

/-- The byte that begins an object key keeps the invariant. -/
theorem beginString_core (st : Step) (eT : Bool) (ps : List ParseState) (stack : List Frame)
    (top : Option Syn) (c : Nat)
    (hI : Inv ⟨⟨st, eT, ps⟩, stack, [], top, false⟩)
    (hst : st = .beginString ∨ st = .beginStringOrEmpty)
    (hne : (Scanner.stateBeginString ⟨st, eT, ps⟩ c).1.step ≠ .error) :
    Inv (Decoder.apply ⟨⟨st, eT, ps⟩, stack, [], top, false⟩
      (Scanner.stateBeginString ⟨st, eT, ps⟩ c) c) := by
  by_cases h0 : isSpace c = true
  · have hs : Scanner.stateBeginString ⟨st, eT, ps⟩ c = (⟨st, eT, ps⟩, .scanSkipSpace) := by
      simp [Scanner.stateBeginString, h0]
    rw [hs]
    exact hI
  by_cases h3 : c = 0x22
  · subst h3
    have hs : Scanner.stateBeginString ⟨st, eT, ps⟩ 0x22 =
        (⟨.inString, eT, ps⟩, .scanBeginLiteral) := by
      simp [Scanner.stateBeginString, isSpace]
    rw [hs]
    show Inv ⟨⟨.inString, eT, ps⟩, stack, [0x22], top, false⟩
    refine ⟨rfl, by simp [LitOK, isStr, strScanFrom], ?_⟩
    have hc := hI.ctx
    have h1 : st ≠ .endTop := by rcases hst with rfl | rfl <;> decide
    have h2 : st ≠ .endValue := by rcases hst with rfl | rfl <;> decide
    have h4 : isValStep st = false := by rcases hst with rfl | rfl <;> rfl
    match ps, stack, hc with
    | [], [], hc =>
      simp only [CtxOK] at hc
      split_ifs at hc with h
      · exact absurd hc.1 h1
      · rw [h4] at hc; cases hc.1
    | p :: ps, f :: fs, hc =>
      simp only [CtxOK] at hc ⊢
      obtain ⟨he, hf, hw⟩ := hc
      refine ⟨he, ?_, hw⟩
      match p, f, hf with
      | .arrayValue, .array _, hf => simp [FrameOK, h4] at hf
      | .objectValue, .object _ _, hf => simp [FrameOK, h4] at hf
      | .objectKey, .object _ none, _ => simp [FrameOK, isKeyStep, isStr]
      | .objectKey, .object _ (some _), hf => simp [FrameOK, h2] at hf
      | .arrayValue, .object _ _, hf => exact hf.elim
      | .objectValue, .array _, hf => exact hf.elim
      | .objectKey, .array _, hf => exact hf.elim
    | [], _ :: _, hc => exact hc.elim
    | _ :: _, [], hc => exact hc.elim
  · simp [Scanner.stateBeginString, h0, h3, Scanner.fail] at hne

end json

end

section
open json utf8 strconv transform

namespace json

/-- Every byte the scanner accepts keeps the invariant of the decoder. -/
theorem Inv.next (d : Decoder) (c : Nat) (hI : Inv d)
    (hne : (d.scan.next c).1.step ≠ .error) : Inv (d.next c) := by
  rw [next_apply]
  by_cases hs : isStr d.scan.step = true
  · have h := next_str d.scan c hs
    rw [h] at hne ⊢
    simp only at hne
    rw [apply_continue _ _ _ (by simp [hne])]
    exact Inv.extend d _ c hI rfl rfl hne (Or.inl ⟨hs, rfl⟩)
  by_cases hd : isDone d.scan.step = true
  · rcases next_done d.scan c hd with ⟨hop, hps, het, hw, hw'⟩ | heq
    · rw [apply_continue _ _ _ hop]
      exact Inv.extend d _ c hI hps het hne (Or.inr ⟨hw, Or.inl hw'⟩)
    · rw [heq] at hne ⊢
      rw [apply_flush _ _ _ (stateEndValue_op _ _)]
      obtain ⟨h1, h2, h3, h4, h5⟩ := flush_done d hI hd
      exact endValue_core d.flush d.scan c h1 h2 h4 h5 hne
  by_cases hw : isWord d.scan.step = true
  · rcases next_word d.scan c hw (by simpa using hd) with herr | ⟨hop, hps, het, hw'⟩
    · exact absurd herr hne
    · rw [apply_continue _ _ _ hop]
      exact Inv.extend d _ c hI hps het hne (Or.inr ⟨hw, hw'⟩)
  obtain ⟨⟨st, eT, ps⟩, stack, lit, top, bad⟩ := d
  have hb := hI.bad
  have hl := hI.lit
  simp only at hb hl hs hd hw hne ⊢
  subst hb
  cases st <;> simp only [isStr, isDone, isWord, not_true_eq_false] at hs hd hw
  · -- beginValueOrEmpty
    simp only [LitOK] at hl
    subst hl
    by_cases h0 : isSpace c = true
    · have e : Scanner.next ⟨.beginValueOrEmpty, eT, ps⟩ c =
          (⟨.beginValueOrEmpty, eT, ps⟩, .scanSkipSpace) := by simp [Scanner.next, h0]
      rw [e]
      exact hI
    by_cases h1 : c = 0x5D
    · subst h1
      have e : Scanner.next ⟨.beginValueOrEmpty, eT, ps⟩ 0x5D =
          Scanner.stateEndValue ⟨.beginValueOrEmpty, eT, ps⟩ 0x5D := by
        simp [Scanner.next, isSpace]
      rw [e] at hne ⊢
      obtain ⟨he, hw, -⟩ := ctx_begin _ eT ps stack top hI.ctx (Or.inr rfl)
      refine endValue_core _ _ _ rfl rfl he ?_ hne
      cases hw with
      | nil => simp [Scanner.stateEndValue, Scanner.stateEndTop, isSpace] at hne
      | @cons p f ps fs hpf hrest =>
        match p, f, hpf with
        | .arrayValue, .array _, _ => exact ⟨trivial, hrest⟩
        | .objectValue, .object _ (some _), _ =>
          simp [Scanner.stateEndValue, isSpace, Scanner.fail] at hne
        | .objectValue, .object _ none, hpf => exact hpf.elim
        | .objectKey, .object _ _, hpf => exact hpf.elim
        | .arrayValue, .object _ _, hpf => exact hpf.elim
        | .objectValue, .array _, hpf => exact hpf.elim
        | .objectKey, .array _, hpf => exact hpf.elim
    · have e : Scanner.next ⟨.beginValueOrEmpty, eT, ps⟩ c =
          Scanner.stateBeginValue ⟨.beginValueOrEmpty, eT, ps⟩ c := by
        simp [Scanner.next, h0, h1]
      rw [e] at hne ⊢
      exact beginValue_core _ _ _ _ _ _ hI (Or.inr rfl) hne
  · -- beginValue
    simp only [LitOK] at hl
    subst hl
    exact beginValue_core _ _ _ _ _ _ hI (Or.inl rfl) hne
  · -- beginStringOrEmpty
    simp only [LitOK] at hl
    subst hl
    by_cases h0 : isSpace c = true
    · have e : Scanner.next ⟨.beginStringOrEmpty, eT, ps⟩ c =
          (⟨.beginStringOrEmpty, eT, ps⟩, .scanSkipSpace) := by simp [Scanner.next, h0]
      rw [e]
      exact hI
    by_cases h1 : c = 0x7D
    · subst h1
      have e : Scanner.next ⟨.beginStringOrEmpty, eT, ps⟩ 0x7D =
          Scanner.stateEndValue ⟨.beginStringOrEmpty, eT, .objectValue :: ps.tail⟩ 0x7D := by
        simp [Scanner.next, isSpace]
      rw [e] at hne ⊢
      have hc := hI.ctx
      match ps, stack, hc with
      | [], [], hc =>
        simp only [CtxOK] at hc
        split_ifs at hc with h
        · cases hc.1
        · cases hc.1
      | p :: ps, f :: fs, hc =>
        simp only [CtxOK] at hc
        obtain ⟨he, hf, hw⟩ := hc
        refine endValue_core _ _ _ rfl rfl he ?_ hne
        match p, f, hf with
        | .objectKey, .object _ none, _ => exact ⟨trivial, hw⟩
        | .objectKey, .object _ (some _), hf => simp [FrameOK] at hf
        | .arrayValue, .array _, hf => simp [FrameOK, isValStep, isStr, isWord] at hf
        | .objectValue, .object _ _, hf => simp [FrameOK, isValStep, isStr, isWord] at hf
        | .arrayValue, .object _ _, hf => exact hf.elim
        | .objectValue, .array _, hf => exact hf.elim
        | .objectKey, .array _, hf => exact hf.elim
      | [], _ :: _, hc => exact hc.elim
      | _ :: _, [], hc => exact hc.elim
    · have e : Scanner.next ⟨.beginStringOrEmpty, eT, ps⟩ c =
          Scanner.stateBeginString ⟨.beginStringOrEmpty, eT, ps⟩ c := by
        simp [Scanner.next, h0, h1]
      rw [e] at hne ⊢
      exact beginString_core _ _ _ _ _ _ hI (Or.inr rfl) hne
  · -- beginString
    simp only [LitOK] at hl
    subst hl
    exact beginString_core _ _ _ _ _ _ hI (Or.inl rfl) hne
  · -- endTop
    simp only [LitOK] at hl
    subst hl
    by_cases h0 : isSpace c = true
    · have e : Scanner.next ⟨.endTop, eT, ps⟩ c = (⟨.endTop, eT, ps⟩, .scanEnd) := by
        simp [Scanner.next, Scanner.stateEndTop, h0]
      rw [e]
      exact hI
    · simp [Scanner.next, Scanner.stateEndTop, h0] at hne
  · -- error
    exact hl.elim

theorem next_error (s : Scanner) (c : Nat) (h : s.step = .error) : (s.next c).1.step = .error := by
  obtain ⟨st, eT, ps⟩ := s
  simp only at h
  subst h
  rfl

theorem run_error (data : GoString) : ∀ s : Scanner, s.step = .error →
    (s.run data).step = .error := by
  induction data with
  | nil => intro s h; exact h
  | cons c t ih => intro s h; exact ih _ (next_error s c h)

/-- The invariant holds after any input that the scanner has not rejected. -/
theorem Inv.run (data : GoString) : ∀ d : Decoder, Inv d → (d.scan.run data).step ≠ .error →
    Inv (d.run data) := by
  induction data with
  | nil => intro d hI _; exact hI
  | cons c t ih =>
    intro d hI hne
    have h1 : (d.scan.next c).1.step ≠ .error := fun h => hne (run_error t _ h)
    have h2 := Inv.next d c hI h1
    refine ih (d.next c) h2 ?_
    rw [scan_next]
    exact hne

/-- At the end of an input the scanner accepts, the decoder holds the top-level value. -/
theorem Inv.eof (d : Decoder) (hI : Inv d) (he : d.scan.eof = true) :
    d.flush.bad = false ∧ d.flush.top.isSome = true := by
  by_cases hd : isDone d.scan.step = true
  · obtain ⟨h1, h2, h3, h4, h5⟩ := flush_done d hI hd
    refine ⟨h1, ?_⟩
    obtain ⟨⟨st, eT, ps⟩, stack, lit, top, bad⟩ := d
    simp only at h4 h5 he hd
    subst h4
    have hps : ps = [] := by
      cases ps with
      | nil => rfl
      | cons p ps =>
        exfalso
        cases st <;> simp only [isDone] at hd <;> try cases hd
        all_goals
          simp [Scanner.eof, Scanner.next, Scanner.state0, Scanner.stateEndValue, isSpace,
            isDigit] at he
    subst hps
    generalize (Decoder.flush _).stack = stk at h5
    generalize (Decoder.flush _).top = tp at h5 ⊢
    cases stk with
    | nil => exact h5
    | cons _ _ => exact h5.elim
  · obtain ⟨⟨st, eT, ps⟩, stack, lit, top, bad⟩ := d
    obtain ⟨hb, hl, hc⟩ := hI
    simp only at hb hl hc he hd
    subst hb
    by_cases het : eT = true
    · subst het
      match ps, stack, hc with
      | [], [], hc =>
        simp only [CtxOK, if_true] at hc
        obtain ⟨rfl, ht⟩ := hc
        simp only [LitOK] at hl
        subst hl
        exact ⟨rfl, ht⟩
      | p :: ps, f :: fs, hc => simp [CtxOK] at hc
      | [], _ :: _, hc => exact hc.elim
      | _ :: _, [], hc => exact hc.elim
    · exfalso
      have het' : eT = false := by simpa using het
      subst het'
      cases st <;> simp only [isDone, not_true_eq_false] at hd
      all_goals
        simp [Scanner.eof, Scanner.next, Scanner.stateBeginValue, Scanner.stateBeginString,
          Scanner.stateEndTop, Scanner.stateESign, Scanner.fail, isSpace, isDigit, isHex] at he

/-- Every valid JSON text has a syntax tree: the decoder does not fail on a text that the
scanner accepts. -/
theorem decode_isSome (data : GoString) (h : Valid data = true) :
    (decode data).isSome = true := by
  have hne : (Decoder.init.scan.run data).step ≠ .error := by
    intro he
    have : Scanner.eof (Scanner.reset.run data) = true := h
    have he' : (Scanner.reset.run data).step = .error := he
    unfold Scanner.eof at this
    rw [if_pos he'] at this
    cases this
  have hI := Inv.run data Decoder.init Inv.init hne
  have he : (Decoder.init.run data).scan.eof = true := by
    rw [scan_run]; exact h
  obtain ⟨h1, h2⟩ := Inv.eof _ hI he
  unfold decode
  simp only [h1]
  exact h2

end json

end

/-! ## What the encoders write -/

section
open json utf8 strconv transform

namespace json

theorem hex_ge (n : Nat) : 0x30 ≤ hex n ∧ hex n ≠ 0x20 := by
  unfold hex; split_ifs <;> omega

theorem escapeByte_chars (b : Nat) : ∀ c ∈ escapeByte b, 0x21 ≤ c := by
  intro c hc
  have h1 := hex_ge (b / 16)
  have h2 := hex_ge b
  unfold escapeByte at hc
  split_ifs at hc with h
  all_goals simp only [List.mem_cons, List.mem_singleton, List.not_mem_nil, or_false] at hc
  · rcases h with h | h <;> rcases hc with rfl | rfl <;> omega
  all_goals rcases hc with hc | hc | hc | hc | hc | hc <;> omega

theorem escapeLoop_step (fuel b : Nat) (rest : GoString) :
    ∃ chunk k, escapeLoop (fuel + 1) (b :: rest) = chunk ++ escapeLoop fuel ((b :: rest).drop k) ∧
      1 ≤ k ∧ ((chunk = [b] ∧ k = 1 ∧ 0x20 ≤ b) ∨ (chunk ≠ [] ∧ ∀ c ∈ chunk, 0x21 ≤ c)) := by
  rw [escapeLoop.eq_3]
  by_cases h1 : b < 0x80
  · rw [if_pos h1]
    by_cases h2 : htmlSafe b = true
    · rw [if_pos h2]
      exact ⟨[b], 1, rfl, le_refl _, Or.inl ⟨rfl, rfl, (htmlSafe_plain h2).1⟩⟩
    · rw [if_neg h2]
      obtain ⟨e, he⟩ := escapeByte_head b
      exact ⟨escapeByte b, 1, rfl, le_refl _, Or.inr ⟨by rw [he]; simp, escapeByte_chars b⟩⟩
  · rw [if_neg h1]
    dsimp only
    by_cases h3 : (DecodeRune (b :: rest)).1 = RuneError ∧ (DecodeRune (b :: rest)).2 = 1
    · rw [if_pos h3]
      exact ⟨_, 1, rfl, le_refl _, Or.inr ⟨by simp, by decide⟩⟩
    · rw [if_neg h3]
      rcases DecodeRune_shape (b :: rest) (by simp) with he | hs
      · exfalso; apply h3; rw [he]; exact ⟨rfl, rfl⟩
      · have hn := hs.size_pos
        by_cases h4 : (DecodeRune (b :: rest)).1 = 0x2028 ∨ (DecodeRune (b :: rest)).1 = 0x2029
        · rw [if_pos h4]
          refine ⟨_, _, rfl, hn.1, Or.inr ⟨by simp, ?_⟩⟩
          intro c hc
          have := hex_ge (DecodeRune (b :: rest)).1
          simp only [List.mem_cons, List.mem_singleton, List.not_mem_nil, or_false] at hc
          rcases hc with hc | hc | hc | hc | hc | hc <;> omega
        · rw [if_neg h4]
          refine ⟨_, _, rfl, hn.1, Or.inr ⟨?_, ?_⟩⟩
          · intro h
            have := congrArg List.length h
            simp only [List.length_take, List.length_cons, List.length_nil] at this
            simp only [List.length_cons] at hn
            omega
          · intro c hc
            have := hs.high (by simp; omega) c hc
            omega

theorem escapeLoop_chars (fuel : Nat) : ∀ s : GoString, ∀ c ∈ escapeLoop fuel s, 0x20 ≤ c := by
  induction fuel with
  | zero => intro s c hc; cases s <;> simp [escapeLoop] at hc
  | succ n ih =>
    intro s c hc
    cases s with
    | nil => simp [escapeLoop] at hc
    | cons b rest =>
      obtain ⟨chunk, k, he, -, hk⟩ := escapeLoop_step n b rest
      rw [he, List.mem_append] at hc
      rcases hc with hc | hc
      · rcases hk with ⟨rfl, -, hb⟩ | ⟨-, hall⟩
        · simp at hc; omega
        · have := hall c hc; omega
      · exact ih _ c hc

theorem appendString_chars (s : GoString) : ∀ c ∈ appendString s, 0x20 ≤ c := by
  intro c hc
  simp only [appendString, List.mem_append, List.mem_cons, List.mem_singleton,
    List.not_mem_nil, or_false] at hc
  rcases hc with (rfl | hc) | rfl
  · decide
  · exact escapeLoop_chars _ _ c hc
  · decide

end json

theorem twoSpaces_cons (a : Nat) (t : GoString) :
    twoSpaces (a :: t) = ((a = 0x20 && t.head? = some 0x20) || twoSpaces t) := by
  cases t with
  | nil => simp [twoSpaces]
  | cons b t => simp [twoSpaces]

theorem twoSpaces_append (a b : GoString) :
    twoSpaces (a ++ b) =
      (twoSpaces a || twoSpaces b || (a.getLast? = some 0x20 && b.head? = some 0x20)) := by
  induction a with
  | nil => simp [twoSpaces]
  | cons x t ih =>
    rw [List.cons_append, twoSpaces_cons, twoSpaces_cons, ih]
    cases t with
    | nil =>
      cases b with
      | nil => simp [twoSpaces]
      | cons y t' => simp [twoSpaces, Bool.or_comm]
    | cons y t' =>
      simp only [List.cons_append, List.head?_cons, List.getLast?_cons_cons]
      cases (decide (x = 0x20) && decide (some y = some 0x20)) <;> simp

theorem twoSpaces_drop (k : Nat) : ∀ l : GoString, twoSpaces (l.drop k) = true → twoSpaces l = true := by
  induction k with
  | zero => intro l h; simpa using h
  | succ n ih =>
    intro l h
    cases l with
    | nil => simp [twoSpaces] at h
    | cons a t =>
      rw [List.drop_succ_cons] at h
      rw [twoSpaces_cons, ih t h]
      simp

theorem twoSpaces_of_no_space (l : GoString) (h : ∀ c ∈ l, c ≠ 0x20) : twoSpaces l = false := by
  induction l with
  | nil => rfl
  | cons a t ih =>
    rw [twoSpaces_cons, ih (fun c hc => h c (List.mem_cons_of_mem _ hc))]
    have := h a (by simp)
    simp [this]

theorem Tight.empty : Tight [] := ⟨rfl, by simp, by simp⟩

theorem Tight.of_no_space {l : GoString} (h : ∀ c ∈ l, c ≠ 0x20) : Tight l := by
  refine ⟨twoSpaces_of_no_space l h, ?_, ?_⟩
  · intro hh
    exact h _ (List.mem_of_mem_head? hh) rfl
  · intro hh
    exact h _ (List.mem_of_mem_getLast? hh) rfl

theorem Tight.concat {a b : GoString} (ha : Tight a) (hb : Tight b) : Tight (a ++ b) := by
  obtain ⟨a1, a2, a3⟩ := ha
  obtain ⟨b1, b2, b3⟩ := hb
  refine ⟨?_, ?_, ?_⟩
  · rw [twoSpaces_append, a1, b1]
    simp [a3]
  · cases a with
    | nil => simpa using b2
    | cons x t => simpa using a2
  · cases b with
    | nil => simpa using a3
    | cons y t =>
      rw [List.getLast?_append_of_ne_nil _ (by simp)]
      exact b3

theorem Tight.cons {c : Nat} {b : GoString} (hc : c ≠ 0x20) (hb : Tight b) : Tight (c :: b) :=
  Tight.concat (a := [c]) (Tight.of_no_space (by simpa using hc)) hb

namespace json

theorem escapeLoop_spaces (fuel : Nat) : ∀ s : GoString,
    ((escapeLoop fuel s).head? = some 0x20 → s.head? = some 0x20) ∧
    (twoSpaces (escapeLoop fuel s) = true → twoSpaces s = true) := by
  induction fuel with
  | zero => intro s; cases s <;> simp [escapeLoop, twoSpaces]
  | succ n ih =>
    intro s
    cases s with
    | nil => simp [escapeLoop, twoSpaces]
    | cons b rest =>
      obtain ⟨chunk, k, he, hk1, hk⟩ := escapeLoop_step n b rest
      rw [he]
      rcases hk with ⟨rfl, rfl, hb⟩ | ⟨hne, hall⟩
      · simp only [List.drop_succ_cons, List.drop_zero, List.singleton_append, List.head?_cons,
          Option.some.injEq]
        refine ⟨fun h => by rw [h], fun h => ?_⟩
        rw [twoSpaces_cons] at h ⊢
        simp only [Bool.or_eq_true, Bool.and_eq_true, decide_eq_true_eq] at h ⊢
        rcases h with ⟨h1, h2⟩ | h
        · exact Or.inl ⟨h1, (ih rest).1 h2⟩
        · exact Or.inr ((ih rest).2 h)
      · have hns : ∀ c ∈ chunk, c ≠ 0x20 := fun c hc => by have := hall c hc; omega
        have ht := Tight.of_no_space hns
        constructor
        · intro h
          cases chunk with
          | nil => exact absurd rfl hne
          | cons x t =>
            simp only [List.cons_append, List.head?_cons, Option.some.injEq] at h
            exact absurd h (hns x (by simp))
        · intro h
          rw [twoSpaces_append, ht.1] at h
          simp only [Bool.false_or, Bool.or_eq_true, Bool.and_eq_true, decide_eq_true_eq] at h
          rcases h with h | ⟨h, -⟩
          · exact twoSpaces_drop k _ ((ih _).2 h)
          · exact absurd h ht.2.2

theorem appendString_tight (s : GoString) (h : twoSpaces s = false) : Tight (appendString s) := by
  unfold appendString
  have hq : Tight [0x22] := Tight.of_no_space (by simp)
  have hbody : twoSpaces (escapeLoop s.length s) = false := by
    cases hb : twoSpaces (escapeLoop s.length s) with
    | false => rfl
    | true => rw [(escapeLoop_spaces _ s).2 hb] at h; cases h
  refine ⟨?_, by simp, ?_⟩
  · rw [twoSpaces_append, twoSpaces_cons, hbody]
    simp [twoSpaces]
  · rw [List.getLast?_append_of_ne_nil _ (by simp)]
    simp

end json

namespace json

theorem numChar_ne_space {c : Nat} (h : numChar c) : 0x21 ≤ c := by
  unfold numChar at h; omega

mutual
theorem encode_chars : ∀ v : Value, ∀ c ∈ encode v, 0x20 ≤ c
  | .null => by simp only [encode]; decide
  | .bool b => by cases b <;> (simp only [encode]; decide)
  | .number f => by
    intro c hc
    rw [encode] at hc
    have := numChar_ne_space (encodeFloat_chars f c hc); omega
  | .string s => by rw [encode]; exact appendString_chars s
  | .array items => by
    intro c hc
    rw [encode] at hc
    simp only [List.mem_append, List.mem_cons, List.mem_singleton, List.not_mem_nil,
      or_false] at hc
    rcases hc with (rfl | hc) | rfl
    · decide
    · exact encodeItems_chars items c hc
    · decide
  | .object ms => by
    intro c hc
    rw [encode] at hc
    simp only [List.mem_append, List.mem_cons, List.mem_singleton, List.not_mem_nil,
      or_false] at hc
    rcases hc with (rfl | hc) | rfl
    · decide
    · exact encodeMembers_chars ms c hc
    · decide
theorem encodeItems_chars : ∀ vs : List Value, ∀ c ∈ encodeItems vs, 0x20 ≤ c
  | [] => by simp [encodeItems]
  | v :: vs => by
    intro c hc
    rw [encodeItems, List.mem_append] at hc
    rcases hc with hc | hc
    · exact encode_chars v c hc
    · exact encodeMore_chars vs c hc
theorem encodeMore_chars : ∀ vs : List Value, ∀ c ∈ encodeMore vs, 0x20 ≤ c
  | [] => by simp [encodeMore]
  | v :: vs => by
    intro c hc
    rw [encodeMore, List.mem_append, List.mem_cons] at hc
    rcases hc with (rfl | hc) | hc
    · decide
    · exact encode_chars v c hc
    · exact encodeMore_chars vs c hc
theorem encodeMembers_chars : ∀ ms : List (GoString × Value), ∀ c ∈ encodeMembers ms, 0x20 ≤ c
  | [] => by simp [encodeMembers]
  | (k, v) :: ms => by
    intro c hc
    rw [encodeMembers, List.mem_append, List.mem_append, List.mem_cons] at hc
    rcases hc with (hc | rfl | hc) | hc
    · exact appendString_chars k c hc
    · decide
    · exact encode_chars v c hc
    · exact encodeMoreMembers_chars ms c hc
theorem encodeMoreMembers_chars : ∀ ms : List (GoString × Value),
    ∀ c ∈ encodeMoreMembers ms, 0x20 ≤ c
  | [] => by simp [encodeMoreMembers]
  | (k, v) :: ms => by
    intro c hc
    rw [encodeMoreMembers, List.mem_append, List.mem_append, List.mem_cons, List.mem_cons] at hc
    rcases hc with ((rfl | hc) | rfl | hc) | hc
    · decide
    · exact appendString_chars k c hc
    · decide
    · exact encode_chars v c hc
    · exact encodeMoreMembers_chars ms c hc
end

end json

namespace json

theorem Tight.ascii_lit {l : GoString} (h : ∀ c ∈ l, 0x21 ≤ c) : Tight l :=
  Tight.of_no_space (fun c hc => by have := h c hc; omega)

mutual
theorem encode_tight : ∀ v : Value, (∀ s ∈ v.strings, twoSpaces s = false) → Tight (encode v)
  | .null => fun _ => by rw [encode]; exact Tight.of_no_space (by decide)
  | .bool b => fun _ => by
    cases b <;> (simp only [encode]; exact Tight.of_no_space (by decide))
  | .number f => fun _ => by
    rw [encode]
    exact Tight.ascii_lit (fun c hc => numChar_ne_space (encodeFloat_chars f c hc))
  | .string s => fun h => by
    rw [encode]
    exact appendString_tight s (h s (by simp [Value.strings]))
  | .array items => fun h => by
    rw [encode]
    have := encodeItems_tight items (by simpa [Value.strings] using h)
    exact Tight.concat (Tight.cons (by decide) this) (Tight.of_no_space (by simp))
  | .object ms => fun h => by
    rw [encode]
    have := encodeMembers_tight ms (by simpa [Value.strings] using h)
    exact Tight.concat (Tight.cons (by decide) this) (Tight.of_no_space (by simp))
theorem encodeItems_tight : ∀ vs : List Value,
    (∀ s ∈ Value.stringsOfItems vs, twoSpaces s = false) → Tight (encodeItems vs)
  | [] => fun _ => by rw [encodeItems]; exact Tight.empty
  | v :: vs => fun h => by
    rw [encodeItems]
    simp only [Value.stringsOfItems, List.mem_append] at h
    exact Tight.concat (encode_tight v (fun s hs => h s (Or.inl hs)))
      (encodeMore_tight vs (fun s hs => h s (Or.inr hs)))
theorem encodeMore_tight : ∀ vs : List Value,
    (∀ s ∈ Value.stringsOfItems vs, twoSpaces s = false) → Tight (encodeMore vs)
  | [] => fun _ => by rw [encodeMore]; exact Tight.empty
  | v :: vs => fun h => by
    rw [encodeMore]
    simp only [Value.stringsOfItems, List.mem_append] at h
    exact Tight.concat (Tight.cons (by decide) (encode_tight v (fun s hs => h s (Or.inl hs))))
      (encodeMore_tight vs (fun s hs => h s (Or.inr hs)))
theorem encodeMembers_tight : ∀ ms : List (GoString × Value),
    (∀ s ∈ Value.stringsOfMembers ms, twoSpaces s = false) → Tight (encodeMembers ms)
  | [] => fun _ => by rw [encodeMembers]; exact Tight.empty
  | (k, v) :: ms => fun h => by
    rw [encodeMembers]
    simp only [Value.stringsOfMembers, List.mem_cons, List.mem_append] at h
    exact Tight.concat (Tight.concat (appendString_tight k (h k (Or.inl (Or.inl rfl))))
      (Tight.cons (by decide) (encode_tight v (fun s hs => h s (Or.inl (Or.inr hs))))))
      (encodeMoreMembers_tight ms (fun s hs => h s (Or.inr hs)))
theorem encodeMoreMembers_tight : ∀ ms : List (GoString × Value),
    (∀ s ∈ Value.stringsOfMembers ms, twoSpaces s = false) → Tight (encodeMoreMembers ms)
  | [] => fun _ => by rw [encodeMoreMembers]; exact Tight.empty
  | (k, v) :: ms => fun h => by
    rw [encodeMoreMembers]
    simp only [Value.stringsOfMembers, List.mem_cons, List.mem_append] at h
    exact Tight.concat (Tight.concat (Tight.cons (by decide)
      (appendString_tight k (h k (Or.inl (Or.inl rfl)))))
      (Tight.cons (by decide) (encode_tight v (fun s hs => h s (Or.inl (Or.inr hs))))))
      (encodeMoreMembers_tight ms (fun s hs => h s (Or.inr hs)))
end

end json

end

/-! ## `Unmarshal`, `FormatJSON` and `MinifyJSON` -/

section
open json utf8 strconv transform

namespace json

mutual
theorem toValue_ok : ∀ x : Syn, (∃ v, x.toValue = .ok v) ↔ x.inRange = true
  | .null => by simp [Syn.toValue, Syn.inRange]
  | .bool _ => by simp [Syn.toValue, Syn.inRange]
  | .str _ _ => by simp [Syn.toValue, Syn.inRange]
  | .num lit => by
    simp only [Syn.toValue, Syn.inRange]
    cases strconv.ParseFloat lit <;> simp
  | .arr items => by
    have ih := toValues_ok items
    simp only [Syn.toValue, Syn.inRange]
    rw [← ih]
    cases Syn.toValues items <;> simp
  | .obj ms => by
    have ih := toMembers_ok ms []
    simp only [Syn.toValue, Syn.inRange]
    rw [← ih]
    cases Syn.toMembers ms [] <;> simp
theorem toValues_ok : ∀ xs : List Syn, (∃ vs, Syn.toValues xs = .ok vs) ↔
    Syn.itemsInRange xs = true
  | [] => by simp [Syn.toValues, Syn.itemsInRange]
  | x :: xs => by
    have ih1 := toValue_ok x
    have ih2 := toValues_ok xs
    simp only [Syn.toValues, Syn.itemsInRange, Bool.and_eq_true]
    rw [← ih1, ← ih2]
    cases Syn.toValue x <;> cases Syn.toValues xs <;> simp
theorem toMembers_ok : ∀ (ms : List (GoString × Syn)) (acc : List (GoString × Value)),
    (∃ m, Syn.toMembers ms acc = .ok m) ↔ Syn.membersInRange ms = true
  | [], acc => by simp [Syn.toMembers, Syn.membersInRange]
  | (k, x) :: ms, acc => by
    have ih1 := toValue_ok x
    simp only [Syn.toMembers, Syn.membersInRange, Bool.and_eq_true]
    rw [← ih1]
    cases h : Syn.toValue x with
    | error e => simp
    | ok v =>
      have ih2 := toMembers_ok ms (mapSet k v acc)
      simp [ih2]
end

/-- The function `Unmarshal` succeeds exactly on the valid JSON texts whose numbers are all
within the range of `float64`. -/
theorem Unmarshal_ok (data : GoString) :
    (∃ v, Unmarshal data = .ok v) ↔ (Valid data = true ∧ numbersFit data = true) := by
  unfold Unmarshal numbersFit
  by_cases hv : Valid data = true
  · have hd := decode_isSome data hv
    obtain ⟨syn, hs⟩ := Option.isSome_iff_exists.mp hd
    simp only [hv, if_true, hs, true_and]
    exact toValue_ok syn
  · simp [hv]

theorem Unmarshal_error (data : GoString) (h : Valid data = false) :
    Unmarshal data = .error .jsonSyntax := by
  simp [Unmarshal, h]

end json

theorem FormatJSON_ok (t : GoString) (v : Value) (h : Unmarshal t = .ok v) :
    FormatJSON t = (encodeIndent 0 v, none) := by
  simp [FormatJSON, h, MarshalIndent]

theorem MinifyJSON_ok (t : GoString) (v : Value) (h : Unmarshal t = .ok v) :
    MinifyJSON t = (encode v, none) := by
  simp [MinifyJSON, h, Marshal]

theorem FormatJSON_error (t : GoString) (e : LibError) (h : Unmarshal t = .error e) :
    FormatJSON t = ([], some ⟨ascii "invalid JSON: ", some e⟩) := by
  simp [FormatJSON, h]

theorem MinifyJSON_error (t : GoString) (e : LibError) (h : Unmarshal t = .error e) :
    MinifyJSON t = ([], some ⟨ascii "invalid JSON: ", some e⟩) := by
  simp [MinifyJSON, h]

set_option exponentiation.threshold 2000 in
set_option maxRecDepth 100000 in
/-- C8, counterexample: the text `1e400` is valid JSON, yet `FormatJSON` and `MinifyJSON` fail
on it, because the number is beyond the range of `float64`. -/
theorem C8_counterexample :
    json.Valid (ascii "1e400") = true ∧
    (FormatJSON (ascii "1e400")).2 ≠ none ∧ (MinifyJSON (ascii "1e400")).2 ≠ none := by
  decide

/-- C8 (amended): `FormatJSON(t)` and `MinifyJSON(t)` succeed exactly when `t` is valid JSON
text all of whose numbers are within the range of `float64`; every failure returns the empty
string and an error whose message starts with `invalid JSON: `, and on a text that is not valid
JSON that error wraps the syntax error of the parser. -/
theorem C8_json_failure (t : GoString) :
    ((FormatJSON t).2 = none ↔ (json.Valid t = true ∧ json.numbersFit t = true)) ∧
    ((MinifyJSON t).2 = none ↔ (json.Valid t = true ∧ json.numbersFit t = true)) ∧
    ((FormatJSON t).2 ≠ none →
      ∃ err, FormatJSON t = ([], some ⟨ascii "invalid JSON: ", some err⟩)) ∧
    ((MinifyJSON t).2 ≠ none →
      ∃ err, MinifyJSON t = ([], some ⟨ascii "invalid JSON: ", some err⟩)) ∧
    (json.Valid t = false →
      FormatJSON t = ([], some ⟨ascii "invalid JSON: ", some .jsonSyntax⟩) ∧
      MinifyJSON t = ([], some ⟨ascii "invalid JSON: ", some .jsonSyntax⟩)) := by
  have key := json.Unmarshal_ok t
  cases h : json.Unmarshal t with
  | ok v =>
    have hk : json.Valid t = true ∧ json.numbersFit t = true := key.mp ⟨v, h⟩
    rw [FormatJSON_ok t v h, MinifyJSON_ok t v h]
    refine ⟨by simp [hk], by simp [hk], by simp, by simp, ?_⟩
    intro hv
    rw [hk.1] at hv
    cases hv
  | error e =>
    have hk : ¬ (json.Valid t = true ∧ json.numbersFit t = true) := by
      intro hh
      obtain ⟨v, hv⟩ := key.mpr hh
      rw [h] at hv
      cases hv
    rw [FormatJSON_error t e h, MinifyJSON_error t e h]
    refine ⟨by simp [hk], by simp [hk], fun _ => ⟨e, rfl⟩, fun _ => ⟨e, rfl⟩, ?_⟩
    intro hv
    have := json.Unmarshal_error t hv
    rw [h] at this
    cases this
    exact ⟨rfl, rfl⟩

set_option maxRecDepth 100000 in
/-- C8 at the text `{invalid}` of the spec's scenario: both functions fail with the invalid-JSON
error. -/
theorem C8_json_failure_witness :
    FormatJSON (ascii "{invalid}") = ([], some ⟨ascii "invalid JSON: ", some .jsonSyntax⟩) ∧
    MinifyJSON (ascii "{invalid}") = ([], some ⟨ascii "invalid JSON: ", some .jsonSyntax⟩) :=
  (C8_json_failure (ascii "{invalid}")).2.2.2.2 (by decide)

end

section
open json utf8 strconv transform

theorem twoSpaces_append_left {a : GoString} (b : GoString) (h : twoSpaces a = true) :
    twoSpaces (a ++ b) = true := by
  rw [twoSpaces_append, h]; simp

theorem twoSpaces_append_right (a : GoString) {b : GoString} (h : twoSpaces b = true) :
    twoSpaces (a ++ b) = true := by
  rw [twoSpaces_append, h]; simp

theorem twoSpaces_cons_of (c : Nat) {t : GoString} (h : twoSpaces t = true) :
    twoSpaces (c :: t) = true := by
  rw [twoSpaces_cons, h]; simp

theorem twoSpaces_drop_of (k : Nat) : ∀ l : GoString, (∀ x ∈ l.take k, x ≠ 0x20) →
    twoSpaces l = true → twoSpaces (l.drop k) = true := by
  induction k with
  | zero => intro l _ h; simpa using h
  | succ n ih =>
    intro l hx h
    cases l with
    | nil => simpa using h
    | cons a t =>
      have ha : a ≠ 0x20 := hx a (by simp)
      rw [twoSpaces_cons] at h
      simp only [ha, decide_False, Bool.false_and, Bool.false_or] at h
      simp only [List.drop_succ_cons]
      exact ih t (fun x hx' => hx x (by simp [hx'])) h

namespace json

/-- Two consecutive spaces of a string are written as they are. -/
theorem escapeLoop_keeps (fuel : Nat) : ∀ s : GoString, s.length ≤ fuel →
    twoSpaces s = true → twoSpaces (escapeLoop fuel s) = true := by
  induction fuel with
  | zero =>
    intro s hl h
    cases s with
    | nil => simp [twoSpaces] at h
    | cons _ _ => simp at hl
  | succ n ih =>
    intro s hl h
    cases s with
    | nil => simp [twoSpaces] at h
    | cons b rest =>
      simp only [List.length_cons, Nat.add_le_add_iff_right] at hl
      rw [escapeLoop.eq_3]
      by_cases h1 : b < 0x80
      · rw [if_pos h1]
        by_cases hr : twoSpaces rest = true
        · exact twoSpaces_append_right _ (ih rest hl hr)
        · rw [twoSpaces_cons] at h
          simp only [hr, Bool.or_false, Bool.and_eq_true, decide_eq_true_eq] at h
          obtain ⟨rfl, hh⟩ := h
          cases rest with
          | nil => simp at hh
          | cons y t =>
            simp only [List.head?_cons, Option.some.injEq] at hh
            subst hh
            cases n with
            | zero => simp at hl
            | succ m =>
              rw [escapeLoop.eq_3]
              simp [htmlSafe, twoSpaces]
      · rw [if_neg h1]
        have hb : b ≠ 0x20 := by omega
        have hr : twoSpaces rest = true := by
          rw [twoSpaces_cons] at h
          simpa [hb] using h
        dsimp only
        by_cases h3 : (DecodeRune (b :: rest)).1 = RuneError ∧ (DecodeRune (b :: rest)).2 = 1
        · rw [if_pos h3]
          exact twoSpaces_append_right _ (ih rest hl hr)
        · rw [if_neg h3]
          rcases DecodeRune_shape (b :: rest) (by simp) with he | hs
          · exfalso; apply h3; rw [he]; exact ⟨rfl, rfl⟩
          · have hn := hs.size_pos
            have hh := hs.high (by simp; omega)
            have hd : twoSpaces ((b :: rest).drop (DecodeRune (b :: rest)).2) = true :=
              twoSpaces_drop_of _ _ (fun x hx => by have := hh x hx; omega) h
            have hlen : ((b :: rest).drop (DecodeRune (b :: rest)).2).length ≤ n := by
              simp only [List.length_drop, List.length_cons]; omega
            split_ifs
            · exact twoSpaces_append_right _ (ih _ hlen hd)
            · exact twoSpaces_append_right _ (ih _ hlen hd)

theorem appendString_keeps (s : GoString) (h : twoSpaces s = true) :
    twoSpaces (appendString s) = true := by
  unfold appendString
  exact twoSpaces_append_left _ (twoSpaces_cons_of _ (escapeLoop_keeps _ s (le_refl _) h))

mutual
theorem encode_keeps : ∀ v : Value, (∃ s ∈ v.strings, twoSpaces s = true) →
    twoSpaces (encode v) = true
  | .null => fun h => by simp [Value.strings] at h
  | .bool _ => fun h => by simp [Value.strings] at h
  | .number _ => fun h => by simp [Value.strings] at h
  | .string s => fun h => by
    simp only [Value.strings, List.mem_singleton, exists_eq_left] at h
    rw [encode]
    exact appendString_keeps s h
  | .array items => fun h => by
    rw [encode]
    simp only [Value.strings] at h
    exact twoSpaces_append_left _ (twoSpaces_cons_of _ (encodeItems_keeps items h))
  | .object ms => fun h => by
    rw [encode]
    simp only [Value.strings] at h
    exact twoSpaces_append_left _ (twoSpaces_cons_of _ (encodeMembers_keeps ms h))
theorem encodeItems_keeps : ∀ vs : List Value,
    (∃ s ∈ Value.stringsOfItems vs, twoSpaces s = true) → twoSpaces (encodeItems vs) = true
  | [] => fun h => by simp [Value.stringsOfItems] at h
  | v :: vs => fun h => by
    rw [encodeItems]
    simp only [Value.stringsOfItems, List.mem_append] at h
    obtain ⟨s, hs | hs, h2⟩ := h
    · exact twoSpaces_append_left _ (encode_keeps v ⟨s, hs, h2⟩)
    · exact twoSpaces_append_right _ (encodeMore_keeps vs ⟨s, hs, h2⟩)
theorem encodeMore_keeps : ∀ vs : List Value,
    (∃ s ∈ Value.stringsOfItems vs, twoSpaces s = true) → twoSpaces (encodeMore vs) = true
  | [] => fun h => by simp [Value.stringsOfItems] at h
  | v :: vs => fun h => by
    rw [encodeMore]
    simp only [Value.stringsOfItems, List.mem_append] at h
    obtain ⟨s, hs | hs, h2⟩ := h
    · exact twoSpaces_append_left _ (twoSpaces_cons_of _ (encode_keeps v ⟨s, hs, h2⟩))
    · exact twoSpaces_append_right _ (encodeMore_keeps vs ⟨s, hs, h2⟩)
theorem encodeMembers_keeps : ∀ ms : List (GoString × Value),
    (∃ s ∈ Value.stringsOfMembers ms, twoSpaces s = true) →
      twoSpaces (encodeMembers ms) = true
  | [] => fun h => by simp [Value.stringsOfMembers] at h
  | (k, v) :: ms => fun h => by
    rw [encodeMembers]
    simp only [Value.stringsOfMembers, List.mem_cons, List.mem_append] at h
    obtain ⟨s, (rfl | hs) | hs, h2⟩ := h
    · exact twoSpaces_append_left _ (twoSpaces_append_left _ (appendString_keeps s h2))
    · exact twoSpaces_append_left _ (twoSpaces_append_right _
        (twoSpaces_cons_of _ (encode_keeps v ⟨s, hs, h2⟩)))
    · exact twoSpaces_append_right _ (encodeMoreMembers_keeps ms ⟨s, hs, h2⟩)
theorem encodeMoreMembers_keeps : ∀ ms : List (GoString × Value),
    (∃ s ∈ Value.stringsOfMembers ms, twoSpaces s = true) →
      twoSpaces (encodeMoreMembers ms) = true
  | [] => fun h => by simp [Value.stringsOfMembers] at h
  | (k, v) :: ms => fun h => by
    rw [encodeMoreMembers]
    simp only [Value.stringsOfMembers, List.mem_cons, List.mem_append] at h
    obtain ⟨s, (rfl | hs) | hs, h2⟩ := h
    · exact twoSpaces_append_left _ (twoSpaces_append_left _
        (twoSpaces_cons_of _ (appendString_keeps s h2)))
    · exact twoSpaces_append_left _ (twoSpaces_append_right _
        (twoSpaces_cons_of _ (encode_keeps v ⟨s, hs, h2⟩)))
    · exact twoSpaces_append_right _ (encodeMoreMembers_keeps ms ⟨s, hs, h2⟩)
end

/-- The compact encoding holds two consecutive spaces exactly when a string of the value
does. -/
theorem encode_twoSpaces (v : Value) :
    twoSpaces (encode v) = true ↔ ∃ s ∈ v.strings, twoSpaces s = true := by
  constructor
  · intro h
    by_contra hne
    have hall : ∀ s ∈ v.strings, twoSpaces s = false := by
      intro s hs
      cases hts : twoSpaces s with
      | false => rfl
      | true => exact absurd ⟨s, hs, hts⟩ hne
    have := (encode_tight v hall).1
    rw [h] at this
    cases this
  · exact encode_keeps v

theorem encode_no_newline (v : Value) : 0x0A ∉ encode v := by
  intro h
  have := encode_chars v _ h
  omega

/-- The indented encoding holds a line break exactly for an array or object that is not
empty. -/
theorem encodeIndent_newline (v : Value) : 0x0A ∈ encodeIndent 0 v ↔ v.filled = true := by
  cases v with
  | null => simp [encodeIndent, Value.filled]; decide
  | bool b => cases b <;> simp [encodeIndent, Value.filled] <;> decide
  | number f =>
    have := encode_no_newline (.number f)
    simp only [encode] at this
    simp [encodeIndent, Value.filled, this]
  | string s =>
    have := encode_no_newline (.string s)
    simp only [encode] at this
    simp [encodeIndent, Value.filled, this]
  | array items =>
    cases items with
    | nil => simp [encodeIndent, Value.filled]
    | cons x xs => simp [encodeIndent, Value.filled, newline]
  | object ms =>
    cases ms with
    | nil => simp [encodeIndent, Value.filled]
    | cons m ms =>
      obtain ⟨k, x⟩ := m
      simp [encodeIndent, Value.filled, newline]

end json

end

/-! ## The shape of a text and of its value -/

section
open json utf8 strconv transform

namespace json

/-! ### After the top-level value -/

theorem closed_next (d : Decoder) (c : Nat) (h : Closed d) :
    Closed (d.next c) ∧ (d.next c).top = d.top := by
  obtain ⟨⟨st, eT, ps⟩, stack, lit, top, bad⟩ := d
  obtain ⟨h1, h2, h3, h4⟩ := h
  simp only at h1 h2 h3 h4
  subst h1; subst h2; subst h3
  rcases h4 with rfl | rfl
  · by_cases hsp : isSpace c = true
    · simp [Decoder.next, Scanner.next, Scanner.stateEndTop, hsp, Decoder.flush, Closed]
    · simp [Decoder.next, Scanner.next, Scanner.stateEndTop, hsp, Decoder.flush, Closed]
  · simp [Decoder.next, Scanner.next, Decoder.flush, Closed]

theorem closed_run (data : GoString) : ∀ d : Decoder, Closed d →
    Closed (d.run data) ∧ (d.run data).top = d.top := by
  induction data with
  | nil => intro d h; exact ⟨h, rfl⟩
  | cons c t ih =>
    intro d h
    obtain ⟨h1, h2⟩ := closed_next d c h
    obtain ⟨h3, h4⟩ := ih (d.next c) h1
    exact ⟨h3, h4.trans h2⟩

/-! ### A top-level value that is not a container -/

theorem literalValue_filled (lit : GoString) (v : Syn) (h : literalValue lit = some v) :
    v.filled = false := by
  cases lit with
  | nil => simp [literalValue] at h
  | cons c rest =>
    simp only [literalValue] at h
    split_ifs at h
    · cases hu : unquote rest.dropLast with
      | none => simp [hu] at h
      | some k =>
        simp [hu] at h
        subst h
        rfl
    all_goals
      cases h
      rfl

theorem flush_top (d : Decoder) (hs : d.stack = [])
    (ht : ∀ v, d.top = some v → v.filled = false) :
    d.flush.stack = [] ∧ ∀ v, d.flush.top = some v → v.filled = false := by
  obtain ⟨scan, stack, lit, top, bad⟩ := d
  simp only at hs ht
  subst hs
  cases lit with
  | nil => exact ⟨rfl, ht⟩
  | cons c rest =>
    cases hl : literalValue (c :: rest) with
    | none =>
      simp only [Decoder.flush, hl]
      exact ⟨trivial, ht⟩
    | some v =>
      simp only [Decoder.flush, hl, Decoder.emit]
      refine ⟨trivial, ?_⟩
      intro w hw
      cases hw
      exact literalValue_filled _ _ hl

theorem next_top (st : Step) (eT : Bool) (c : Nat) (h : isBegin st = false) :
    (Scanner.next ⟨st, eT, []⟩ c).1.parseState = [] ∧
    isBegin (Scanner.next ⟨st, eT, []⟩ c).1.step = false ∧
    ((Scanner.next ⟨st, eT, []⟩ c).2 = .scanContinue ∨
      (Scanner.next ⟨st, eT, []⟩ c).2 = .scanEnd ∨
      (Scanner.next ⟨st, eT, []⟩ c).2 = .scanError) := by
  cases st <;> simp only [isBegin] at h <;> try cases h
  all_goals
    simp only [Scanner.next, Scanner.state0, Scanner.stateEndValue, Scanner.stateEndTop,
      Scanner.stateESign, Scanner.fail]
    first
    | (split_ifs <;> simp [isBegin])
    | simp [isBegin]

theorem scalar_next (d : Decoder) (c : Nat) (h : Scalar d) : Scalar (d.next c) := by
  obtain ⟨⟨st, eT, ps⟩, stack, lit, top, bad⟩ := d
  obtain ⟨h1, h2, h3, h4⟩ := h
  simp only at h1 h2 h3 h4
  subst h1; subst h2
  obtain ⟨k1, k2, k3⟩ := next_top st eT c h3
  rw [next_apply]
  simp only
  generalize Scanner.next ⟨st, eT, []⟩ c = r at k1 k2 k3
  obtain ⟨s, op⟩ := r
  simp only at k1 k2 k3
  have hf := flush_top ⟨⟨st, eT, []⟩, [], lit, top, bad⟩ rfl h4
  rcases k3 with rfl | rfl | rfl
  · exact ⟨rfl, k1, k2, h4⟩
  · exact ⟨hf.1, k1, k2, hf.2⟩
  · exact ⟨hf.1, k1, k2, hf.2⟩

theorem scalar_run (data : GoString) : ∀ d : Decoder, Scalar d → Scalar (d.run data) := by
  induction data with
  | nil => intro d h; exact h
  | cons c t ih => intro d h; exact ih _ (scalar_next d c h)


/-! ### A top-level array or object that holds something -/

theorem Pending.lit {stack : List Frame} {lit lit1 : GoString} (h : Pending stack lit)
    (hl : lit ≠ [] → lit1 ≠ []) : Pending stack lit1 := by
  obtain ⟨fs, f, h1, h2⟩ := h
  refine ⟨fs, f, h1, ?_⟩
  rcases h2 with h2 | h2 | h2
  · exact Or.inl h2
  · exact Or.inr (Or.inl h2)
  · exact Or.inr (Or.inr (hl h2))

theorem Pending.push {stack : List Frame} (f : Frame) (lit : GoString) (h : stack ≠ []) :
    Pending (f :: stack) lit := by
  obtain ⟨fs, g, rfl⟩ : ∃ fs g, stack = fs ++ [g] := by
    rcases List.eq_nil_or_concat stack with h1 | ⟨fs, g, h1⟩
    · exact absurd h1 h
    · exact ⟨fs, g, by rw [h1, List.concat_eq_append]⟩
  exact ⟨f :: fs, g, rfl, Or.inr (Or.inl (by simp))⟩

theorem Pending.stack_ne {stack : List Frame} {lit : GoString} (h : Pending stack lit) :
    stack ≠ [] := by
  obtain ⟨fs, f, h1, -⟩ := h
  rw [h1]
  simp

/-- Handing a value to the innermost container leaves the outermost container with something
in it, or with a container open inside it. -/
theorem emit_pending (d : Decoder) (v : Syn) (hs : d.stack ≠ [])
    (hb : (d.emit v).bad = false) : Pending (d.emit v).stack [] := by
  obtain ⟨scan, stack, lit, top, bad⟩ := d
  simp only at hs
  match stack, hs with
  | [.array items], _ => exact ⟨[], .array (v :: items), rfl, Or.inl rfl⟩
  | [.object ms (some k)], _ => exact ⟨[], .object ((k, v) :: ms) none, rfl, Or.inl rfl⟩
  | [.object ms none], _ =>
    cases v with
    | str b k => exact ⟨[], .object ms (some k), rfl, Or.inl (by simp [Frame.filled])⟩
    | null => simp [Decoder.emit] at hb
    | bool _ => simp [Decoder.emit] at hb
    | num _ => simp [Decoder.emit] at hb
    | arr _ => simp [Decoder.emit] at hb
    | obj _ => simp [Decoder.emit] at hb
  | .array items :: g :: fs, _ => exact Pending.push _ _ (by simp)
  | .object ms (some k) :: g :: fs, _ => exact Pending.push _ _ (by simp)
  | .object ms none :: g :: fs, _ =>
    cases v with
    | str b k => exact Pending.push _ _ (by simp)
    | null => simp [Decoder.emit] at hb
    | bool _ => simp [Decoder.emit] at hb
    | num _ => simp [Decoder.emit] at hb
    | arr _ => simp [Decoder.emit] at hb
    | obj _ => simp [Decoder.emit] at hb

/-- Closing the literal being read keeps the outermost container pending. -/
theorem flush_pending (d : Decoder) (h : Pending d.stack d.lit) (hb : d.flush.bad = false) :
    Pending d.flush.stack [] := by
  obtain ⟨scan, stack, lit, top, bad⟩ := d
  simp only at h
  cases lit with
  | nil => exact h
  | cons c rest =>
    cases hl : literalValue (c :: rest) with
    | none => simp [Decoder.flush, hl] at hb
    | some v =>
      have e : Decoder.flush ⟨scan, stack, c :: rest, top, bad⟩ =
          Decoder.emit ⟨scan, stack, [], top, bad⟩ v := by
        simp only [Decoder.flush, hl]
      rw [e] at hb ⊢
      exact emit_pending _ v h.stack_ne hb


/-- Closing the outermost container, which holds something: the top-level value is an array or
object that is not empty, and the decoder is past it. -/
theorem emit_bottom (s : Scanner) (top : Option Syn) (v : Syn) (h1 : s.parseState = [])
    (h2 : s.step = .endTop) (hv : v.filled = true) :
    Outer (Decoder.emit ⟨s, [], [], top, false⟩ v) := by
  refine Or.inr ⟨⟨rfl, rfl, h1, Or.inl h2⟩, v, rfl, hv⟩

/-- Closing a container inside the outermost one. -/
theorem emit_inner (s : Scanner) (ps : List ParseState) (fs : List Frame) (top : Option Syn)
    (v : Syn) (hw : List.Forall₂ Waiting ps fs) (hne : fs ≠ []) :
    Outer (Decoder.emit ⟨s, fs, [], top, false⟩ v) := by
  have key := emit_waiting ⟨s, fs, [], top, false⟩ v ps rfl hw
  have hp := emit_pending ⟨s, fs, [], top, false⟩ v hne key.1
  exact Or.inl (hp.lit (fun h => absurd rfl h))

theorem filled_arr (l : List Syn) (h : l ≠ []) : Syn.filled (.arr l) = true := by
  cases l with
  | nil => exact absurd rfl h
  | cons x xs => rfl

theorem filled_obj (l : List (GoString × Syn)) (h : l ≠ []) : Syn.filled (.obj l) = true := by
  cases l with
  | nil => exact absurd rfl h
  | cons x xs => rfl

theorem pending_single {f : Frame} (h : Pending [f] []) : f.filled = true := by
  obtain ⟨fs, g, h1, h2⟩ := h
  cases fs with
  | nil =>
    simp only [List.nil_append, List.cons.injEq, and_true] at h1
    subst h1
    rcases h2 with h2 | h2 | h2
    · exact h2
    · exact absurd rfl h2
    · exact absurd rfl h2
  | cons a as =>
    exfalso
    have := congrArg List.length h1
    simp at this

/-- The delimiter after a value keeps the outermost container pending, or closes it with
something in it. -/
theorem endValue_outer (d1 : Decoder) (s : Scanner) (c : Nat) (hb : d1.bad = false)
    (hl : d1.lit = []) (he : s.endTop = false)
    (hc : CtxAfter s.parseState d1.stack d1.top)
    (hne : (s.stateEndValue c).1.step ≠ .error)
    (hP : Pending d1.stack []) :
    Outer (d1.apply (s.stateEndValue c) c) := by
  obtain ⟨scan, stack, lit, top, bad⟩ := d1
  obtain ⟨st, eT, ps⟩ := s
  simp only at hb hl he hc hne hP
  subst hb; subst hl; subst he
  match ps, stack, hc with
  | [], [], hc => exact absurd rfl hP.stack_ne
  | p :: ps, f :: fs, hc =>
    obtain ⟨hf, hw⟩ := hc
    by_cases hsp : isSpace c = true
    · simp only [Scanner.stateEndValue, hsp, if_true, Decoder.apply, Decoder.flush]
      exact Or.inl hP
    · match p, f, hf with
      | .arrayValue, .array items, _ =>
        by_cases h1 : c = 0x2C
        · subst h1
          simp only [Scanner.stateEndValue, hsp, if_true, if_false, Decoder.apply, Decoder.flush]
          exact Or.inl hP
        · by_cases h2 : c = 0x5D
          · subst h2
            simp only [Scanner.stateEndValue, hsp, h1, if_true, if_false, Decoder.apply,
              Decoder.flush]
            cases hw with
            | nil =>
              have hfill := pending_single hP
              refine emit_bottom _ _ _ rfl rfl ?_
              cases items with
              | nil => simp [Frame.filled] at hfill
              | cons x xs => exact filled_arr _ (by simp)
            | cons hpf hrest => exact emit_inner _ _ _ _ _ (List.Forall₂.cons hpf hrest) (by simp)
          · simp [Scanner.stateEndValue, hsp, h1, h2, Scanner.fail] at hne
      | .objectValue, .object ms none, _ =>
        by_cases h1 : c = 0x2C
        · subst h1
          simp only [Scanner.stateEndValue, hsp, if_true, if_false, Decoder.apply, Decoder.flush]
          exact Or.inl hP
        · by_cases h2 : c = 0x7D
          · subst h2
            simp only [Scanner.stateEndValue, hsp, h1, if_true, if_false, Decoder.apply,
              Decoder.flush]
            cases hw with
            | nil =>
              have hfill := pending_single hP
              refine emit_bottom _ _ _ rfl rfl ?_
              cases ms with
              | nil => simp [Frame.filled] at hfill
              | cons x xs => exact filled_obj _ (by simp)
            | cons hpf hrest => exact emit_inner _ _ _ _ _ (List.Forall₂.cons hpf hrest) (by simp)
          · simp [Scanner.stateEndValue, hsp, h1, h2, Scanner.fail] at hne
      | .objectKey, .object ms (some k), _ =>
        by_cases h1 : c = 0x3A
        · subst h1
          simp only [Scanner.stateEndValue, hsp, if_true, if_false, Decoder.apply, Decoder.flush]
          exact Or.inl hP
        · simp [Scanner.stateEndValue, hsp, h1, Scanner.fail] at hne
      | .objectValue, .object _ (some _), hf => exact hf.elim
      | .objectKey, .object _ none, hf => exact hf.elim
      | .arrayValue, .object _ _, hf => exact hf.elim
      | .objectValue, .array _, hf => exact hf.elim
      | .objectKey, .array _, hf => exact hf.elim
  | [], _ :: _, hc => exact hc.elim
  | _ :: _, [], hc => exact hc.elim


theorem pushParseState_op (s : Scanner) (p : ParseState) (next : Step) (op : Op) :
    (s.pushParseState p next op).1.step = .error ∨ (s.pushParseState p next op).2 = op := by
  unfold Scanner.pushParseState
  by_cases h : s.parseState.length + 1 ≤ maxNestingDepth
  · rw [if_pos h]
    exact Or.inr rfl
  · rw [if_neg h]
    exact Or.inl rfl

theorem stateBeginValue_op (s : Scanner) (c : Nat) :
    (s.stateBeginValue c).1.step = .error ∨ s.stateBeginValue c = (s, .scanSkipSpace) ∨
      (s.stateBeginValue c).2 = .scanBeginObject ∨ (s.stateBeginValue c).2 = .scanBeginArray ∨
      (s.stateBeginValue c).2 = .scanBeginLiteral := by
  unfold Scanner.stateBeginValue
  by_cases h0 : isSpace c = true
  · rw [if_pos h0]
    exact Or.inr (Or.inl rfl)
  rw [if_neg h0]
  by_cases h1 : c = 0x7B
  · rw [if_pos h1]
    rcases pushParseState_op s .objectKey .beginStringOrEmpty .scanBeginObject with h | h
    · exact Or.inl h
    · exact Or.inr (Or.inr (Or.inl h))
  rw [if_neg h1]
  by_cases h2 : c = 0x5B
  · rw [if_pos h2]
    rcases pushParseState_op s .arrayValue .beginValueOrEmpty .scanBeginArray with h | h
    · exact Or.inl h
    · exact Or.inr (Or.inr (Or.inr (Or.inl h)))
  rw [if_neg h2]
  split_ifs
  all_goals first
    | exact Or.inr (Or.inr (Or.inr (Or.inr rfl)))
    | exact Or.inl rfl

theorem stateBeginString_op (s : Scanner) (c : Nat) :
    (s.stateBeginString c).1.step = .error ∨ s.stateBeginString c = (s, .scanSkipSpace) ∨
      (s.stateBeginString c).2 = .scanBeginLiteral := by
  unfold Scanner.stateBeginString
  by_cases h0 : isSpace c = true
  · rw [if_pos h0]
    exact Or.inr (Or.inl rfl)
  rw [if_neg h0]
  split_ifs
  · exact Or.inr (Or.inr rfl)
  · exact Or.inl rfl

/-- The byte that begins a value inside an open container: a literal is being read, or a
container is open inside. -/
theorem apply_begin (d : Decoder) (r : Scanner × Op) (c : Nat) (hl : d.lit = [])
    (hs : d.stack ≠ [])
    (hop : r.2 = .scanBeginObject ∨ r.2 = .scanBeginArray ∨ r.2 = .scanBeginLiteral) :
    Pending (d.apply r c).stack (d.apply r c).lit := by
  obtain ⟨scan, stack, lit, top, bad⟩ := d
  obtain ⟨s, op⟩ := r
  simp only at hl hs hop
  subst hl
  obtain ⟨fs, g, rfl⟩ : ∃ fs g, stack = fs ++ [g] := by
    rcases List.eq_nil_or_concat stack with h1 | ⟨fs, g, h1⟩
    · exact absurd h1 hs
    · exact ⟨fs, g, by rw [h1, List.concat_eq_append]⟩
  rcases hop with rfl | rfl | rfl
  · exact Pending.push _ _ hs
  · exact Pending.push _ _ hs
  · exact ⟨fs, g, rfl, Or.inr (Or.inr (by simp [Decoder.apply]))⟩

/-- A container that holds something, or has something on its way into it, stays so with every
byte the scanner accepts, until it is closed as the top-level value. -/
theorem outer_next (d : Decoder) (c : Nat) (hI : Inv d)
    (hne : (d.scan.next c).1.step ≠ .error) (hO : Outer d) : Outer (d.next c) := by
  rcases hO with hP | ⟨hC, v, hv, hf⟩
  swap
  · obtain ⟨h1, h2⟩ := closed_next d c hC
    exact Or.inr ⟨h1, v, h2.trans hv, hf⟩
  rw [next_apply]
  by_cases hs : isStr d.scan.step = true
  · have h := next_str d.scan c hs
    rw [h] at hne ⊢
    simp only at hne
    rw [apply_continue _ _ _ (by simp [hne])]
    exact Or.inl (hP.lit (fun _ => by simp))
  by_cases hd : isDone d.scan.step = true
  · rcases next_done d.scan c hd with ⟨hop, hps, het, hw, hw'⟩ | heq
    · rw [apply_continue _ _ _ hop]
      exact Or.inl (hP.lit (fun _ => by simp))
    · rw [heq] at hne ⊢
      rw [apply_flush _ _ _ (stateEndValue_op _ _)]
      obtain ⟨h1, h2, h3, h4, h5⟩ := flush_done d hI hd
      exact endValue_outer d.flush d.scan c h1 h2 h4 h5 hne (flush_pending d hP h1)
  by_cases hw : isWord d.scan.step = true
  · rcases next_word d.scan c hw (by simpa using hd) with herr | ⟨hop, hps, het, hw'⟩
    · exact absurd herr hne
    · rw [apply_continue _ _ _ hop]
      exact Or.inl (hP.lit (fun _ => by simp))
  obtain ⟨⟨st, eT, ps⟩, stack, lit, top, bad⟩ := d
  have hb := hI.bad
  have hl := hI.lit
  simp only at hb hl hs hd hw hne hP ⊢
  subst hb
  cases st <;> simp only [isStr, isDone, isWord, not_true_eq_false] at hs hd hw
  · -- beginValueOrEmpty
    simp only [LitOK] at hl
    subst hl
    by_cases h0 : isSpace c = true
    · have e : Scanner.next ⟨.beginValueOrEmpty, eT, ps⟩ c =
          (⟨.beginValueOrEmpty, eT, ps⟩, .scanSkipSpace) := by simp [Scanner.next, h0]
      rw [e]
      exact Or.inl hP
    by_cases h1 : c = 0x5D
    · subst h1
      have e : Scanner.next ⟨.beginValueOrEmpty, eT, ps⟩ 0x5D =
          Scanner.stateEndValue ⟨.beginValueOrEmpty, eT, ps⟩ 0x5D := by
        simp [Scanner.next, isSpace]
      rw [e] at hne ⊢
      obtain ⟨he, hw, -⟩ := ctx_begin _ eT ps stack top hI.ctx (Or.inr rfl)
      refine endValue_outer _ _ _ rfl rfl he ?_ hne hP
      cases hw with
      | nil => simp [Scanner.stateEndValue, Scanner.stateEndTop, isSpace] at hne
      | @cons p f ps fs hpf hrest =>
        match p, f, hpf with
        | .arrayValue, .array _, _ => exact ⟨trivial, hrest⟩
        | .objectValue, .object _ (some _), _ =>
          simp [Scanner.stateEndValue, isSpace, Scanner.fail] at hne
        | .objectValue, .object _ none, hpf => exact hpf.elim
        | .objectKey, .object _ _, hpf => exact hpf.elim
        | .arrayValue, .object _ _, hpf => exact hpf.elim
        | .objectValue, .array _, hpf => exact hpf.elim
        | .objectKey, .array _, hpf => exact hpf.elim
    · have e : Scanner.next ⟨.beginValueOrEmpty, eT, ps⟩ c =
          Scanner.stateBeginValue ⟨.beginValueOrEmpty, eT, ps⟩ c := by
        simp [Scanner.next, h0, h1]
      rw [e] at hne ⊢
      rcases stateBeginValue_op ⟨.beginValueOrEmpty, eT, ps⟩ c with h | h | h
      · exact absurd h hne
      · rw [h]
        exact Or.inl hP
      · exact Or.inl (apply_begin _ _ c rfl hP.stack_ne h)
  · -- beginValue
    simp only [LitOK] at hl
    subst hl
    have e : Scanner.next ⟨.beginValue, eT, ps⟩ c =
        Scanner.stateBeginValue ⟨.beginValue, eT, ps⟩ c := rfl
    rw [e] at hne ⊢
    rcases stateBeginValue_op ⟨.beginValue, eT, ps⟩ c with h | h | h
    · exact absurd h hne
    · rw [h]
      exact Or.inl hP
    · exact Or.inl (apply_begin _ _ c rfl hP.stack_ne h)
  · -- beginStringOrEmpty
    simp only [LitOK] at hl
    subst hl
    by_cases h0 : isSpace c = true
    · have e : Scanner.next ⟨.beginStringOrEmpty, eT, ps⟩ c =
          (⟨.beginStringOrEmpty, eT, ps⟩, .scanSkipSpace) := by simp [Scanner.next, h0]
      rw [e]
      exact Or.inl hP
    by_cases h1 : c = 0x7D
    · subst h1
      have e : Scanner.next ⟨.beginStringOrEmpty, eT, ps⟩ 0x7D =
          Scanner.stateEndValue ⟨.beginStringOrEmpty, eT, .objectValue :: ps.tail⟩ 0x7D := by
        simp [Scanner.next, isSpace]
      rw [e] at hne ⊢
      have hc := hI.ctx
      match ps, stack, hc with
      | [], [], hc => exact absurd rfl hP.stack_ne
      | p :: ps, f :: fs, hc =>
        simp only [CtxOK] at hc
        obtain ⟨he, hf, hw⟩ := hc
        refine endValue_outer _ _ _ rfl rfl he ?_ hne hP
        match p, f, hf with
        | .objectKey, .object _ none, _ => exact ⟨trivial, hw⟩
        | .objectKey, .object _ (some _), hf => simp [FrameOK] at hf
        | .arrayValue, .array _, hf => simp [FrameOK, isValStep, isStr, isWord] at hf
        | .objectValue, .object _ _, hf => simp [FrameOK, isValStep, isStr, isWord] at hf
        | .arrayValue, .object _ _, hf => exact hf.elim
        | .objectValue, .array _, hf => exact hf.elim
        | .objectKey, .array _, hf => exact hf.elim
      | [], _ :: _, hc => exact hc.elim
      | _ :: _, [], hc => exact hc.elim
    · have e : Scanner.next ⟨.beginStringOrEmpty, eT, ps⟩ c =
          Scanner.stateBeginString ⟨.beginStringOrEmpty, eT, ps⟩ c := by
        simp [Scanner.next, h0, h1]
      rw [e] at hne ⊢
      rcases stateBeginString_op ⟨.beginStringOrEmpty, eT, ps⟩ c with h | h | h
      · exact absurd h hne
      · rw [h]
        exact Or.inl hP
      · exact Or.inl (apply_begin _ _ c rfl hP.stack_ne (Or.inr (Or.inr h)))
  · -- beginString
    simp only [LitOK] at hl
    subst hl
    have e : Scanner.next ⟨.beginString, eT, ps⟩ c =
        Scanner.stateBeginString ⟨.beginString, eT, ps⟩ c := rfl
    rw [e] at hne ⊢
    rcases stateBeginString_op ⟨.beginString, eT, ps⟩ c with h | h | h
    · exact absurd h hne
    · rw [h]
      exact Or.inl hP
    · exact Or.inl (apply_begin _ _ c rfl hP.stack_ne (Or.inr (Or.inr h)))
  · -- endTop
    simp only [LitOK] at hl
    subst hl
    by_cases h0 : isSpace c = true
    · have e : Scanner.next ⟨.endTop, eT, ps⟩ c = (⟨.endTop, eT, ps⟩, .scanEnd) := by
        simp [Scanner.next, Scanner.stateEndTop, h0]
      rw [e]
      exact Or.inl hP
    · simp [Scanner.next, Scanner.stateEndTop, h0] at hne
  · -- error
    exact hl.elim

/-- The same along any input that the scanner has not rejected. -/
theorem outer_run (data : GoString) : ∀ d : Decoder, Inv d →
    (d.scan.run data).step ≠ .error → Outer d → Outer (d.run data) := by
  induction data with
  | nil => intro d _ _ hO; exact hO
  | cons c t ih =>
    intro d hI hne hO
    have h1 : (d.scan.next c).1.step ≠ .error := fun h => hne (run_error t _ h)
    have h2 := Inv.next d c hI h1
    refine ih (d.next c) h2 ?_ (outer_next d c hI h1 hO)
    rw [scan_next]
    exact hne


/-! ### The end of the input, and white space before a value -/

theorem eof_step (s : Scanner) (h : s.eof = true) : s.step ≠ .error := by
  intro he
  unfold Scanner.eof at h
  rw [if_pos he] at h
  cases h

/-- Where the input may end, no container is open. -/
theorem eof_stack (d : Decoder) (hI : Inv d) (he : d.scan.eof = true) : d.stack = [] := by
  obtain ⟨⟨st, eT, ps⟩, stack, lit, top, bad⟩ := d
  obtain ⟨hb, hl, hc⟩ := hI
  simp only at hb hl hc he ⊢
  match ps, stack, hc with
  | [], [], _ => rfl
  | p :: ps, f :: fs, hc =>
    exfalso
    simp only [CtxOK] at hc
    obtain ⟨het, -, -⟩ := hc
    subst het
    cases st
    all_goals
      simp [Scanner.eof, Scanner.next, Scanner.state0, Scanner.stateEndValue,
        Scanner.stateBeginValue, Scanner.stateBeginString, Scanner.stateEndTop,
        Scanner.stateESign, Scanner.fail, isSpace, isDigit, isHex] at he
  | [], _ :: _, hc => exact hc.elim
  | _ :: _, [], hc => exact hc.elim

/-- At the end of an input the scanner accepts, a top-level container that held something is
the top-level value. -/
theorem outer_eof (d : Decoder) (hI : Inv d) (he : d.scan.eof = true) (hO : Outer d) :
    ∃ v, d.flush.top = some v ∧ v.filled = true := by
  rcases hO with hP | ⟨hC, v, hv, hf⟩
  · exact absurd (eof_stack d hI he) hP.stack_ne
  · rw [flush_nil d hC.2.1]
    exact ⟨v, hv, hf⟩

theorem run_ok (d : Decoder) (data : GoString) (he : (d.run data).scan.eof = true) :
    (d.scan.run data).step ≠ .error := by
  rw [← scan_run]
  exact eof_step _ he

theorem next_ok (d : Decoder) (c : Nat) (r : GoString)
    (he : (d.run (c :: r)).scan.eof = true) : (d.scan.next c).1.step ≠ .error := by
  intro h
  have h1 : ((d.next c).run r).scan.eof = true := he
  have h2 := eof_step _ h1
  rw [scan_run, scan_next] at h2
  exact h2 (run_error r _ h)

/-- White space before a value, or before the first item or key of a container, changes
nothing. -/
theorem run_spaces (ws : GoString) (hws : ∀ c ∈ ws, isSpace c = true) (d : Decoder)
    (hl : d.lit = [])
    (hst : d.scan.step = .beginValue ∨ d.scan.step = .beginValueOrEmpty ∨
      d.scan.step = .beginStringOrEmpty) : d.run ws = d := by
  induction ws with
  | nil => rfl
  | cons c t ih =>
    have hc : isSpace c = true := hws c (List.mem_cons_self _ _)
    have e : d.next c = d := by
      obtain ⟨⟨st, eT, ps⟩, stack, lit, top, bad⟩ := d
      simp only at hl hst
      subst hl
      rcases hst with rfl | rfl | rfl
      · simp [Decoder.next, Scanner.next, Scanner.stateBeginValue, hc, Decoder.flush]
      · simp [Decoder.next, Scanner.next, hc, Decoder.flush]
      · simp [Decoder.next, Scanner.next, hc, Decoder.flush]
    show (d.next c).run t = d
    rw [e]
    exact ih (fun x hx => hws x (List.mem_cons_of_mem _ hx))

theorem dropWhile_head (p : Nat → Bool) : ∀ (l : GoString) (c : Nat) (r : GoString),
    l.dropWhile p = c :: r → p c ≠ true := by
  intro l
  induction l with
  | nil => intro c r h; simp at h
  | cons x xs ih =>
    intro c r h
    by_cases hx : p x = true
    · rw [List.dropWhile_cons_of_pos hx] at h
      exact ih c r h
    · rw [List.dropWhile_cons_of_neg hx] at h
      cases h
      exact hx

/-- A text as its leading white space and the rest. -/
theorem split_spaces (t : GoString) :
    ∃ ws, (∀ c ∈ ws, isSpace c = true) ∧ t = ws ++ t.dropWhile isSpace :=
  ⟨t.takeWhile isSpace, fun _ hc => List.mem_takeWhile_imp hc,
    (List.takeWhile_append_dropWhile isSpace t).symm⟩


/-! ### The first byte of a text and of a container -/

theorem stateBeginValue_first (s : Scanner) (c : Nat) (h0 : ¬ isSpace c = true) :
    (s.stateBeginValue c).1.step = .error ∨
      (s.stateBeginValue c).2 = .scanBeginObject ∨ (s.stateBeginValue c).2 = .scanBeginArray ∨
      (s.stateBeginValue c).2 = .scanBeginLiteral := by
  unfold Scanner.stateBeginValue
  rw [if_neg h0]
  by_cases h1 : c = 0x7B
  · rw [if_pos h1]
    rcases pushParseState_op s .objectKey .beginStringOrEmpty .scanBeginObject with h | h
    · exact Or.inl h
    · exact Or.inr (Or.inl h)
  rw [if_neg h1]
  by_cases h2 : c = 0x5B
  · rw [if_pos h2]
    rcases pushParseState_op s .arrayValue .beginValueOrEmpty .scanBeginArray with h | h
    · exact Or.inl h
    · exact Or.inr (Or.inr (Or.inl h))
  rw [if_neg h2]
  split_ifs
  all_goals first
    | exact Or.inr (Or.inr (Or.inr rfl))
    | exact Or.inl rfl

theorem stateBeginString_first (s : Scanner) (c : Nat) (h0 : ¬ isSpace c = true) :
    (s.stateBeginString c).1.step = .error ∨ (s.stateBeginString c).2 = .scanBeginLiteral := by
  unfold Scanner.stateBeginString
  rw [if_neg h0]
  split_ifs
  · exact Or.inr rfl
  · exact Or.inl rfl

/-- A byte that begins a value other than an array or object begins a literal, or is
rejected. -/
theorem stateBeginValue_literal (s : Scanner) (c : Nat) (h0 : ¬ isSpace c = true)
    (h1 : c ≠ 0x7B) (h2 : c ≠ 0x5B) :
    (s.stateBeginValue c).1.parseState = s.parseState ∧
      isBegin (s.stateBeginValue c).1.step = false ∧
      ((s.stateBeginValue c).2 = .scanBeginLiteral ∨ (s.stateBeginValue c).2 = .scanError) := by
  unfold Scanner.stateBeginValue
  rw [if_neg h0, if_neg h1, if_neg h2]
  split_ifs
  all_goals first
    | exact ⟨rfl, rfl, Or.inl rfl⟩
    | exact ⟨rfl, rfl, Or.inr rfl⟩

/-- After the first byte of a top-level value that is not an array or object. -/
theorem scalar_first (c : Nat) (h0 : ¬ isSpace c = true) (h1 : c ≠ 0x7B) (h2 : c ≠ 0x5B) :
    Scalar (Decoder.init.next c) := by
  obtain ⟨k1, k2, k3⟩ := stateBeginValue_literal Scanner.reset c h0 h1 h2
  have e : Decoder.init.next c = Decoder.init.apply (Scanner.reset.stateBeginValue c) c := rfl
  rw [e]
  generalize Scanner.reset.stateBeginValue c = r at k1 k2 k3
  obtain ⟨s, op⟩ := r
  simp only at k1 k2 k3
  rcases k3 with rfl | rfl
  · exact ⟨rfl, k1, k2, fun v hv => by cases hv⟩
  · exact ⟨rfl, k1, k2, fun v hv => by cases hv⟩

/-- The value of a text whose first byte begins neither an array nor an object is not a
container that holds anything. -/
theorem scalar_top (c : Nat) (r : GoString) (h0 : ¬ isSpace c = true) (h1 : c ≠ 0x7B)
    (h2 : c ≠ 0x5B) (syn : Syn) (h : ((Decoder.init.next c).run r).flush.top = some syn) :
    syn.filled = false := by
  have hS := scalar_run r _ (scalar_first c h0 h1 h2)
  exact (flush_top _ hS.1 hS.2.2.2).2 syn h

/-- The value of a container from its first byte on: with `d1` the decoder right after the
opening bracket, the value holds something exactly when the first byte after white space is not
the closing bracket. -/
theorem container_top (d1 : Decoder) (close : Nat) (r : GoString) (hI : Inv d1)
    (hl : d1.lit = [])
    (hst : d1.scan.step = .beginValue ∨ d1.scan.step = .beginValueOrEmpty ∨
      d1.scan.step = .beginStringOrEmpty)
    (hstack : d1.stack ≠ [])
    (hclose : Closed (d1.next close) ∧ ∃ v, (d1.next close).top = some v ∧ v.filled = false)
    (hopen : ∀ x, ¬ isSpace x = true → x ≠ close → (d1.scan.next x).1.step ≠ .error →
      Pending (d1.next x).stack (d1.next x).lit)
    (he : (d1.run r).scan.eof = true) (syn : Syn) (h : (d1.run r).flush.top = some syn) :
    syn.filled = (match r.dropWhile isSpace with
      | [] => false
      | x :: _ => decide (x ≠ close)) := by
  obtain ⟨ws, hws, hr⟩ := split_spaces r
  have hrun : d1.run r = d1.run (r.dropWhile isSpace) := by
    conv_lhs => rw [hr]
    rw [run_append, run_spaces ws hws d1 hl hst]
  rw [hrun] at he h
  cases hrest : r.dropWhile isSpace with
  | nil =>
    rw [hrest] at he
    exact absurd (eof_stack d1 hI he) hstack
  | cons x r2 =>
    rw [hrest] at he h
    have hx := dropWhile_head isSpace r x r2 hrest
    have e : d1.run (x :: r2) = (d1.next x).run r2 := rfl
    by_cases hxc : x = close
    · subst hxc
      obtain ⟨hC, v, hv, hf⟩ := hclose
      obtain ⟨k1, k2⟩ := closed_run r2 _ hC
      rw [e, flush_nil _ k1.2.1, k2, hv] at h
      cases h
      simp [hf]
    · have hne := next_ok d1 x r2 he
      have hI2 := Inv.next d1 x hI hne
      have hO : Outer (d1.next x) := Or.inl (hopen x hx hxc hne)
      rw [e] at he h
      have hne2 := run_ok _ r2 he
      have hI3 := Inv.run r2 _ hI2 hne2
      have hO3 := outer_run r2 _ hI2 hne2 hO
      obtain ⟨v, hv, hf⟩ := outer_eof _ hI3 he hO3
      rw [hv] at h
      cases h
      simp [hf, hxc]

/-- The decoder right after the bracket that opens a top-level array. -/
theorem init_array : Decoder.init.next 0x5B =
    ⟨⟨.beginValueOrEmpty, false, [.arrayValue]⟩, [.array []], [], none, false⟩ := by
  rfl

/-- The decoder right after the brace that opens a top-level object. -/
theorem init_object : Decoder.init.next 0x7B =
    ⟨⟨.beginStringOrEmpty, false, [.objectKey]⟩, [.object [] none], [], none, false⟩ := by
  rfl


/-- The first byte of the first item of an array. -/
theorem array_open (x : Nat) (hx : ¬ isSpace x = true) (hxc : x ≠ 0x5D)
    (hne : (Scanner.next ⟨.beginValueOrEmpty, false, [.arrayValue]⟩ x).1.step ≠ .error) :
    Pending
      (Decoder.next ⟨⟨.beginValueOrEmpty, false, [.arrayValue]⟩, [.array []], [], none, false⟩
        x).stack
      (Decoder.next ⟨⟨.beginValueOrEmpty, false, [.arrayValue]⟩, [.array []], [], none, false⟩
        x).lit := by
  rw [next_apply]
  have e : Scanner.next ⟨.beginValueOrEmpty, false, [.arrayValue]⟩ x =
      Scanner.stateBeginValue ⟨.beginValueOrEmpty, false, [.arrayValue]⟩ x := by
    simp [Scanner.next, hx, hxc]
  simp only
  rw [e] at hne ⊢
  rcases stateBeginValue_first ⟨.beginValueOrEmpty, false, [.arrayValue]⟩ x hx with h | h
  · exact absurd h hne
  · exact apply_begin _ _ x rfl (by simp) h

/-- The first byte of the first key of an object. -/
theorem object_open (x : Nat) (hx : ¬ isSpace x = true) (hxc : x ≠ 0x7D)
    (hne : (Scanner.next ⟨.beginStringOrEmpty, false, [.objectKey]⟩ x).1.step ≠ .error) :
    Pending
      (Decoder.next ⟨⟨.beginStringOrEmpty, false, [.objectKey]⟩, [.object [] none], [], none,
        false⟩ x).stack
      (Decoder.next ⟨⟨.beginStringOrEmpty, false, [.objectKey]⟩, [.object [] none], [], none,
        false⟩ x).lit := by
  rw [next_apply]
  have e : Scanner.next ⟨.beginStringOrEmpty, false, [.objectKey]⟩ x =
      Scanner.stateBeginString ⟨.beginStringOrEmpty, false, [.objectKey]⟩ x := by
    simp [Scanner.next, hx, hxc]
  simp only
  rw [e] at hne ⊢
  rcases stateBeginString_first ⟨.beginStringOrEmpty, false, [.objectKey]⟩ x hx with h | h
  · exact absurd h hne
  · exact apply_begin _ _ x rfl (by simp) (Or.inr (Or.inr h))

/-- The syntax tree of a valid JSON text is an array or object that holds something exactly
when the text, after leading white space, opens with a bracket or brace that is not followed, after
white space, by the closing one. -/
theorem decode_filled (t : GoString) (hv : Valid t = true) (syn : Syn)
    (h : decode t = some syn) : syn.filled = textFilled t := by
  have he : (Decoder.init.run t).scan.eof = true := by
    rw [scan_run]; exact hv
  have htop : (Decoder.init.run t).flush.top = some syn := by
    unfold decode at h
    simp only at h
    split_ifs at h
    exact h
  obtain ⟨ws, hws, hr⟩ := split_spaces t
  have hrun : Decoder.init.run t = Decoder.init.run (t.dropWhile isSpace) := by
    conv_lhs => rw [hr]
    rw [run_append, run_spaces ws hws Decoder.init rfl (Or.inl rfl)]
  rw [hrun] at he htop
  unfold textFilled
  cases hrest : t.dropWhile isSpace with
  | nil =>
    rw [hrest] at htop
    cases htop
  | cons c r =>
    rw [hrest] at he htop
    have hc := dropWhile_head isSpace t c r hrest
    have e : Decoder.init.run (c :: r) = (Decoder.init.next c).run r := rfl
    rw [e] at he htop
    have hI := Inv.next Decoder.init c Inv.init (next_ok Decoder.init c r he)
    simp only
    by_cases h1 : c = 0x5B
    · subst h1
      rw [if_pos rfl]
      rw [init_array] at he htop hI
      exact container_top _ 0x5D r hI rfl (Or.inr (Or.inl rfl)) (by simp)
        ⟨⟨rfl, rfl, rfl, Or.inl rfl⟩, .arr [], rfl, rfl⟩ array_open he syn htop
    rw [if_neg h1]
    by_cases h2 : c = 0x7B
    · subst h2
      rw [if_pos rfl]
      rw [init_object] at he htop hI
      exact container_top _ 0x7D r hI rfl (Or.inr (Or.inr rfl)) (by simp)
        ⟨⟨rfl, rfl, rfl, Or.inl rfl⟩, .obj [], rfl, rfl⟩ object_open he syn htop
    rw [if_neg h2]
    exact scalar_top c r hc h2 h1 syn htop


/-! ### The value `Unmarshal` stores for a container -/

theorem mapSet_ne (k : GoString) (v : Value) (ms : List (GoString × Value)) :
    mapSet k v ms ≠ [] := by
  cases ms with
  | nil => simp [mapSet]
  | cons m ms =>
    obtain ⟨k1, v1⟩ := m
    simp only [mapSet]
    split_ifs <;> simp

theorem toMembers_ne : ∀ (ms : List (GoString × Syn)) (acc m : List (GoString × Value)),
    Syn.toMembers ms acc = .ok m → acc ≠ [] → m ≠ []
  | [], acc, m, h, hacc => by
    simp only [Syn.toMembers] at h
    cases h
    exact hacc
  | (k, x) :: ms, acc, m, h, _ => by
    simp only [Syn.toMembers] at h
    cases hx : Syn.toValue x with
    | error err => rw [hx] at h; cases h
    | ok v =>
      rw [hx] at h
      exact toMembers_ne ms _ m h (mapSet_ne k v acc)

/-- The value stored for a syntax tree is an array or map that holds something exactly when the
syntax tree is. -/
theorem toValue_filled (x : Syn) (v : Value) (h : x.toValue = .ok v) :
    v.filled = x.filled := by
  cases x with
  | null => simp only [Syn.toValue] at h; cases h; rfl
  | bool b => simp only [Syn.toValue] at h; cases h; rfl
  | num lit =>
    simp only [Syn.toValue] at h
    cases hp : ParseFloat lit with
    | none => rw [hp] at h; cases h
    | some f => rw [hp] at h; cases h; rfl
  | str b s => simp only [Syn.toValue] at h; cases h; rfl
  | arr items =>
    simp only [Syn.toValue] at h
    cases items with
    | nil =>
      simp only [Syn.toValues] at h
      cases h
      rfl
    | cons y ys =>
      simp only [Syn.toValues] at h
      cases hy : Syn.toValue y with
      | error err => rw [hy] at h; cases h
      | ok w =>
        rw [hy] at h
        cases hys : Syn.toValues ys with
        | error err => rw [hys] at h; cases h
        | ok ws => rw [hys] at h; cases h; rfl
  | obj ms =>
    simp only [Syn.toValue] at h
    cases ms with
    | nil =>
      simp only [Syn.toMembers] at h
      cases h
      rfl
    | cons m ms =>
      obtain ⟨k, y⟩ := m
      cases hm : Syn.toMembers ((k, y) :: ms) [] with
      | error err => rw [hm] at h; cases h
      | ok mm =>
        rw [hm] at h
        cases h
        simp only [Syn.toMembers] at hm
        cases hy : Syn.toValue y with
        | error err => rw [hy] at hm; cases hm
        | ok w =>
          rw [hy] at hm
          have hne := toMembers_ne ms _ mm hm (mapSet_ne k w [])
          cases mm with
          | nil => exact absurd rfl hne
          | cons a as => rfl

/-- The value of a valid JSON text is an array or map that holds something exactly when the
text writes an array or object that is not empty. -/
theorem Unmarshal_filled (t : GoString) (v : Value) (h : Unmarshal t = .ok v) :
    v.filled = textFilled t := by
  unfold Unmarshal at h
  by_cases hv : Valid t = true
  · rw [if_pos hv] at h
    cases hd : decode t with
    | none => rw [hd] at h; cases h
    | some syn =>
      rw [hd] at h
      rw [toValue_filled syn v h]
      exact decode_filled t hv syn hd
  · rw [if_neg hv] at h
    cases h

end json

end

section
open json utf8 strconv transform

set_option maxRecDepth 100000 in
/-- C9, counterexample: the texts `true` and `{}` are valid JSON and `FormatJSON` succeeds on
them, but its output is the same text, with no newline in it. -/
theorem C9_counterexample :
    json.Valid (ascii "true") = true ∧ FormatJSON (ascii "true") = (ascii "true", none) ∧
    0x0A ∉ (FormatJSON (ascii "true")).1 ∧
    json.Valid (ascii "\x7b\x7d") = true ∧
    FormatJSON (ascii "\x7b\x7d") = (ascii "\x7b\x7d", none) ∧
    0x0A ∉ (FormatJSON (ascii "\x7b\x7d")).1 := by
  decide

/-- C9 (amended): for every valid JSON text `t` whose numbers are within the range of
`float64`, `FormatJSON(t)` succeeds with the indented encoding of the value of `t`, and its
output contains a newline exactly when `t` writes an array or object that is not empty (after
leading white space `t` opens with a bracket or brace, and the next byte that is not white space
is not the closing one); a scalar and an empty array or object are written on one line. -/
theorem C9_format_newline (t : GoString) (hv : json.Valid t = true)
    (hn : json.numbersFit t = true) :
    (FormatJSON t).2 = none ∧
    (0x0A ∈ (FormatJSON t).1 ↔ json.textFilled t = true) ∧
    ∃ v, json.Unmarshal t = .ok v ∧ FormatJSON t = (json.encodeIndent 0 v, none) ∧
      v.filled = json.textFilled t := by
  obtain ⟨v, h⟩ := (json.Unmarshal_ok t).mpr ⟨hv, hn⟩
  have hf := FormatJSON_ok t v h
  have hs := json.Unmarshal_filled t v h
  refine ⟨by rw [hf], ?_, v, h, hf, hs⟩
  rw [hf, ← hs]
  exact json.encodeIndent_newline v

set_option maxRecDepth 100000 in
/-- C9 at the texts `[true]` and `[ ]`: the first is an array that is not empty, and
`FormatJSON` writes it on three lines; the second is an empty array, written without a
newline. -/
theorem C9_format_newline_witness :
    json.Valid (ascii "[true]") = true ∧ json.numbersFit (ascii "[true]") = true ∧
    json.textFilled (ascii "[true]") = true ∧
    0x0A ∈ (FormatJSON (ascii "[true]")).1 ∧
    FormatJSON (ascii "[true]") = (ascii "[\n  true\n]", none) ∧
    json.textFilled (ascii " [ ] ") = false ∧
    0x0A ∉ (FormatJSON (ascii " [ ] ")).1 :=
  ⟨by decide, by decide, by decide,
    (C9_format_newline (ascii "[true]") (by decide) (by decide)).2.1.mpr (by decide),
    by decide, by decide,
    mt (C9_format_newline (ascii " [ ] ") (by decide) (by decide)).2.1.mp (by decide)⟩

set_option maxRecDepth 100000 in
/-- C10, counterexample: the text `"a  b"`, a string with two spaces between the letters, is
valid JSON; `MinifyJSON` succeeds on it and returns the same text, which contains two
consecutive spaces. -/
theorem C10_counterexample :
    json.Valid (ascii "\"a  b\"") = true ∧
    MinifyJSON (ascii "\"a  b\"") = (ascii "\"a  b\"", none) ∧
    twoSpaces (MinifyJSON (ascii "\"a  b\"")).1 = true := by
  decide

/-- C10 (amended): for every valid JSON text `t` whose numbers are within the range of
`float64`, `MinifyJSON(t)` succeeds with the compact encoding of the decoded value; its output
contains no newline, and it contains two consecutive spaces exactly when a string value or a key
of the decoded value does. -/
theorem C10_minify_spaces (t : GoString) (hv : json.Valid t = true)
    (hn : json.numbersFit t = true) :
    ∃ v, json.Unmarshal t = .ok v ∧ MinifyJSON t = (json.encode v, none) ∧
      0x0A ∉ (MinifyJSON t).1 ∧
      (twoSpaces (MinifyJSON t).1 = true ↔ ∃ s ∈ v.strings, twoSpaces s = true) := by
  obtain ⟨v, h⟩ := (json.Unmarshal_ok t).mpr ⟨hv, hn⟩
  refine ⟨v, h, MinifyJSON_ok t v h, ?_, ?_⟩
  · rw [MinifyJSON_ok t v h]
    exact json.encode_no_newline v
  · rw [MinifyJSON_ok t v h]
    exact json.encode_twoSpaces v

set_option maxRecDepth 100000 in
/-- C10 at the text `[ "a b" , true ]`: the output has no newline and no two consecutive
spaces. -/
theorem C10_minify_spaces_witness :
    json.Valid (ascii "[ \"a b\" , true ]") = true ∧
    json.numbersFit (ascii "[ \"a b\" , true ]") = true ∧
    ∃ v, json.Unmarshal (ascii "[ \"a b\" , true ]") = .ok v ∧
      MinifyJSON (ascii "[ \"a b\" , true ]") = (json.encode v, none) ∧
      0x0A ∉ (MinifyJSON (ascii "[ \"a b\" , true ]")).1 ∧
      (twoSpaces (MinifyJSON (ascii "[ \"a b\" , true ]")).1 = true ↔
        ∃ s ∈ v.strings, twoSpaces s = true) :=
  ⟨by decide, by decide, C10_minify_spaces (ascii "[ \"a b\" , true ]") (by decide) (by decide)⟩

end

/-! ## Base64 and URL escaping: decoding what was encoded -/

section
open base64 url

namespace base64

theorem encodeStd_lt (n : Nat) :
    encodeStd n ≠ 0x3D ∧ encodeStd n ≠ 0x0A ∧ encodeStd n ≠ 0x0D := by
  unfold encodeStd
  dsimp only
  split_ifs <;> omega

theorem decodeStd_encodeStd (n : Nat) : decodeStd (encodeStd n) = some (n % 64) := by
  unfold encodeStd decodeStd
  dsimp only
  have h : n % 64 < 64 := Nat.mod_lt _ (by decide)
  by_cases h1 : n % 64 < 26
  · have e1 : 0x41 ≤ 0x41 + n % 64 ∧ 0x41 + n % 64 ≤ 0x5A := by omega
    simp only [h1, if_true, e1, and_self]
    congr 1
    omega
  by_cases h2 : n % 64 < 52
  · have e1 : ¬ (0x41 ≤ 0x61 + (n % 64 - 26) ∧ 0x61 + (n % 64 - 26) ≤ 0x5A) := by omega
    have e2 : 0x61 ≤ 0x61 + (n % 64 - 26) ∧ 0x61 + (n % 64 - 26) ≤ 0x7A := by omega
    simp only [h1, h2, if_true, if_false, e1, e2, and_self]
    congr 1
    omega
  by_cases h3 : n % 64 < 62
  · have e1 : ¬ (0x41 ≤ 0x30 + (n % 64 - 52) ∧ 0x30 + (n % 64 - 52) ≤ 0x5A) := by omega
    have e2 : ¬ (0x61 ≤ 0x30 + (n % 64 - 52) ∧ 0x30 + (n % 64 - 52) ≤ 0x7A) := by omega
    have e3 : 0x30 ≤ 0x30 + (n % 64 - 52) ∧ 0x30 + (n % 64 - 52) ≤ 0x39 := by omega
    simp only [h1, h2, h3, if_true, if_false, e1, e2, e3, and_self]
    congr 1
    omega
  by_cases h4 : n % 64 = 62
  · simp [h4]
  · have h5 : n % 64 = 63 := by omega
    simp [h5]

theorem EncodeToString_chars : ∀ t : GoString, ∀ x ∈ EncodeToString t, x ≠ 0x0A ∧ x ≠ 0x0D
  | [] => by simp [EncodeToString]
  | [a] => by
    have h1 := encodeStd_lt (a / 4)
    have h2 := encodeStd_lt (a % 4 * 16)
    intro x hx
    simp only [EncodeToString, List.mem_cons, List.mem_singleton, List.not_mem_nil,
      or_false] at hx
    rcases hx with rfl | rfl | rfl | rfl
    · exact h1.2
    · exact h2.2
    · decide
    · decide
  | [a, b] => by
    have h1 := encodeStd_lt (a / 4)
    have h2 := encodeStd_lt (a % 4 * 16 + b / 16)
    have h3 := encodeStd_lt (b % 16 * 4)
    intro x hx
    simp only [EncodeToString, List.mem_cons, List.mem_singleton, List.not_mem_nil,
      or_false] at hx
    rcases hx with rfl | rfl | rfl | rfl
    · exact h1.2
    · exact h2.2
    · exact h3.2
    · decide
  | a :: b :: c :: rest => by
    have ih := EncodeToString_chars rest
    have h1 := encodeStd_lt (a / 4)
    have h2 := encodeStd_lt (a % 4 * 16 + b / 16)
    have h3 := encodeStd_lt (b % 16 * 4 + c / 64)
    have h4 := encodeStd_lt c
    intro x hx
    simp only [EncodeToString, List.mem_cons] at hx
    rcases hx with rfl | rfl | rfl | rfl | hx
    · exact h1.2
    · exact h2.2
    · exact h3.2
    · exact h4.2
    · exact ih x hx

/-- The encoded text has no line breaks, so `DecodeString` skips nothing in it. -/
theorem EncodeToString_filter (t : GoString) :
    (EncodeToString t).filter (fun c => c ≠ 0x0A ∧ c ≠ 0x0D) = EncodeToString t := by
  rw [List.filter_eq_self]
  intro x hx
  simpa using EncodeToString_chars t x hx

/-- Decoding the encoded text of a byte string gives the byte string. -/
theorem decodeQuanta_EncodeToString : ∀ t : GoString, (∀ x ∈ t, x < 256) →
    decodeQuanta (EncodeToString t) = some t
  | [] => fun _ => rfl
  | [a] => fun h => by
    have ha := h a (by simp)
    simp only [EncodeToString, decodeQuanta, decodeStd_encodeStd, if_true]
    congr 2
    omega
  | [a, b] => fun h => by
    have ha := h a (by simp)
    have hb := h b (by simp)
    have h3 := encodeStd_lt (b % 16 * 4)
    simp only [EncodeToString, decodeQuanta, decodeStd_encodeStd, if_true, h3.1, if_false]
    congr 2
    · omega
    · congr 1
      omega
  | [a, b, c] => fun h => by
    have ha := h a (by simp)
    have hb := h b (by simp)
    have hc := h c (by simp)
    have h3 := encodeStd_lt (b % 16 * 4 + c / 64)
    have h4 := encodeStd_lt c
    simp only [EncodeToString, decodeQuanta, decodeStd_encodeStd, h3.1, h4.1, if_false]
    congr 2
    · omega
    · congr 1
      · omega
      · congr 1
        omega
  | a :: b :: c :: d :: rest => fun h => by
    have ha := h a (by simp)
    have hb := h b (by simp)
    have hc := h c (by simp)
    have ih := decodeQuanta_EncodeToString (d :: rest) (fun x hx => h x (by simp [hx]))
    have hne : ∃ y ys, EncodeToString (d :: rest) = y :: ys := by
      match rest with
      | [] => exact ⟨_, _, rfl⟩
      | [_] => exact ⟨_, _, rfl⟩
      | _ :: _ :: _ => exact ⟨_, _, rfl⟩
    obtain ⟨y, ys, hy⟩ := hne
    rw [EncodeToString, hy, decodeQuanta, ← hy, ih]
    · simp only [decodeStd_encodeStd]
      congr 2
      · omega
      · congr 1
        · omega
        · congr 1
          omega
    · intro hh
      cases hh

theorem DecodeString_EncodeToString (t : GoString) (h : ∀ x ∈ t, x < 256) :
    DecodeString (EncodeToString t) = some t := by
  unfold DecodeString
  rw [EncodeToString_filter]
  exact decodeQuanta_EncodeToString t h

end base64

end

section
open base64 url

namespace base64

theorem EncodeToString_alphabet : ∀ t : GoString, ∀ x ∈ EncodeToString t, isStdChar x = true
  | [] => by simp [EncodeToString]
  | [a] => by
    intro x hx
    simp only [EncodeToString, List.mem_cons, List.mem_singleton, List.not_mem_nil,
      or_false] at hx
    rcases hx with rfl | rfl | rfl | rfl <;> simp [isStdChar, decodeStd_encodeStd]
  | [a, b] => by
    intro x hx
    simp only [EncodeToString, List.mem_cons, List.mem_singleton, List.not_mem_nil,
      or_false] at hx
    rcases hx with rfl | rfl | rfl | rfl <;> simp [isStdChar, decodeStd_encodeStd]
  | a :: b :: c :: rest => by
    have ih := EncodeToString_alphabet rest
    intro x hx
    simp only [EncodeToString, List.mem_cons] at hx
    rcases hx with rfl | rfl | rfl | rfl | hx
    · simp [isStdChar, decodeStd_encodeStd]
    · simp [isStdChar, decodeStd_encodeStd]
    · simp [isStdChar, decodeStd_encodeStd]
    · simp [isStdChar, decodeStd_encodeStd]
    · exact ih x hx

theorem EncodeToString_length : ∀ t : GoString,
    (EncodeToString t).length = 4 * ((t.length + 2) / 3)
  | [] => rfl
  | [_] => by simp [EncodeToString]
  | [_, _] => by simp [EncodeToString]
  | a :: b :: c :: rest => by
    have ih := EncodeToString_length rest
    simp only [EncodeToString, List.length_cons, ih]
    omega

end base64

namespace url

theorem upperhex_spec (n : Nat) :
    ishex (upperhex n) = true ∧ unhex (upperhex n) = n % 16 ∧ upperhex n ≠ 0x2B ∧
      upperhex n ≠ 0x25 ∧ upperhex n ≠ 0x20 := by
  unfold upperhex
  have h : n % 16 < 16 := Nat.mod_lt _ (by decide)
  generalize n % 16 = m at h ⊢
  by_cases h1 : m < 10
  · simp only [h1, if_true, ishex, unhex]
    have e1 : 0x30 ≤ 0x30 + m ∧ 0x30 + m ≤ 0x39 := by omega
    simp only [e1, and_self, if_true, decide_True, Bool.and_self, Bool.true_or, true_and]
    omega
  · simp only [h1, if_false, ishex, unhex]
    have e1 : ¬ (0x30 ≤ 0x41 + (m - 10) ∧ 0x41 + (m - 10) ≤ 0x39) := by omega
    have e2 : ¬ (0x61 ≤ 0x41 + (m - 10) ∧ 0x41 + (m - 10) ≤ 0x66) := by omega
    have e3 : 0x41 ≤ 0x41 + (m - 10) ∧ 0x41 + (m - 10) ≤ 0x46 := by omega
    simp only [e1, e2, e3, if_true, if_false, Bool.or_eq_true, Bool.and_eq_true,
      decide_eq_true_eq, and_self]
    refine ⟨Or.inr trivial, ?_⟩
    omega

/-- Unescaping the escaped text of a byte string gives the byte string. -/
theorem QueryUnescape_QueryEscape : ∀ t : GoString, (∀ x ∈ t, x < 256) →
    QueryUnescape (QueryEscape t) = some t
  | [] => fun _ => rfl
  | c :: rest => fun h => by
    have hc := h c (by simp)
    have ih := QueryUnescape_QueryEscape rest (fun x hx => h x (by simp [hx]))
    rw [QueryEscape]
    by_cases h1 : c = 0x20
    · subst h1
      rw [if_pos rfl, QueryUnescape.eq_def]
      simp only [ih]
      rfl
    rw [if_neg h1]
    by_cases h2 : shouldEscape c = true
    · rw [if_pos h2]
      have u1 := upperhex_spec (c / 16)
      have u2 := upperhex_spec c
      rw [QueryUnescape.eq_def]
      simp only [u1.1, u2.1, and_self, if_true, ih, Option.map_some', u1.2.1, u2.2.1]
      congr 2
      omega
    · rw [if_neg h2]
      have h3 : c ≠ 0x25 := by
        rintro rfl
        exact h2 (by decide)
      have h4 : c ≠ 0x2B := by
        rintro rfl
        exact h2 (by decide)
      rw [QueryUnescape.eq_def]
      simp only [h3, h4, if_false, ih]
      rfl

/-- The `+` characters of the escaped text are the spaces of the text. -/
theorem QueryEscape_plus : ∀ t : GoString,
    (QueryEscape t).count 0x2B = t.count 0x20 ∧ 0x20 ∉ QueryEscape t
  | [] => by simp [QueryEscape]
  | c :: rest => by
    have ih := QueryEscape_plus rest
    rw [QueryEscape]
    by_cases h1 : c = 0x20
    · subst h1
      simp [ih.1, ih.2]
    rw [if_neg h1]
    have hc : (0x20 : Nat) ≠ c := fun hh => h1 hh.symm
    by_cases h2 : shouldEscape c = true
    · rw [if_pos h2]
      have u1 := upperhex_spec (c / 16)
      have u2 := upperhex_spec c
      have v1 : upperhex (c / 16) ≠ 0x20 := u1.2.2.2.2
      have v2 : upperhex c ≠ 0x20 := u2.2.2.2.2
      refine ⟨?_, ?_⟩
      · rw [List.count_cons_of_ne (by decide), List.count_cons_of_ne (Ne.symm u1.2.2.1),
          List.count_cons_of_ne (Ne.symm u2.2.2.1), ih.1, List.count_cons_of_ne hc]
      · simp only [List.mem_cons, not_or]
        exact ⟨by decide, fun hh => v1 hh.symm, fun hh => v2 hh.symm, ih.2⟩
    · rw [if_neg h2]
      have h4 : c ≠ 0x2B := by
        rintro rfl
        exact h2 (by decide)
      refine ⟨?_, ?_⟩
      · rw [List.count_cons_of_ne (Ne.symm h4), ih.1, List.count_cons_of_ne hc]
      · simp only [List.mem_cons, not_or]
        exact ⟨hc, ih.2⟩

end url

/-- C11: for every text `t` (a string of bytes), `Base64Encode(t)` succeeds, and
`Base64Decode` of its result succeeds and returns exactly `t`; the encoded text has four
characters for every three bytes or part thereof, all of them characters of the standard
alphabet or the padding `=`. -/
theorem C11_base64_roundtrip (t : GoString) (ht : ∀ x ∈ t, x < 256) :
    (transform.Base64Encode t).2 = none ∧
    transform.Base64Decode (transform.Base64Encode t).1 = (t, none) ∧
    (transform.Base64Encode t).1.length = 4 * ((t.length + 2) / 3) ∧
    ∀ x ∈ (transform.Base64Encode t).1, base64.isStdChar x = true := by
  refine ⟨rfl, ?_, base64.EncodeToString_length t, base64.EncodeToString_alphabet t⟩
  simp only [transform.Base64Encode, transform.Base64Decode,
    base64.DecodeString_EncodeToString t ht]

set_option maxRecDepth 100000 in
/-- C11 at the text `hello world` of `TestBase64`. -/
theorem C11_base64_roundtrip_witness :
    (∀ x ∈ ascii "hello world", x < 256) ∧
    (transform.Base64Encode (ascii "hello world")).1 = ascii "aGVsbG8gd29ybGQ=" ∧
    transform.Base64Decode (transform.Base64Encode (ascii "hello world")).1 =
      (ascii "hello world", none) :=
  ⟨by decide, by decide, (C11_base64_roundtrip (ascii "hello world") (by decide)).2.1⟩

/-- C12: for every text `t` (a string of bytes), `URLEncode(t)` succeeds, and `URLDecode` of
its result succeeds and returns exactly `t`; the encoded text holds no space, and its `+`
characters are the spaces of `t`, a `+` of `t` itself being written as `%2B`. -/
theorem C12_url_roundtrip (t : GoString) (ht : ∀ x ∈ t, x < 256) :
    (transform.URLEncode t).2 = none ∧
    transform.URLDecode (transform.URLEncode t).1 = (t, none) ∧
    0x20 ∉ (transform.URLEncode t).1 ∧
    (transform.URLEncode t).1.count 0x2B = t.count 0x20 := by
  refine ⟨rfl, ?_, (url.QueryEscape_plus t).2, (url.QueryEscape_plus t).1⟩
  simp only [transform.URLEncode, transform.URLDecode, url.QueryUnescape_QueryEscape t ht]

set_option maxRecDepth 100000 in
/-- C12 at the text `hello world & test=value` of `TestURLEncodeDecode` and at `a+b %&=`. -/
theorem C12_url_roundtrip_witness :
    (∀ x ∈ ascii "hello world & test=value", x < 256) ∧
    (transform.URLEncode (ascii "hello world & test=value")).1 =
      ascii "hello+world+%26+test%3Dvalue" ∧
    transform.URLDecode (transform.URLEncode (ascii "hello world & test=value")).1 =
      (ascii "hello world & test=value", none) ∧
    (transform.URLEncode (ascii "a+b %&=")).1 = ascii "a%2Bb+%25%26%3D" ∧
    transform.URLDecode (transform.URLEncode (ascii "a+b %&=")).1 = (ascii "a+b %&=", none) :=
  ⟨by decide, by decide,
    (C12_url_roundtrip (ascii "hello world & test=value") (by decide)).2.1, by decide,
    (C12_url_roundtrip (ascii "a+b %&=") (by decide)).2.1⟩

end

/-! ## `Reverse`: the runes of a text and the swap loop -/

section
open transform utf8

theorem swap_length (runes : List Nat) (i j : Nat) : (swap runes i j).length = runes.length := by
  simp [swap]

theorem swap_getElem? (runes : List Nat) (i j x : Nat) (hi : i < runes.length)
    (hj : j < runes.length) :
    (swap runes i j)[x]? =
      if x = j then runes[i]? else if x = i then runes[j]? else runes[x]? := by
  unfold swap
  rw [List.getElem?_set]
  by_cases h1 : j = x
  · subst h1
    simp [hi, hj, List.getD_eq_getElem?_getD, List.getElem?_eq_getElem hi]
  · have h1' : ¬ x = j := fun h => h1 h.symm
    rw [if_neg h1, if_neg h1', List.getElem?_set]
    by_cases h2 : i = x
    · subst h2
      simp [hi, hj, List.getD_eq_getElem?_getD, List.getElem?_eq_getElem hj]
    · have h2' : ¬ x = i := fun h => h2 h.symm
      rw [if_neg h2, if_neg h2']

/-- The loop of `Reverse` from a state that satisfies its invariant: the runes before `i` and
after `j = n - 1 - i` are those of the reversed input, the others are still in place.  With
fuel for the iterations that remain, the loop ends with the reversed input. -/
theorem reverseLoop_spec (rs : List Nat) : ∀ (fuel : Nat) (cur : List Nat) (i : Nat),
    cur.length = rs.length →
    (∀ x, x < rs.length → cur[x]? =
      if x < i ∨ rs.length - 1 - i < x then rs[rs.length - 1 - x]? else rs[x]?) →
    2 * i ≤ rs.length → rs.length ≤ 2 * i + 2 * fuel + 1 →
    reverseLoop fuel cur i ((rs.length : Int) - 1 - i) = rs.reverse := by
  have fin : ∀ (cur : List Nat) (i : Nat), cur.length = rs.length →
      (∀ x, x < rs.length → cur[x]? =
        if x < i ∨ rs.length - 1 - i < x then rs[rs.length - 1 - x]? else rs[x]?) →
      2 * i ≤ rs.length → rs.length ≤ 2 * i + 1 → cur = rs.reverse := by
    intro cur i hlen hinv h1 h2
    apply List.ext_getElem?
    intro x
    by_cases hx : x < rs.length
    · rw [hinv x hx, List.getElem?_reverse hx]
      split_ifs with hc
      · rfl
      · have : x = rs.length - 1 - x := by omega
        rw [← this]
    · rw [List.getElem?_eq_none (by omega), List.getElem?_eq_none (by simp; omega)]
  intro fuel
  induction fuel with
  | zero =>
    intro cur i hlen hinv h1 h2
    rw [reverseLoop]
    exact fin cur i hlen hinv h1 (by omega)
  | succ k ih =>
    intro cur i hlen hinv h1 h2
    rw [reverseLoop]
    by_cases hc : (i : Int) < (rs.length : Int) - 1 - i
    · rw [if_pos hc]
      have hj : ((rs.length : Int) - 1 - i).toNat = rs.length - 1 - i := by omega
      have hj' : (rs.length : Int) - 1 - (i : Int) - 1 = (rs.length : Int) - 1 - ((i + 1 : Nat) : Int) := by
        push_cast; ring
      rw [hj, hj']
      have hi : i < cur.length := by omega
      have hjl : rs.length - 1 - i < cur.length := by omega
      apply ih
      · rw [swap_length]; exact hlen
      · intro x hx
        rw [swap_getElem? cur i _ x hi hjl]
        by_cases e1 : x = rs.length - 1 - i
        · rw [if_pos e1, hinv i (by omega)]
          have c1 : ¬ (i < i ∨ rs.length - 1 - i < i) := by omega
          have c2 : x < i + 1 ∨ rs.length - 1 - (i + 1) < x := by omega
          rw [if_neg c1, if_pos c2]
          congr 1
          omega
        · rw [if_neg e1]
          by_cases e2 : x = i
          · rw [if_pos e2, hinv _ (by omega)]
            have c1 : ¬ (rs.length - 1 - i < i ∨ rs.length - 1 - i < rs.length - 1 - i) := by
              omega
            have c2 : x < i + 1 ∨ rs.length - 1 - (i + 1) < x := by omega
            rw [if_neg c1, if_pos c2]
            congr 1
            omega
          · rw [if_neg e2, hinv x hx]
            by_cases c1 : x < i ∨ rs.length - 1 - i < x
            · have c2 : x < i + 1 ∨ rs.length - 1 - (i + 1) < x := by omega
              rw [if_pos c1, if_pos c2]
            · have c2 : ¬ (x < i + 1 ∨ rs.length - 1 - (i + 1) < x) := by omega
              rw [if_neg c1, if_neg c2]
      · omega
      · omega
    · rw [if_neg hc]
      exact fin cur i hlen hinv h1 (by omega)

/-- The loop of `Reverse` ends, and leaves the reversed runes: any fuel of at least half the
length gives this result. -/
theorem reverseLoop_reverse (rs : List Nat) (fuel : Nat) (h : rs.length ≤ 2 * fuel + 1) :
    reverseLoop fuel rs 0 ((rs.length : Int) - 1) = rs.reverse := by
  have := reverseLoop_spec rs fuel rs 0 rfl (fun x hx => by
    have c : ¬ (x < 0 ∨ rs.length - 1 - 0 < x) := by omega
    rw [if_neg c]) (by omega) (by omega)
  simpa using this

end

section
open transform utf8

namespace utf8

theorem IsRune.ofError : IsRune RuneError :=
  ⟨[0xEF, 0xBF, 0xBD], 3, RuneShape.three 0xEF 0xBF 0xBD [] (by decide) (by decide) (by decide)
    (by decide) (by decide) (by decide)⟩

theorem IsRune.ofDecode {p : GoString} (hp : p ≠ []) : IsRune (DecodeRune p).1 := by
  rcases DecodeRune_shape p hp with h | h
  · rw [h]; exact IsRune.ofError
  · exact ⟨_, _, h⟩

/-- The encoding of a rune is not empty and decodes to the rune, whatever follows it. -/
theorem IsRune.decodeEncode {r : Nat} (h : IsRune r) (q : GoString) :
    DecodeRune (EncodeRune r ++ q) = (r, (EncodeRune r).length) ∧
      1 ≤ (EncodeRune r).length := by
  obtain ⟨p, n, hs⟩ := h
  have h1 := hs.encode
  have h2 := hs.decode q
  have h3 := hs.size_pos
  have h4 : (p.take n).length = n := by
    rw [List.length_take]; omega
  rw [h1, h2, h4]
  exact ⟨rfl, h3.1⟩

end utf8

/-- Every rune of `[]rune(s)` is a Unicode scalar value. -/
theorem toRunes_isRune : ∀ (fuel : Nat) (s : GoString), ∀ r ∈ toRunes fuel s, IsRune r := by
  intro fuel
  induction fuel with
  | zero => intro s r hr; cases s <;> simp [toRunes] at hr
  | succ k ih =>
    intro s r hr
    cases s with
    | nil => simp [toRunes] at hr
    | cons b rest =>
      rw [toRunes, List.mem_cons] at hr
      rcases hr with rfl | hr
      · exact IsRune.ofDecode (by simp)
      · exact ih _ r hr

/-- Converting runes to a string and back gives the runes. -/
theorem toRunes_fromRunes : ∀ (rs : List Nat), (∀ r ∈ rs, IsRune r) → ∀ fuel : Nat,
    (fromRunes rs).length ≤ fuel → toRunes fuel (fromRunes rs) = rs
  | [], _, fuel, _ => by cases fuel <;> rfl
  | r :: rs, h, fuel, hl => by
    have hr := (h r (by simp)).decodeEncode (fromRunes rs)
    have ih := toRunes_fromRunes rs (fun x hx => h x (by simp [hx]))
    rw [fromRunes] at hl ⊢
    rw [List.length_append] at hl
    obtain ⟨b, t, hbt⟩ : ∃ b t, EncodeRune r ++ fromRunes rs = b :: t := by
      cases he : EncodeRune r with
      | nil => rw [he] at hr; simp at hr
      | cons b t => exact ⟨b, t ++ fromRunes rs, rfl⟩
    cases fuel with
    | zero => omega
    | succ k =>
      rw [hbt, toRunes, ← hbt, hr.1]
      simp only [List.drop_left]
      rw [ih k (by omega)]

/-- A string of encoded runes is valid UTF-8. -/
theorem validLoop_fromRunes : ∀ (rs : List Nat), (∀ r ∈ rs, IsRune r) → ∀ fuel : Nat,
    (fromRunes rs).length ≤ fuel → validLoop fuel (fromRunes rs) = true
  | [], _, fuel, _ => by cases fuel <;> rfl
  | r :: rs, h, fuel, hl => by
    have hr := (h r (by simp)).decodeEncode (fromRunes rs)
    have ih := validLoop_fromRunes rs (fun x hx => h x (by simp [hx]))
    rw [fromRunes] at hl ⊢
    rw [List.length_append] at hl
    obtain ⟨b, t, hbt⟩ : ∃ b t, EncodeRune r ++ fromRunes rs = b :: t := by
      cases he : EncodeRune r with
      | nil => rw [he] at hr; simp at hr
      | cons b t => exact ⟨b, t ++ fromRunes rs, rfl⟩
    have hne : ¬ (r = RuneError ∧ (EncodeRune r).length = 1) := by
      rintro ⟨rfl, h1⟩
      revert h1
      decide
    cases fuel with
    | zero => omega
    | succ k =>
      rw [hbt, validLoop.eq_3, ← hbt, hr.1]
      simp only [hne, if_false, List.drop_left]
      exact ih k (by omega)

/-- Converting valid UTF-8 to runes and back gives the same bytes. -/
theorem fromRunes_toRunes : ∀ (fuel : Nat) (s : GoString), validLoop fuel s = true →
    fromRunes (toRunes fuel s) = s := by
  intro fuel
  induction fuel with
  | zero =>
    intro s h
    cases s with
    | nil => rfl
    | cons _ _ => simp [validLoop] at h
  | succ k ih =>
    intro s h
    cases s with
    | nil => rfl
    | cons b rest =>
      rw [validLoop.eq_3] at h
      split_ifs at h with he
      rcases DecodeRune_shape (b :: rest) (by simp) with hs | hs
      · exact absurd ⟨congrArg Prod.fst hs, congrArg Prod.snd hs⟩ he
      · rw [toRunes, fromRunes, ih _ h, hs.encode]
        exact List.take_append_drop _ _

/-- What `Reverse` returns: the string of the reversed runes, and no error. -/
theorem Reverse_eq (t : GoString) : Reverse t = (fromRunes (runesOf t).reverse, none) := by
  unfold Reverse runesOf
  simp only
  rw [reverseLoop_reverse _ _ (by omega)]

/-- The runes of the result of `Reverse` are the runes of the text, reversed. -/
theorem runesOf_Reverse (t : GoString) : runesOf (Reverse t).1 = (runesOf t).reverse := by
  rw [Reverse_eq]
  exact toRunes_fromRunes _ (fun r hr => toRunes_isRune _ _ r (List.mem_reverse.mp hr)) _
    (le_refl _)

/-- Reversing twice gives the string of the runes of the text. -/
theorem Reverse_Reverse (t : GoString) :
    Reverse (Reverse t).1 = (fromRunes (runesOf t), none) := by
  rw [Reverse_eq (Reverse t).1, runesOf_Reverse, List.reverse_reverse]

/-- The string of the runes of a text is the text exactly when the text is valid UTF-8. -/
theorem fromRunes_runesOf (t : GoString) : fromRunes (runesOf t) = t ↔ utf8.Valid t = true := by
  constructor
  · intro h
    have := validLoop_fromRunes (runesOf t) (toRunes_isRune _ _) (fromRunes (runesOf t)).length
      (le_refl _)
    rw [h] at this
    exact this
  · intro h
    exact fromRunes_toRunes _ _ h

end

section
open transform utf8

set_option maxRecDepth 100000 in
/-- C13, counterexample: the one-byte string 0xFF (not valid UTF-8) is reversed without error,
but reversing twice gives the three bytes of U+FFFD, not the string itself. -/
theorem C13_counterexample :
    (Reverse [0xFF]).2 = none ∧ (Reverse (Reverse [0xFF]).1).2 = none ∧
    (Reverse (Reverse [0xFF]).1).1 = [0xEF, 0xBF, 0xBD] ∧
    (Reverse (Reverse [0xFF]).1).1 ≠ [0xFF] := by
  decide

set_option maxRecDepth 100000 in
/-- C13 (amended): `Reverse` never fails, and `Reverse(Reverse(t))` is the string of the runes
of `t`, that is, `t` with every byte that is not part of a valid UTF-8 encoding replaced by
U+FFFD; it is `t` itself exactly when `t` is valid UTF-8.  `Reverse("")` is `""` and
`Reverse("a")` is `"a"`. -/
theorem C13_reverse_involution (t : GoString) :
    (Reverse t).2 = none ∧ (Reverse (Reverse t).1).2 = none ∧
    (Reverse (Reverse t).1).1 = fromRunes (runesOf t) ∧
    ((Reverse (Reverse t).1).1 = t ↔ utf8.Valid t = true) ∧
    Reverse (ascii "") = (ascii "", none) ∧ Reverse (ascii "a") = (ascii "a", none) := by
  refine ⟨rfl, rfl, ?_, ?_, by decide, by decide⟩
  · rw [Reverse_Reverse]
  · rw [Reverse_Reverse]
    exact fromRunes_runesOf t

set_option maxRecDepth 100000 in
/-- C13 at the valid UTF-8 text `héllo` (with a two-byte rune): reversing twice gives it
back. -/
theorem C13_reverse_involution_witness :
    utf8.Valid [0x68, 0xC3, 0xA9, 0x6C, 0x6C, 0x6F] = true ∧
    (Reverse [0x68, 0xC3, 0xA9, 0x6C, 0x6C, 0x6F]).1 = [0x6F, 0x6C, 0x6C, 0xC3, 0xA9, 0x68] ∧
    (Reverse (Reverse [0x68, 0xC3, 0xA9, 0x6C, 0x6C, 0x6F]).1).1 =
      [0x68, 0xC3, 0xA9, 0x6C, 0x6C, 0x6F] :=
  ⟨by decide, by decide,
    (C13_reverse_involution [0x68, 0xC3, 0xA9, 0x6C, 0x6C, 0x6F]).2.2.2.1.mpr (by decide)⟩

set_option maxRecDepth 100000 in
/-- C14: for every text `t`, the swap loop of `Reverse` ends (any number of iterations of at
least half the number of runes gives the same result) and leaves the runes of `t` reversed;
`Reverse` returns their string without error, and the runes of the result are those of `t` in
reverse order: as many, the rune at position `i` being the one at position `n - 1 - i` of `t`.
So `hello` gives `olleh` and `abc` gives `cba`. -/
theorem C14_reverse_runes (t : GoString) :
    (∀ fuel : Nat, (runesOf t).length ≤ 2 * fuel + 1 →
      reverseLoop fuel (runesOf t) 0 (((runesOf t).length : Int) - 1) = (runesOf t).reverse) ∧
    Reverse t = (fromRunes (runesOf t).reverse, none) ∧
    runesOf (Reverse t).1 = (runesOf t).reverse ∧
    (runesOf (Reverse t).1).length = (runesOf t).length ∧
    (∀ i, i < (runesOf t).length →
      (runesOf (Reverse t).1)[i]? = (runesOf t)[(runesOf t).length - 1 - i]?) ∧
    Reverse (ascii "hello") = (ascii "olleh", none) ∧
    Reverse (ascii "abc") = (ascii "cba", none) := by
  refine ⟨fun fuel h => reverseLoop_reverse _ fuel h, Reverse_eq t, runesOf_Reverse t, ?_, ?_,
    by decide, by decide⟩
  · rw [runesOf_Reverse, List.length_reverse]
  · intro i hi
    rw [runesOf_Reverse, List.getElem?_reverse hi]

end

/-! ## The Windows clipboard: what `Read` returns -/

section
open clipboard strings

namespace strings

/-- With fuel for the whole text, replacing CR LF by LF is `crlfToLf`. -/
theorem replaceLoop_crlf : ∀ (s : GoString) (fuel : Nat), s.length ≤ fuel →
    replaceLoop [0x0D, 0x0A] [0x0A] fuel s = crlfToLf s
  | [], fuel, _ => by cases fuel <;> rfl
  | [c], fuel, hl => by
    cases fuel with
    | zero => simp at hl
    | succ k =>
      rw [replaceLoop, crlfToLf]
      have h' : ¬ (([c] : GoString).take ([0x0D, 0x0A] : GoString).length = [0x0D, 0x0A]) := by
        simp
      rw [if_neg h']
      cases k <;> rfl
  | a :: b :: rest, fuel, hl => by
    cases fuel with
    | zero => simp at hl
    | succ k =>
      simp only [List.length_cons] at hl
      rw [replaceLoop, crlfToLf]
      by_cases h : a = 0x0D ∧ b = 0x0A
      · obtain ⟨rfl, rfl⟩ := h
        simp only [List.length_cons, List.length_nil, List.take_succ_cons, List.take_zero,
          if_true, and_self, List.drop_succ_cons, List.drop_zero, List.singleton_append]
        rw [replaceLoop_crlf rest k (by omega)]
      · have h' : ¬ ((a :: b :: rest).take ([0x0D, 0x0A] : GoString).length = [0x0D, 0x0A]) := by
          simpa using h
        rw [if_neg h', if_neg h, replaceLoop_crlf (b :: rest) k (by simp; omega)]

theorem ReplaceAll_crlf (s : GoString) : ReplaceAll s (ascii "\r\n") (ascii "\n") = crlfToLf s :=
  replaceLoop_crlf s s.length (le_refl _)

theorem TrimRight_nil (cut : GoString) : TrimRight [] cut = [] := rfl

theorem TrimRight_concat (u : GoString) (c : Nat) (cut : GoString) :
    TrimRight (u ++ [c]) cut = if c ∈ cut then TrimRight u cut else u ++ [c] := by
  unfold TrimRight
  rw [List.reverse_append, List.reverse_singleton, List.singleton_append, List.dropWhile_cons]
  by_cases h : c ∈ cut
  · simp [h]
  · simp [h]

theorem TrimRight_length (cut : GoString) (s : GoString) : (TrimRight s cut).length ≤ s.length := by
  unfold TrimRight
  rw [List.length_reverse]
  have := (List.dropWhile_sublist (fun c => decide (c ∈ cut)) : List.Sublist _ s.reverse).length_le
  simpa using this

/-- What `TrimRight(s, "\n")` leaves: `s` without all of its trailing newlines. -/
theorem TrimRight_newlines (s : GoString) :
    ∃ k, s = TrimRight s [0x0A] ++ List.replicate k 0x0A ∧
      (TrimRight s [0x0A]).getLast? ≠ some 0x0A := by
  induction s using List.reverseRecOn with
  | nil => exact ⟨0, rfl, by simp [TrimRight]⟩
  | append_singleton u c ih =>
    rw [TrimRight_concat]
    by_cases h : c = 0x0A
    · subst h
      obtain ⟨k, h1, h2⟩ := ih
      refine ⟨k + 1, ?_, ?_⟩
      · simp only [List.mem_singleton, if_true]
        rw [List.replicate_succ', ← List.append_assoc, ← h1]
      · simpa using h2
    · have hc : c ∉ ([0x0A] : GoString) := by simpa using h
      rw [if_neg hc]
      exact ⟨0, by simp, by simpa using h⟩

theorem TrimRight_fixed (u : GoString) :
    TrimRight u [0x0A] = u ↔ u.getLast? ≠ some 0x0A := by
  rcases List.eq_nil_or_concat u with rfl | ⟨v, d, rfl⟩
  · simp [TrimRight]
  · rw [List.concat_eq_append, TrimRight_concat]
    by_cases h : d = 0x0A
    · subst h
      have e0 : (v ++ [0x0A]).getLast? = some 0x0A := by simp
      simp only [List.mem_singleton, if_true, e0, ne_eq, not_true_eq_false, iff_false]
      intro hh
      have := TrimRight_length [0x0A] v
      rw [hh] at this
      simp at this
    · have hc : d ∉ ([0x0A] : GoString) := by simpa using h
      rw [if_neg hc]
      simp [h]

/-- Stripping all trailing newlines is stripping a single one exactly when the text does not
end in two newlines. -/
theorem TrimRight_stripOne (s : GoString) :
    TrimRight s [0x0A] = stripOneNewline s ↔ ¬ ∃ u, s = u ++ [0x0A, 0x0A] := by
  rcases List.eq_nil_or_concat s with rfl | ⟨u, c, rfl⟩
  · simp [TrimRight, stripOneNewline]
  · rw [List.concat_eq_append, TrimRight_concat]
    by_cases h : c = 0x0A
    · subst h
      have e1 : stripOneNewline (u ++ [0x0A]) = u := by simp [stripOneNewline]
      rw [e1]
      simp only [List.mem_singleton, if_true]
      rw [TrimRight_fixed]
      constructor
      · rintro h1 ⟨w, hw⟩
        have : u = w ++ [0x0A] := by
          have := congrArg List.dropLast hw
          simpa [List.dropLast_append_of_ne_nil] using this
        apply h1
        rw [this]
        simp
      · intro h1 h2
        apply h1
        rcases List.eq_nil_or_concat u with rfl | ⟨w, d, rfl⟩
        · simp at h2
        · rw [List.concat_eq_append] at h2 ⊢
          simp at h2
          subst h2
          exact ⟨w, by simp⟩
    · have hc : c ∉ ([0x0A] : GoString) := by simpa using h
      rw [if_neg hc]
      have e1 : stripOneNewline (u ++ [c]) = u ++ [c] := by simp [stripOneNewline, h]
      rw [e1]
      simp only [true_iff]
      rintro ⟨w, hw⟩
      have := congrArg List.getLast? hw
      simp at this
      exact h this

end strings

end

section
open clipboard strings

set_option maxRecDepth 100000 in
/-- C15, counterexample: for the output `a`, CR LF, CR LF (the text `a` with a blank line, as
PowerShell writes it), the text normalised to LF is `a` followed by two newlines; stripping a
single newline would leave `a` and one newline, but `Read` returns `a` alone. -/
theorem C15_counterexample :
    crlfToLf (ascii "a\r\n\r\n") = ascii "a\n\n" ∧
    stripOneNewline (crlfToLf (ascii "a\r\n\r\n")) = ascii "a\n" ∧
    windowsClipboard.Read ⟨none, ascii "a\r\n\r\n", []⟩ = (ascii "a", none) ∧
    (windowsClipboard.Read ⟨none, ascii "a\r\n\r\n", []⟩).1 ≠
      stripOneNewline (crlfToLf (ascii "a\r\n\r\n")) := by
  decide

/-- C15 (amended): for every output `s` of a paste subprocess that ran without error, `Read`
returns, without error, `s` with every CR LF pair replaced by LF and then with all of its
trailing newlines stripped: the result does not end in a newline, and the normalised text is
the result followed by newlines only.  This is the normalised text less a single trailing
newline exactly when the normalised text does not end in two newlines. -/
theorem C15_read_trims (s stderr : GoString) :
    windowsClipboard.Read ⟨none, s, stderr⟩ = (TrimRight (crlfToLf s) [0x0A], none) ∧
    (∃ k, crlfToLf s = (windowsClipboard.Read ⟨none, s, stderr⟩).1 ++ List.replicate k 0x0A) ∧
    (windowsClipboard.Read ⟨none, s, stderr⟩).1.getLast? ≠ some 0x0A ∧
    ((windowsClipboard.Read ⟨none, s, stderr⟩).1 = stripOneNewline (crlfToLf s) ↔
      ¬ List.IsSuffix [0x0A, 0x0A] (crlfToLf s)) := by
  have h : windowsClipboard.Read ⟨none, s, stderr⟩ = (TrimRight (crlfToLf s) [0x0A], none) := by
    simp only [windowsClipboard.Read, ReplaceAll_crlf]
    rfl
  rw [h]
  obtain ⟨k, h1, h2⟩ := TrimRight_newlines (crlfToLf s)
  refine ⟨rfl, ⟨k, h1⟩, h2, ?_⟩
  rw [TrimRight_stripOne (crlfToLf s)]
  constructor
  · rintro h3 ⟨u, hu⟩
    exact h3 ⟨u, hu.symm⟩
  · rintro h3 ⟨u, hu⟩
    exact h3 ⟨u, hu.symm⟩

set_option maxRecDepth 100000 in
/-- C15 at the output of two lines, each ended by CR LF: the lines come back separated by LF,
without the newline at the end. -/
theorem C15_read_trims_witness :
    windowsClipboard.Read ⟨none, ascii "line1\r\nline2\r\n", []⟩ = (ascii "line1\nline2", none) ∧
    (windowsClipboard.Read ⟨none, ascii "line1\r\nline2\r\n", []⟩).1 =
      stripOneNewline (crlfToLf (ascii "line1\r\nline2\r\n")) :=
  ⟨by decide, (C15_read_trims (ascii "line1\r\nline2\r\n") []).2.2.2.mpr (by decide)⟩

end

/-! ## The history command -/

section
open clipctl history

set_option maxRecDepth 1000000 in
theorem New_envTwo : New envTwo = (some histTwo, none) := by
  rfl

/-- The listing step neither writes to the clipboard nor exits with status 1. -/
theorem listHistory_effects (hist : History) (o : Options) (ft : time.Time → GoString) :
    (listHistory hist o ft).clipboard = [] ∧
    ((listHistory hist o ft).ending = .returned ∨ (listHistory hist o ft).ending = .panic) := by
  unfold listHistory
  dsimp only
  split_ifs with h1 h2
  · exact ⟨rfl, Or.inl rfl⟩
  · cases sliceTo hist.List o.limit with
    | none => exact ⟨rfl, Or.inr rfl⟩
    | some es => exact ⟨rfl, Or.inl rfl⟩
  · exact ⟨rfl, Or.inl rfl⟩

/-- With a negative index (as without `-g`), `handleHistory` is the listing step. -/
theorem handleHistory_list (env : Env) (hist : History) (args : List GoString)
    (sscan : GoString → Option Int) (clip : Clip) (ft : time.Time → GoString)
    (hnew : New env = (some hist, none))
    (hneg : (parseOptions sscan (args.drop 2) ⟨10, false, -1⟩).getIndex < 0) :
    handleHistory env args sscan clip ft =
      listHistory hist (parseOptions sscan (args.drop 2) ⟨10, false, -1⟩) ft := by
  unfold handleHistory
  rw [hnew]
  dsimp only
  rw [if_neg (by omega)]

/-- C16: for a loaded history and the integer `I` given to `-g` or `--get`: if `I` is at least
the length, the command prints the error `index out of range`, ends with exit status 1, writes
nothing to the clipboard and prints no listing; if `I` is within range, it prints no listing,
and with a clipboard available it hands exactly the content of entry `I` to the clipboard's
`Write`, ending normally if the write succeeds and with exit status 1 if not (and with exit
status 1 and no write if no clipboard is available).  But a negative `I`, which `History.Get`
rejects with `index out of range` like any other index outside the range, never reaches
`History.Get`: it is the value that stands for an absent `-g`, the test `getIndex >= 0` fails,
and the command runs the listing step, writes nothing to the clipboard and does not end with
exit status 1. -/
theorem C16_get_index (env : Env) (hist : History) (args : List GoString)
    (sscan : GoString → Option Int) (clip : Clip) (ft : time.Time → GoString) (I : Int)
    (hnew : New env = (some hist, none))
    (hI : (parseOptions sscan (args.drop 2) ⟨10, false, -1⟩).getIndex = I) :
    ((hist.List.length : Int) ≤ I →
      handleHistory env args sscan clip ft =
        ⟨.exit 1, .nothing, [.error ⟨ascii "index out of range", none⟩], []⟩) ∧
    (0 ≤ I → I < (hist.List.length : Int) →
      (handleHistory env args sscan clip ft).stdout = .nothing ∧
      hist.List[I.toNat]? = some (hist.Get I).1 ∧
      (∀ err, clip.newErr = some err →
        handleHistory env args sscan clip ft = ⟨.exit 1, .nothing, [.error err], []⟩) ∧
      (clip.newErr = none →
        (handleHistory env args sscan clip ft).clipboard = [(hist.Get I).1.Content] ∧
        (clip.write.err = none → (handleHistory env args sscan clip ft).ending = .returned) ∧
        (clip.write.err ≠ none → (handleHistory env args sscan clip ft).ending = .exit 1))) ∧
    (I < 0 →
      (hist.Get I).2 = some ⟨ascii "index out of range", none⟩ ∧
      handleHistory env args sscan clip ft =
        listHistory hist (parseOptions sscan (args.drop 2) ⟨10, false, -1⟩) ft ∧
      (handleHistory env args sscan clip ft).clipboard = [] ∧
      (handleHistory env args sscan clip ft).ending.status ≠ 1) := by
  refine ⟨fun h1 => ?_, fun h0 h1 => ?_, fun h1 => ?_⟩
  · have h0 : (0 : Int) ≤ I := by
      have : (0 : Int) ≤ (hist.List.length : Int) := Int.natCast_nonneg _
      omega
    unfold handleHistory
    rw [hnew]
    dsimp only
    rw [hI, if_pos h0]
    have hg : hist.Get I = (Entry.zero, some ⟨ascii "index out of range", none⟩) := by
      have h1' : (hist.entries.length : Int) ≤ I := h1
      unfold History.Get
      rw [dif_pos (Or.inr h1')]
    rw [hg]
  · have hr : ¬ (I < 0 ∨ (hist.entries.length : Int) ≤ I) := by
      unfold History.List at h1
      omega
    have hg : (hist.Get I).2 = none := by
      unfold History.Get
      rw [dif_neg hr]
    have hget : hist.List[I.toNat]? = some (hist.Get I).1 := by
      unfold History.Get History.List
      rw [dif_neg hr]
      simp [List.getElem?_eq_getElem]
    have hw : clipboard.Write clip.write = none ↔ clip.write.err = none := by
      unfold clipboard.Write
      cases clip.write.err <;> simp
    unfold handleHistory
    rw [hnew]
    dsimp only
    rw [hI, if_pos h0]
    obtain ⟨e, ge⟩ : ∃ e, hist.Get I = (e, none) := ⟨(hist.Get I).1, by rw [← hg]⟩
    rw [ge]
    dsimp only
    refine ⟨?_, ?_, ?_, ?_⟩
    · cases clip.newErr <;> [skip; rfl]
      cases clipboard.Write clip.write <;> rfl
    · rw [ge] at hget
      exact hget
    · intro err herr
      rw [herr]
    · intro hn
      rw [hn]
      dsimp only
      cases hcw : clipboard.Write clip.write with
      | none =>
        refine ⟨rfl, fun _ => rfl, fun hne => ?_⟩
        exact absurd (hw.mp hcw) hne
      | some err =>
        refine ⟨rfl, fun he => ?_, fun _ => rfl⟩
        rw [hw.mpr he] at hcw
        cases hcw
  · have hl := handleHistory_list env hist args sscan clip ft hnew (by rw [hI]; exact h1)
    have he := listHistory_effects hist (parseOptions sscan (args.drop 2) ⟨10, false, -1⟩) ft
    have hg : (hist.Get I).2 = some ⟨ascii "index out of range", none⟩ := by
      unfold History.Get
      rw [dif_pos (Or.inl h1)]
    rw [hl]
    refine ⟨hg, rfl, he.1, ?_⟩
    rcases he.2 with h | h <;> rw [h] <;> decide

set_option maxRecDepth 1000000 in
/-- C16 at a history of two entries: `history -g -1` does not take the error path, although
`History.Get` rejects the index -1: it prints the listing of both entries, writes nothing to
the clipboard and ends with exit status 0; `-g 1` hands the content `a` of entry 1 to the
clipboard and ends normally, and `--get 5` ends with exit status 1 without a write or a
listing. -/
theorem C16_get_index_witness :
    (histTwo.Get (-1)).2 = some ⟨ascii "index out of range", none⟩ ∧
    handleHistory envTwo [ascii "clipctl", ascii "history", ascii "-g", ascii "-1"] sscanSmall
        clipOk (fun _ => ascii "now") =
      ⟨.returned, .table [(0, ascii "now", ascii "b"), (1, ascii "now", ascii "a")], [], []⟩ ∧
    (handleHistory envTwo [ascii "clipctl", ascii "history", ascii "-g", ascii "-1"] sscanSmall
        clipOk (fun _ => ascii "now")).ending.status = 0 ∧
    (handleHistory envTwo [ascii "clipctl", ascii "history", ascii "-g", ascii "1"] sscanSmall
        clipOk (fun _ => ascii "now")).clipboard = [ascii "a"] ∧
    (handleHistory envTwo [ascii "clipctl", ascii "history", ascii "-g", ascii "1"] sscanSmall
        clipOk (fun _ => ascii "now")).ending = .returned ∧
    handleHistory envTwo [ascii "clipctl", ascii "history", ascii "--get", ascii "5"] sscanSmall
        clipOk (fun _ => ascii "now") =
      ⟨.exit 1, .nothing, [.error ⟨ascii "index out of range", none⟩], []⟩ :=
  ⟨((C16_get_index envTwo histTwo [ascii "clipctl", ascii "history", ascii "-g", ascii "-1"]
      sscanSmall clipOk (fun _ => ascii "now") (-1) New_envTwo (by decide)).2.2 (by decide)).1,
   ((C16_get_index envTwo histTwo [ascii "clipctl", ascii "history", ascii "-g", ascii "-1"]
      sscanSmall clipOk (fun _ => ascii "now") (-1) New_envTwo (by decide)).2.2
      (by decide)).2.1.trans (by decide),
   by decide,
   (((C16_get_index envTwo histTwo [ascii "clipctl", ascii "history", ascii "-g", ascii "1"]
      sscanSmall clipOk (fun _ => ascii "now") 1 New_envTwo (by decide)).2.1 (by decide)
      (by decide)).2.2.2 rfl).1,
   ((((C16_get_index envTwo histTwo [ascii "clipctl", ascii "history", ascii "-g", ascii "1"]
      sscanSmall clipOk (fun _ => ascii "now") 1 New_envTwo (by decide)).2.1 (by decide)
      (by decide)).2.2.2 rfl).2).1 rfl,
   (C16_get_index envTwo histTwo [ascii "clipctl", ascii "history", ascii "--get", ascii "5"]
      sscanSmall clipOk (fun _ => ascii "now") 5 New_envTwo (by decide)).1 (by decide)⟩

end

section
open clipctl history

/-- The listing step with `-n N` and without `-a`: an empty history gives the line `No history
entries`; a negative `N` on a history that is not empty takes the slice `entries[:N]` and
panics; otherwise the table shows the first `N` entries, or all of them if there are fewer. -/
theorem listHistory_limit (hist : History) (N g : Int) (ft : time.Time → GoString) :
    (hist.List = [] → listHistory hist ⟨N, false, g⟩ ft = ⟨.returned, .noEntries, [], []⟩) ∧
    (hist.List ≠ [] → N < 0 →
      sliceTo hist.List N = none ∧
      listHistory hist ⟨N, false, g⟩ ft = ⟨.panic, .nothing, [], []⟩) ∧
    (hist.List ≠ [] → 0 ≤ N →
      (listHistory hist ⟨N, false, g⟩ ft).ending = .returned ∧
      (listHistory hist ⟨N, false, g⟩ ft).stdout = .table ((hist.List.take N.toNat).enum.map
        (fun ie => (ie.1, ft ie.2.Timestamp, displayContent ie.2.Content))) ∧
      ((hist.List.take N.toNat).enum.map
        (fun ie => (ie.1, ft ie.2.Timestamp, displayContent ie.2.Content))).length =
          min N.toNat hist.List.length) := by
  refine ⟨fun h => ?_, fun h hN => ?_, fun h hN => ?_⟩
  · unfold listHistory
    simp [h]
  · have hlen : hist.List.length ≠ 0 := fun hh => h (List.length_eq_zero.mp hh)
    have hs : sliceTo hist.List N = none := by
      unfold sliceTo
      rw [if_neg (by omega)]
    refine ⟨hs, ?_⟩
    unfold listHistory
    dsimp only
    rw [if_neg hlen, if_pos ⟨rfl, by omega⟩, hs]
  · have hlen : hist.List.length ≠ 0 := fun hh => h (List.length_eq_zero.mp hh)
    unfold listHistory
    dsimp only
    rw [if_neg hlen]
    by_cases hc : N < (hist.List.length : Int)
    · have hs : sliceTo hist.List N = some (hist.List.take N.toNat) := by
        unfold sliceTo
        rw [if_pos ⟨hN, by omega⟩]
      rw [if_pos ⟨rfl, hc⟩, hs]
      refine ⟨rfl, rfl, ?_⟩
      simp
    · have ht : hist.List.take N.toNat = hist.List := by
        apply List.take_of_length_le
        omega
      rw [if_neg (fun hh => hc hh.2), ht]
      refine ⟨rfl, rfl, ?_⟩
      simp
      omega

/-- C17: for a loaded history and the arguments `-n N` without `-a` and without `-g`, an empty
history prints `No history entries`, and for `N >= 0` the table has `min(N, len)` rows, the
first entries of the list (newest first), the slice `entries[:N]` being taken only with
`0 <= N < len`; but for a negative `N` and a history that is not empty, the guard
`len(entries) > limit` holds, the slice `entries[:N]` is out of bounds and the command
panics. -/
theorem C17_listing_limit (env : Env) (hist : History) (args : List GoString)
    (sscan : GoString → Option Int) (clip : Clip) (ft : time.Time → GoString) (N : Int)
    (hnew : New env = (some hist, none))
    (ho : parseOptions sscan (args.drop 2) ⟨10, false, -1⟩ = ⟨N, false, -1⟩) :
    (hist.List = [] →
      handleHistory env args sscan clip ft = ⟨.returned, .noEntries, [], []⟩) ∧
    (hist.List ≠ [] → N < 0 →
      sliceTo hist.List N = none ∧
      handleHistory env args sscan clip ft = ⟨.panic, .nothing, [], []⟩) ∧
    (hist.List ≠ [] → 0 ≤ N →
      (handleHistory env args sscan clip ft).ending = .returned ∧
      (handleHistory env args sscan clip ft).stdout = .table ((hist.List.take N.toNat).enum.map
        (fun ie => (ie.1, ft ie.2.Timestamp, displayContent ie.2.Content))) ∧
      ((hist.List.take N.toNat).enum.map
        (fun ie => (ie.1, ft ie.2.Timestamp, displayContent ie.2.Content))).length =
          min N.toNat hist.List.length) := by
  have hl := handleHistory_list env hist args sscan clip ft hnew (by rw [ho]; exact (by decide : (-1 : Int) < 0))
  rw [hl, ho]
  exact listHistory_limit hist N (-1) ft

set_option maxRecDepth 1000000 in
/-- C17 at a history of two entries: `history -n -1` panics, and `history -n 1` shows one
row, the newest entry. -/
theorem C17_listing_limit_witness :
    handleHistory envTwo [ascii "clipctl", ascii "history", ascii "-n", ascii "-1"] sscanSmall
        clipOk (fun _ => ascii "now") = ⟨.panic, .nothing, [], []⟩ ∧
    (handleHistory envTwo [ascii "clipctl", ascii "history", ascii "-n", ascii "-1"] sscanSmall
        clipOk (fun _ => ascii "now")).ending.status = 2 ∧
    (handleHistory envTwo [ascii "clipctl", ascii "history", ascii "-n", ascii "1"] sscanSmall
        clipOk (fun _ => ascii "now")).stdout = .table [(0, ascii "now", ascii "b")] :=
  ⟨((C17_listing_limit envTwo histTwo [ascii "clipctl", ascii "history", ascii "-n", ascii "-1"]
      sscanSmall clipOk (fun _ => ascii "now") (-1) New_envTwo (by decide)).2.1 (List.cons_ne_nil _ _)
      (by decide)).2,
   by decide,
   ((C17_listing_limit envTwo histTwo [ascii "clipctl", ascii "history", ascii "-n", ascii "1"]
      sscanSmall clipOk (fun _ => ascii "now") 1 New_envTwo (by decide)).2.2 (List.cons_ne_nil _ _)
      (by decide)).2.1⟩

end
